import Mathlib

/-!
# Entropy pool feeder (`epf`): a shallow embedding and its verified properties

The definitions below are translated from the C++ sources of the repository
(`BinHexConverter.cpp`, `XorCryptor.cpp`, `HttpClient.cpp`, `HttpResponse.cpp`,
`CryptoToken.cpp`, `RSACryptor.cpp`, `SHA256.cpp`, `Configuration.cpp`, `Property.cpp`,
`epf.cpp`).  Conventions of the embedding:

* an `unsigned char` / `uint8_t` is a `Byte` (`UInt8`);
* a `char` of text (`std::string`, `char*` holding text) is a `Char`, a string is a
  `List Char`;
* a C buffer passed as `(pointer, size)` is the list of its `size` elements;
* a function that mutates a buffer in place and returns `bool` returns the pair
  `(result, buffer afterwards)`; a function whose output is only meaningful when it
  returns `true` returns an `Option`;
* the OpenSSL primitives (SHA-256, RSA) are parameters of the definitions that call them.
-/

namespace Epf

/-- An octet (`unsigned char`, `uint8_t`). -/
abbrev Byte := UInt8

/-! ## `XorCryptor.cpp` -/

namespace XorCryptor

/-- The `for` loop of `XorCryptor::crypt`: `bytes[i] ^= cryptoKey[keyIndex++]`, with
`keyIndex` reset to `0` when it reaches `cryptoKeySize`.  The second argument is the rest
of the buffer from index `i` on, the third is `keyIndex`.  (`keyIndex` stays below the key
size, so the default of `getD` is never used when the key is non-empty.) -/
def cryptLoop (cryptoKey : List Byte) : List Byte → Nat → List Byte
  | [], _ => []
  | b :: bs, keyIndex =>
    (b ^^^ cryptoKey.getD keyIndex 0) ::
      cryptLoop cryptoKey bs (if keyIndex + 1 ≥ cryptoKey.length then 0 else keyIndex + 1)

/-- Embedding of `XorCryptor::crypt(bytes, byteCount, cryptoKey, cryptoKeySize)`:
returns `false` and leaves the buffer alone when `byteCount <= 1` or `cryptoKeySize < 1`,
otherwise XORs the buffer in place and returns `true`. -/
def crypt (bytes : List Byte) (cryptoKey : List Byte) : Bool × List Byte :=
  if bytes.length ≤ 1 ∨ cryptoKey.length < 1 then (false, bytes)
  else (true, cryptLoop cryptoKey bytes 0)

end XorCryptor

/-! ## `BinHexConverter.cpp` -/

namespace BinHexConverter

/-- The digit `printf` writes for the nibble `n` under the conversion `%X`. -/
def hexDigitUpper (n : Nat) : Char :=
  if n < 10 then Char.ofNat (48 + n) else Char.ofNat (55 + n)

/-- The two characters written by `sprintf(out, "%02X", inputBytes[i])`. -/
def sprintf02X (b : Byte) : List Char :=
  [hexDigitUpper (b.toNat / 16), hexDigitUpper (b.toNat % 16)]

/-- The `for` loop of `BinHexConverter::toHex`. -/
def toHexLoop : List Byte → List Char
  | [] => []
  | b :: bs => sprintf02X b ++ toHexLoop bs

/-- Embedding of `BinHexConverter::toHex(inputBytes, inputBytesSize, outputHex)`: `none`
when it returns `false` (`inputBytesSize <= 0`), otherwise the text written to `outputHex`
(before the terminating NUL). -/
def toHex (inputBytes : List Byte) : Option (List Char) :=
  if inputBytes.length ≤ 0 then none else some (toHexLoop inputBytes)

/-- The value of one hexadecimal digit as accepted by `BinHexConverter::toInt`:
`c - 0x30` for `'0'..'9'`, `c - 87` for `'a'..'f'`, failure otherwise. -/
def digitValue (c : Char) : Option Nat :=
  if '0' ≤ c ∧ c ≤ '9' then some (c.toNat - 0x30)
  else if 'a' ≤ c ∧ c ≤ 'f' then some (c.toNat - 87)
  else none

/-- Embedding of `BinHexConverter::toInt(high, lower, byte)`: `none` when it returns
`false`, otherwise the byte `(c1 << 4) | c2`. -/
def toInt (high lower : Char) : Option Byte :=
  match digitValue high with
  | none => none
  | some c1 =>
    match digitValue lower with
    | none => none
    | some c2 => some (UInt8.ofNat ((c1 <<< 4) ||| c2))

/-- How a call of `BinHexConverter::toBin` ends. -/
inductive BinOutcome where
  /-- it returned: `none` for `false`, otherwise the bytes written to `outputBytes` -/
  | returned (outputBytes : Option (List Byte))
  /-- it read a character past the end of the array `inputHexChars` points into -/
  | readPast
deriving DecidableEq

/-- The `for (int i = 0; i < inputHexCharSize; i += 2)` loop of `BinHexConverter::toBin`.
Arguments: `inputHexCharSize - i` (the loop runs while it is positive) and the characters
the array holds from `inputHexChars[i]` on.  Every round reads `inputHexChars[i]` and
`inputHexChars[i+1]`, whether or not `i + 1` is below `inputHexCharSize`. -/
def toBinLoop : Nat → List Char → BinOutcome
  | 0, _ => .returned (some [])
  | n + 1, h :: l :: memory =>
    match toInt h.toLower l.toLower with
    | none => .returned none
    | some byte =>
      match toBinLoop (n - 1) memory with
      | .returned (some outputBytes) => .returned (some (byte :: outputBytes))
      | outcome => outcome
  | _ + 1, _ => .readPast

/-- Embedding of `BinHexConverter::toBin(inputHexChars, inputHexCharSize, outputBytes)` for
a pointer `inputHexChars` into an array that holds the characters `memory` from the
pointer on (the size passed may be smaller or larger than what the array holds). -/
def toBinAt (memory : List Char) (inputHexCharSize : Int) : BinOutcome :=
  if inputHexCharSize ≤ 0 then .returned none
  else toBinLoop inputHexCharSize.toNat memory

/-- The call `toBin((char*) s.c_str(), (int) s.size(), outputBytes)` on the characters
`inputHexChars` of a string `s`, which is how the program calls `BinHexConverter::toBin`
(in `CryptoToken::loadTokenFomText`): the array `c_str()` points to holds the characters
and the terminating NUL.  `none` when the call returns `false`, otherwise the bytes
written to `outputBytes`. -/
def toBin (inputHexChars : List Char) : Option (List Byte) :=
  match toBinAt (inputHexChars ++ [Char.ofNat 0]) inputHexChars.length with
  | .returned outputBytes => outputBytes
  | .readPast => none

end BinHexConverter

/-! ## `epf.cpp`: the two queues -/

/-- The migration loop of `downloadBytes`,
`for (int i = 0; i < (int) deq1.size(); i++) { deq2.push_back(deq1.front()); deq1.pop_front(); }`.
The bound `deq1.size()` is evaluated again before every round, on the queue that has
already lost its front elements.  Arguments: `i`, `deq1`, `deq2`; result: the two queues
after the loop. -/
def migrateLoop : Nat → List Byte → List Byte → List Byte × List Byte
  | _, [], deq2 => ([], deq2)
  | i, x :: deq1, deq2 =>
    if i < (x :: deq1).length then migrateLoop (i + 1) deq1 (deq2 ++ [x])
    else (x :: deq1, deq2)

/-- The migration step of `downloadBytes`, run under the mutex:
`if ((int)deq2.size() < maxDeqSizeBytes / 2) { ...loop... }` (`/` is C integer division).
Result: `(deq1, deq2)` afterwards. -/
def migrate (maxDeqSizeBytes : Int) (deq1 deq2 : List Byte) : List Byte × List Byte :=
  if (deq2.length : Int) < Int.tdiv maxDeqSizeBytes 2 then migrateLoop 0 deq1 deq2
  else (deq1, deq2)

/-- The append loop of `downloadBytes` after a successful exchange,
`for (int i = 0; i < requestSize; i++) deq1.push_back(rndBytes[i]);`, on the `requestSize`
bytes of `rndBytes` still to be pushed. -/
def pushLoop : List Byte → List Byte → List Byte
  | [], deq1 => deq1
  | b :: rndBytes, deq1 => pushLoop rndBytes (deq1 ++ [b])

/-- The record handed to the `RNDADDENTROPY` ioctl by `feedEntropyPool`. -/
structure EntropyRecord where
  entropy_count : Int
  buf_size : Int
  data : List Byte
deriving DecidableEq

/-- The fill loop of `feedEntropyPool`,
`for (int i = 0; i < addMoreBytes; i++) { entropy.data[i] = deq2.front(); deq2.pop_front(); }`.
Arguments: the number of rounds left and `deq2`; result: the bytes written to
`entropy.data` and `deq2` afterwards.  (`front()` of an empty queue is never reached, as
`addMoreBytes` is clamped to `deq2.size()`.) -/
def fillLoop : Nat → List Byte → List Byte × List Byte
  | 0, deq2 => ([], deq2)
  | _ + 1, [] => ([], [])
  | n + 1, x :: deq2 => ((x :: (fillLoop n deq2).1), (fillLoop n deq2).2)

/-- One round of the feeder loop of `feedEntropyPool` between locking and unlocking the
mutex, for the entropy count `entropyAvailable` returned by the `RNDGETENTCNT` ioctl:
the record submitted through `RNDADDENTROPY` (if the guard holds) and `deq2` afterwards. -/
def feedStep (entropyPoolSizeBytes entropyAvailable : Int) (deq2 : List Byte) :
    Option EntropyRecord × List Byte :=
  if entropyAvailable < Int.tdiv (entropyPoolSizeBytes * 8) 2 ∧ deq2.length > 0 then
    let addMoreBytes : Int := entropyPoolSizeBytes - (entropyAvailable >>> 3)
    let addMoreBytes : Int :=
      if addMoreBytes > (deq2.length : Int) then (deq2.length : Int) else addMoreBytes
    let filled := fillLoop addMoreBytes.toNat deq2
    (some { entropy_count := entropyAvailable + (addMoreBytes <<< 3),
            buf_size := addMoreBytes,
            data := filled.1 }, filled.2)
  else (none, deq2)

/-- The shared state of the two threads, with two ghost fields: the bytes injected into
the kernel so far (those of the records submitted through `RNDADDENTROPY`) and the blocks
appended by successful exchanges so far. -/
structure Pipeline where
  deq1 : List Byte
  deq2 : List Byte
  injected : List Byte
  blocks : List (List Byte)
deriving DecidableEq

/-- The state at start-up: both queues empty, nothing downloaded, nothing injected. -/
def Pipeline.init : Pipeline := { deq1 := [], deq2 := [], injected := [], blocks := [] }

/-- The steps of the two threads that touch the queues. -/
inductive Action where
  /-- a successful exchange of the downloader appends the received bytes to `deq1` -/
  | append (rndBytes : List Byte)
  /-- the downloader's migration step under the mutex -/
  | migrate
  /-- one round of the feeder under the mutex, the kernel reporting `entropyAvailable`
  and accepting the record submitted through `RNDADDENTROPY` -/
  | feed (entropyAvailable : Int)
deriving DecidableEq

/-- The effect of one step on the shared state. -/
def Pipeline.step (maxDeqSizeBytes entropyPoolSizeBytes : Int) (s : Pipeline) :
    Action → Pipeline
  | .append rndBytes =>
    { s with deq1 := pushLoop rndBytes s.deq1, blocks := s.blocks ++ [rndBytes] }
  | .migrate =>
    { s with deq1 := (migrate maxDeqSizeBytes s.deq1 s.deq2).1,
             deq2 := (migrate maxDeqSizeBytes s.deq1 s.deq2).2 }
  | .feed entropyAvailable =>
    match feedStep entropyPoolSizeBytes entropyAvailable s.deq2 with
    | (none, deq2) => { s with deq2 := deq2 }
    | (some r, deq2) => { s with deq2 := deq2, injected := s.injected ++ r.data }

/-- The state after a finite sequence of steps, in any interleaving. -/
def Pipeline.run (maxDeqSizeBytes entropyPoolSizeBytes : Int) (s : Pipeline) :
    List Action → Pipeline
  | [] => s
  | a :: as => Pipeline.run maxDeqSizeBytes entropyPoolSizeBytes
      (s.step maxDeqSizeBytes entropyPoolSizeBytes a) as

/-! ## Sockets

A connected socket (or TLS session) is modelled by the list of results its future
`read` / `SSL_read` calls will produce when asked for enough bytes: a chunk of data or an
error.  A call asking for fewer bytes than the chunk at the head holds gets the first
bytes of the chunk and leaves the rest for the next call; an empty chunk, and the end of
the list, make the call return `0` (end of stream). -/

/-- What one `read` / `SSL_read` call delivers: `data l` is a return value of `l.length`
with the bytes `l` stored in the buffer (so `data []` is the return value `0`), `error` is
the return value `-1`. -/
inductive ReadEvent (α : Type) where
  | data (bytes : List α)
  | error
deriving DecidableEq

/-- The future of a socket: the results still to be delivered. -/
abbrev Sock (α : Type) := List (ReadEvent α)

/-- The call `read(fd, buf, count)` (or `SSL_read(ssl, buf, count)`): its result and the
socket afterwards. -/
def Sock.read {α : Type} (s : Sock α) (count : Nat) : ReadEvent α × Sock α :=
  match s with
  | [] => (.data [], [])
  | .error :: rest => (.error, rest)
  | .data l :: rest =>
    if l.length ≤ count then (.data l, rest)
    else (.data (l.take count), .data (l.drop count) :: rest)

/-- The bytes a socket delivers before its first end-of-stream or error. -/
def Sock.bytes {α : Type} : Sock α → List α
  | [] => []
  | .error :: _ => []
  | .data [] :: _ => []
  | .data (b :: l) :: rest => (b :: l) ++ Sock.bytes rest

/-- An upper bound on the number of `read` calls of one byte a socket can serve before it
returns `0` forever. -/
def Sock.size {α : Type} : Sock α → Nat
  | [] => 0
  | .error :: rest => 1 + Sock.size rest
  | .data l :: rest => l.length + 1 + Sock.size rest

/-! ## `std::string` operations used by `HttpResponse.cpp` -/

/-- The value `std::string::npos`, the largest `size_t` (64 bits). -/
def npos : Nat := 2 ^ 64 - 1

/-- Addition of `size_t` values. -/
def sizeAdd (a b : Nat) : Nat := (a + b) % 2 ^ 64

/-- Subtraction of `size_t` values. -/
def sizeSub (a b : Nat) : Nat := (a + 2 ^ 64 - b % 2 ^ 64) % 2 ^ 64

/-- The call `s.find_first_not_of(set, pos)`: the index of the first character at or after
`pos` that is not in `set`, `npos` if there is none. -/
def find_first_not_of (s : List Char) (set : List Char) (pos : Nat) : Nat :=
  match (s.drop pos).dropWhile (fun c => decide (c ∈ set)) with
  | [] => npos
  | _ :: _ => pos + ((s.drop pos).takeWhile (fun c => decide (c ∈ set))).length

/-- The call `s.find(c, pos)`: the index of the first occurrence of the character `c` at or
after `pos`, `npos` if there is none. -/
def find (s : List Char) (c : Char) (pos : Nat) : Nat :=
  match (s.drop pos).dropWhile (fun x => decide (x ≠ c)) with
  | [] => npos
  | _ :: _ => pos + ((s.drop pos).takeWhile (fun x => decide (x ≠ c))).length

/-- The call `s.find_last_not_of(set)`: the index of the last character that is not in
`set`, `npos` if there is none. -/
def find_last_not_of (s : List Char) (set : List Char) : Nat :=
  match s.rdropWhile (fun c => decide (c ∈ set)) with
  | [] => npos
  | c :: l => (c :: l).length - 1

/-- The call `s.substr(pos, len)`: `none` when it throws `std::out_of_range`
(`pos > s.size()`), otherwise the at most `len` characters from `pos` on. -/
def substr (s : List Char) (pos len : Nat) : Option (List Char) :=
  if pos > s.length then none else some ((s.drop pos).take len)

/-- The call `s.erase(pos)`: `none` when it throws `std::out_of_range`
(`pos > s.size()`), otherwise `s` cut at `pos`. -/
def erase (s : List Char) (pos : Nat) : Option (List Char) :=
  if pos > s.length then none else some (s.take pos)

/-- The call `str.find(token)` for a string `token`: the index of the first occurrence of
`token` in `str`, `none` for `npos`. -/
def findStr (token : List Char) : List Char → Option Nat
  | [] => if token = [] then some 0 else none
  | c :: cs =>
    if token <+: (c :: cs) then some 0
    else
      match findStr token cs with
      | none => none
      | some i => some (i + 1)

/-- The C library predicate `isspace` in the "C" locale. -/
def isspace (c : Char) : Bool :=
  c = ' ' || c = '\t' || c = '\n' || c = '\x0b' || c = '\x0c' || c = '\r'

/-- The C library predicate `isdigit`. -/
def isdigit (c : Char) : Bool := decide ('0' ≤ c ∧ c ≤ '9')

/-- The digit loop of `atoi`: accumulates the value of the leading decimal digits. -/
def atoiDigits : List Char → Int → Int
  | [], acc => acc
  | c :: cs, acc => if isdigit c then atoiDigits cs (acc * 10 + ((c.toNat : Int) - 48)) else acc

/-- The number `strtol(nptr, NULL, 10)` reads: it skips leading white space, reads an
optional sign and the decimal digits that follow, and stops at the first other character.
This is the value before it is fitted into a `long`. -/
def strtolValue (s : List Char) : Int :=
  match s.dropWhile isspace with
  | '-' :: cs => - atoiDigits cs 0
  | '+' :: cs => atoiDigits cs 0
  | cs => atoiDigits cs 0

/-- The C library function `atoi` as the C library of the program's platform defines it,
`(int) strtol(nptr, NULL, 10)` with a `long` of 64 bits and an `int` of 32 bits: `strtol`
returns the number read, or `LONG_MAX` / `LONG_MIN` when it lies beyond; the conversion to
`int` keeps the low 32 bits (two's complement).  For a number within the range of `int`
the result is the number itself; outside that range the C standard leaves `atoi`
undefined. -/
def atoi (s : List Char) : Int :=
  let v := strtolValue s
  let l : Int := if v > 9223372036854775807 then 9223372036854775807
    else if v < -9223372036854775808 then -9223372036854775808 else v
  (l + 2147483648) % 4294967296 - 2147483648

/-! ## `CryptoToken.cpp`, `RSACryptor.cpp`, `SHA256.cpp` -/

/-- The part of an `RSACryptor` the program uses: whether a key was loaded, and the two
OpenSSL primitives on byte strings (`none` is the return value `-1`). -/
structure RSACryptor where
  initializedKey : Bool
  RSA_public_encrypt : List Byte → Option (List Byte)
  RSA_private_decrypt : List Byte → Option (List Byte)

/-- Embedding of `RSACryptor::encryptWithPublicKey`: `none` when it returns `false`. -/
def RSACryptor.encryptWithPublicKey (rsa : RSACryptor) (toEncrypt : List Byte) :
    Option (List Byte) :=
  if !rsa.initializedKey then none else rsa.RSA_public_encrypt toEncrypt

/-- Embedding of `RSACryptor::decryptWithPrivateKey`: `none` when it returns `false`. -/
def RSACryptor.decryptWithPrivateKey (rsa : RSACryptor) (toDecrypt : List Byte) :
    Option (List Byte) :=
  if !rsa.initializedKey then none else rsa.RSA_private_decrypt toDecrypt

/-- A `CryptoToken`: the cryptor it was built with and its 48-byte key. -/
structure CryptoToken where
  rsaCryptor : RSACryptor
  key : List Byte

/-- How a call of `CryptoToken::createTokenAsText` ends when the sizes of its local arrays
`crypterEncrypted[300]` and `crypterEncryptedHex[600]` are taken into account. -/
inductive TokenOutcome where
  /-- it returned: `none` for `false`, otherwise the token text afterwards -/
  | returned (tokenText : Option (List Char))
  /-- a write past the end of one of the two arrays -/
  | overflow
deriving DecidableEq

/-- Embedding of `CryptoToken::createTokenAsText(tokenText)` with the sizes of its local
arrays: the primitive writes the ciphertext to `crypterEncrypted[300]`, and `toHex` writes
two characters for each byte and a terminating NUL to `crypterEncryptedHex[600]`. -/
def CryptoToken.createTokenAsTextBounded (t : CryptoToken) (tokenText : List Char) :
    TokenOutcome :=
  match t.rsaCryptor.encryptWithPublicKey t.key with
  | none => .returned none
  | some crypterEncrypted =>
    if crypterEncrypted.length > 300 then .overflow
    else
      match BinHexConverter.toHex crypterEncrypted with
      | none => .returned none
      | some crypterEncryptedHex =>
        if crypterEncryptedHex.length + 1 > 600 then .overflow
        else .returned (some (tokenText ++ crypterEncryptedHex))

/-- Embedding of `CryptoToken::createTokenAsText(tokenText)` as a partial function: the
token text afterwards when the call returns `true`, `none` when it does not (it returns
`false`, leaving `tokenText` as it was, or it writes past one of its arrays). -/
def CryptoToken.createTokenAsText (t : CryptoToken) (tokenText : List Char) :
    Option (List Char) :=
  match t.createTokenAsTextBounded tokenText with
  | .returned tokenText => tokenText
  | .overflow => none

/-- The OpenSSL SHA-256 primitive (`SHA256_Init`, `SHA256_Update`, `SHA256_Final`), taken
as an unspecified function from the message to a digest of `SHA256_DIGEST_LENGTH = 32`
bytes. -/
structure Sha256Lib where
  digest : List Byte → List Byte
  digest_length : ∀ m, (digest m).length = 32

/-- The salt `"2093457209837"` that `SHA256::hash` feeds to the hash before the data. -/
def salt : List Byte := "2093457209837".toList.map (fun c => UInt8.ofNat c.toNat)

/-- Embedding of `SHA256::hash(bytesToHash, byteCount)` followed by `getMessageDigest()`:
the digest of the salt followed by the bytes. -/
def SHA256.hash (lib : Sha256Lib) (bytesToHash : List Byte) : List Byte :=
  lib.digest (salt ++ bytesToHash)

/-! ## `HttpClient.cpp` -/

/-- The fields of an `HttpClient` that `sendGetRequest` reads. -/
structure HttpClient where
  hostName : List Char
  tlAuthToken : List Char
  isStreamEncrypted : Bool
  isSocketCreated : Bool

/-- Embedding of `HttpClient::sendGetRequest(resource, cryptoToken)`.  `write` stands for
the `write` / `SSL_write` call and gives its return value for the text handed to it.
Result: the return value, and the text `cmd` handed to `write` (`none` when the function
returns before writing). -/
def HttpClient.sendGetRequest (cli : HttpClient) (resource : List Char)
    (cryptoToken : CryptoToken) (write : List Char → Int) : Bool × Option (List Char) :=
  if !cli.isSocketCreated then (false, none)
  else
    let cmd : List Char := []
    let cmd := cmd ++ "GET ".toList ++ resource ++ " HTTP/1.0\r\n".toList
    let cmd := cmd ++ "Host: ".toList ++ cli.hostName ++ "\r\n".toList
    let cmd :=
      if cli.tlAuthToken.length > 0 then
        cmd ++ "tl-ent-sce-auth-token: ".toList ++ cli.tlAuthToken ++ "\r\n".toList
      else cmd
    let send (cmd : List Char) : Bool × Option (List Char) :=
      let cmd := cmd ++ "\r\n".toList
      let bytesSent := write cmd
      if bytesSent = -1 ∨ bytesSent ≠ (cmd.length : Int) then (false, some cmd)
      else (true, some cmd)
    if cli.isStreamEncrypted then
      match cryptoToken.createTokenAsText [] with
      | none => (false, none)
      | some cryptoTokenHex =>
        send (cmd ++ "tl-ent-sce-crypto-token: ".toList ++ cryptoTokenHex ++ "\r\n".toList)
    else send cmd

/-! ## `HttpResponse.cpp` -/

/-- The `std::map<std::string, std::string>` of headers, read through `operator[]`: a
name that was never stored maps to the empty string. -/
abbrev Headers := List Char → List Char

/-- The empty map. -/
def Headers.empty : Headers := fun _ => []

/-- The assignment `headers[key] = value`. -/
def Headers.set (h : Headers) (key value : List Char) : Headers :=
  fun k => if k = key then value else h k

/-- The characters `" \f\t\v"`. -/
def blanks : List Char := [' ', '\x0c', '\t', '\x0b']

/-- The characters `" \f\t\v\n\r"` (the same set as `" \f\n\r\t\v"`). -/
def blanksCRLF : List Char := [' ', '\x0c', '\t', '\x0b', '\n', '\r']

/-- An `HttpResponse` object: the parsed headers, the flags and the session key of the
`CryptoToken` it points to. -/
structure HttpResponse where
  headers : Headers
  lastErrorMessage : String
  isAvailable : Bool
  isStreamEncrypted : Bool
  cryptoKey : List Byte

/-- Embedding of `HttpResponse::getHeader`. -/
def HttpResponse.getHeader (r : HttpResponse) (headerName : List Char) : List Char :=
  r.headers headerName

/-- Embedding of `HttpResponse::parseLine(line, delimiter)` as a function on the header
map: `none` when a `substr` / `erase` call throws `std::out_of_range`, otherwise the map
afterwards. -/
def HttpResponse.parseLine (headers : Headers) (line : List Char) (delimiter : Char) :
    Option Headers :=
  let begin_ := find_first_not_of line blanks 0
  if begin_ = npos then some headers
  else
    let end_ := find line delimiter begin_
    match substr line begin_ (sizeSub end_ begin_) with
    | none => none
    | some key =>
      match erase key (sizeAdd (find_last_not_of key blanksCRLF) 1) with
      | none => none
      | some key =>
        if key.isEmpty then some headers
        else
          let begin_ := find_first_not_of line blanksCRLF (sizeAdd end_ 1)
          let end_ := sizeAdd (find_last_not_of line blanksCRLF) 1
          match substr line begin_ (sizeSub end_ begin_) with
          | none => none
          | some value => some (headers.set key value)

/-- How a run of `HttpResponse::parseResponse` (called by the constructor) ends. -/
inductive ParseOutcome where
  /-- it returned: the `isAvailable` flag, the headers, the error message and the socket -/
  | returned (isAvailable : Bool) (headers : Headers) (lastErrorMessage : String)
      (sock : Sock Char)
  /-- `parseLine` threw `std::out_of_range` -/
  | threw
  /-- the terminating NUL was written at `line[256]`, past the end of `char line[256]` -/
  | overflow
  /-- the model ran out of fuel (this does not happen, see `parseResponse`) -/
  | outOfFuel

/-- The conversion of the NUL-terminated `char line[]` to the `std::string` that
`parseLine` receives: the characters before the first NUL. -/
def cString (line : List Char) : List Char :=
  line.takeWhile (fun c => decide (c ≠ Char.ofNat 0))

/-- The `while (true)` loop of `HttpResponse::parseResponse`.  `line` holds the characters
`line[0..i)`, so `i = line.length`; the rest of the array is never read, since the
terminating NUL is written at `line[i]` before each use. -/
def HttpResponse.parseLoop : Nat → Sock Char → List Char → Nat → Bool → Headers →
    ParseOutcome
  | 0, _, _, _, _, _ => .outOfFuel
  | fuel + 1, sock, line, newLineCount, firstLine, headers =>
    match sock.read 1 with
    | (.error, sock) =>
      .returned false headers "Error when reading HTTP response headers" sock
    | (.data [], sock) =>
      if line.length ≥ 256 then
        .returned false headers "Error when reading HTTP response headers" sock
      else .returned false headers "" sock
    | (.data (c :: _), sock) =>
      if line.length ≥ 256 then
        .returned false headers "Error when reading HTTP response headers" sock
      else
        let line := line ++ [c]
        if c = '\n' then
          let newLineCount := newLineCount + 1
          if line.length ≥ 256 then .overflow
          else
            match HttpResponse.parseLine headers (cString line)
                (if firstLine then '/' else ':') with
            | none => .threw
            | some headers =>
              if newLineCount > 1 then .returned true headers "" sock
              else HttpResponse.parseLoop fuel sock [] newLineCount false headers
        else
          HttpResponse.parseLoop fuel sock line (if c ≠ '\r' then 0 else newLineCount)
            firstLine headers

/-- Embedding of `HttpResponse::parseResponse` on a fresh object.  Every round of the loop
consumes a byte or an event of the socket, so `sock.size + 1` rounds are enough. -/
def HttpResponse.parseResponse (sock : Sock Char) : ParseOutcome :=
  HttpResponse.parseLoop (sock.size + 1) sock [] 0 true Headers.empty

/-- The `while (str.size())` loop of `HttpResponse::split(str, token)`, with the tokens
pushed so far; `none` when the fuel runs out. -/
def HttpResponse.splitLoop (token : List Char) :
    Nat → List Char → List (List Char) → Option (List (List Char))
  | 0, _, _ => none
  | fuel + 1, str, result =>
    if str.length = 0 then some result
    else
      match findStr token str with
      | some index =>
        let result := result ++ [str.take index]
        let str := str.drop (index + token.length)
        let result := if str.length = 0 then result ++ [str] else result
        HttpResponse.splitLoop token fuel str result
      | none => HttpResponse.splitLoop token fuel [] (result ++ [str])

/-- Embedding of `HttpResponse::split(str, token)`; `none` when the loop does not end
within `str.size() + 1` rounds (as happens for an empty `token`, for which the C++ loop
never ends). -/
def HttpResponse.split (str token : List Char) : Option (List (List Char)) :=
  HttpResponse.splitLoop token (str.length + 1) str []

/-- Embedding of `HttpResponse::retrieveResponseCode`. -/
def HttpResponse.retrieveResponseCode (r : HttpResponse) : Option Int :=
  if r.isAvailable then
    let httpHeader := r.getHeader "HTTP".toList
    if httpHeader.length > 0 then
      match HttpResponse.split httpHeader " ".toList with
      | none => none
      | some tokens =>
        if tokens.length ≥ 2 then some (atoi (tokens.getD 1 []))
        else some 0
    else some 0
  else some 0

/-- How a call of `HttpResponse::readContent` ends: the return value, the buffer, the
error message and the socket afterwards. -/
structure ReadResult where
  ok : Bool
  byteBuff : List Byte
  lastErrorMessage : String
  sock : Sock Byte

/-- The bytes of a read stored at `byteBuff + totalBytesRead`. -/
def store (byteBuff : List Byte) (totalBytesRead : Nat) (received : List Byte) : List Byte :=
  byteBuff.take totalBytesRead ++ received ++ byteBuff.drop (totalBytesRead + received.length)

/-- The `while (totalBytesRead < byteCount)` loop of `HttpResponse::readContent`.  The
list `byteBuff` is the region `byteBuff[0..byteCount)` of the caller's buffer, so
`byteCount = byteBuff.length`.  `none` when the fuel runs out. -/
def HttpResponse.readLoop (lib : Sha256Lib) (r : HttpResponse) :
    Nat → Sock Byte → List Byte → Nat → Option ReadResult
  | 0, _, _, _ => none
  | fuel + 1, sock, byteBuff, totalBytesRead =>
    if totalBytesRead < byteBuff.length then
      match sock.read (byteBuff.length - totalBytesRead) with
      | (.error, sock) =>
        some ⟨false, byteBuff, "Error when reading HTTP response body", sock⟩
      | (.data [], sock) =>
        if totalBytesRead ≠ byteBuff.length then
          some ⟨false, byteBuff, "Incomplete HTTP response body", sock⟩
        else some ⟨true, byteBuff, r.lastErrorMessage, sock⟩
      | (.data (b :: bs), sock) =>
        let byteBuff := store byteBuff totalBytesRead (b :: bs)
        let totalBytesRead := (b :: bs).length + totalBytesRead
        if r.isStreamEncrypted then
          let byteBuff := (XorCryptor.crypt byteBuff r.cryptoKey).2
          let expectedByteStreamHash := r.headers "TL-RESP-BYTEHASH".toList
          if expectedByteStreamHash.length = 0 then
            some ⟨false, byteBuff, "Missing byte stream hash value", sock⟩
          else
            match BinHexConverter.toHex (SHA256.hash lib byteBuff) with
            | none => some ⟨false, byteBuff, "Could not convert bytes to hash", sock⟩
            | some actualByteStreamHash =>
              if actualByteStreamHash ≠ expectedByteStreamHash then
                some ⟨false, byteBuff, "Byte stream hash values don't match", sock⟩
              else HttpResponse.readLoop lib r fuel sock byteBuff totalBytesRead
        else HttpResponse.readLoop lib r fuel sock byteBuff totalBytesRead
    else some ⟨true, byteBuff, r.lastErrorMessage, sock⟩

/-- Embedding of `HttpResponse::readContent(byteBuff, byteCount)` with
`byteCount = byteBuff.length`.  Every round that does not return stores at least one more
byte, so `byteCount + 1` rounds are enough. -/
def HttpResponse.readContent (lib : Sha256Lib) (r : HttpResponse) (sock : Sock Byte)
    (byteBuff : List Byte) : Option ReadResult :=
  if !r.isAvailable then some ⟨false, byteBuff, r.lastErrorMessage, sock⟩
  else HttpResponse.readLoop lib r (byteBuff.length + 1) sock byteBuff 0

/-- The request text as the specification words it (wire protocol, outgoing): the request
line, the `Host` line, the auth-token line if and only if the token is non-empty, the
crypto-token line if and only if the stream is encrypted, and one blank line. -/
def requestTextSpec (resource host authToken : List Char) (streamEncrypted : Bool)
    (hex : List Char) : List Char :=
  "GET ".toList ++ resource ++ " HTTP/1.0\r\n".toList ++
  ("Host: ".toList ++ host ++ "\r\n".toList) ++
  (if authToken ≠ [] then "tl-ent-sce-auth-token: ".toList ++ authToken ++ "\r\n".toList
   else []) ++
  (if streamEncrypted then "tl-ent-sce-crypto-token: ".toList ++ hex ++ "\r\n".toList
   else []) ++
  "\r\n".toList

/-- A stand-in for the hash primitive used to run the model on concrete inputs: the first
32 bytes of the message padded with zeros. -/
def paddingDigest : Sha256Lib where
  digest := fun m => (m ++ List.replicate 32 0).take 32
  digest_length := by intro m; simp

/-- A cryptor without a key, for the runs in which the stream is not encrypted. -/
def noCryptor : RSACryptor where
  initializedKey := false
  RSA_public_encrypt := fun _ => none
  RSA_private_decrypt := fun _ => none

/-- The response object for a stream whose plaintext is `plain`: available, encrypted
under `key`, with the fingerprint of `plain` as its only header. -/
def fingerprintResponse (lib : Sha256Lib) (key plain : List Byte) : HttpResponse where
  headers := Headers.empty.set "TL-RESP-BYTEHASH".toList
    (BinHexConverter.toHexLoop (SHA256.hash lib plain))
  lastErrorMessage := ""
  isAvailable := true
  isStreamEncrypted := true
  cryptoKey := key

/-- Embedding of the constructor `HttpResponse::HttpResponse(fd, isSecure, ssl,
isStreamEncrypted, cryptoToken)`, which stores its arguments and calls `parseResponse`:
the object built and the socket afterwards, `none` when `parseResponse` does not return
(an exception, or a write past the line buffer). -/
def HttpResponse.construct (sock : Sock Char) (isStreamEncrypted : Bool)
    (cryptoKey : List Byte) : Option (HttpResponse × Sock Char) :=
  match HttpResponse.parseResponse sock with
  | .returned isAvailable headers lastErrorMessage sock =>
    some (⟨headers, lastErrorMessage, isAvailable, isStreamEncrypted, cryptoKey⟩, sock)
  | _ => none

/-- The character of the decimal digit `d`. -/
def digitChar (d : Nat) : Char := Char.ofNat (48 + d)

/-- A header line in the shape the parser handles, cut into its parts: leading blanks,
the name, white space, the delimiter, white space, the value, trailing white space and
the line feed. -/
structure HeaderLine where
  lead : List Char
  name : List Char
  gap1 : List Char
  gap2 : List Char
  value : List Char
  trail : List Char
deriving DecidableEq

/-- The characters of a header line as received, up to and including the line feed. -/
def HeaderLine.text (l : HeaderLine) (delimiter : Char) : List Char :=
  l.lead ++ l.name ++ l.gap1 ++ [delimiter] ++ l.gap2 ++ l.value ++ l.trail ++ ['\n']

/-- Whether the first character of `s` exists and lies outside `set`. -/
def startsOutside (set : List Char) (s : List Char) : Bool :=
  match s.head? with
  | none => false
  | some c => decide (c ∉ set)

/-- Whether the last character of `s` exists and lies outside `set`. -/
def endsOutside (set : List Char) (s : List Char) : Bool :=
  match s.getLast? with
  | none => false
  | some c => decide (c ∉ set)

/-- The conditions on the parts of a header line: the leading run consists of SP, FF, HT,
VT; the other runs of white space consist of SP, FF, HT, VT, CR; the name is not empty,
does not contain the delimiter, does not start with SP, FF, HT, VT and does not end with
white space; the value is not empty and neither starts nor ends with white space; no part
contains a line feed or a NUL; the line with its line feed has at most 255 characters. -/
def HeaderLine.wellFormed (l : HeaderLine) (delimiter : Char) : Bool :=
  l.lead.all (fun c => decide (c ∈ blanks)) &&
  l.gap1.all (fun c => decide (c ∈ blanksCRLF)) &&
  l.gap2.all (fun c => decide (c ∈ blanksCRLF)) &&
  l.trail.all (fun c => decide (c ∈ blanksCRLF)) &&
  startsOutside blanks l.name && endsOutside blanksCRLF l.name &&
  l.name.all (fun c => decide (c ≠ delimiter)) &&
  startsOutside blanksCRLF l.value && endsOutside blanksCRLF l.value &&
  (l.text delimiter).dropLast.all (fun c => decide (c ≠ '\n')) &&
  (l.text delimiter).all (fun c => decide (c ≠ Char.ofNat 0)) &&
  decide ((l.text delimiter).length ≤ 255)

/-- The header map the specification describes for a status line and the header lines
that follow it: each value stored under its name, later lines replacing earlier ones. -/
def storeHeaders (status : HeaderLine) (fields : List HeaderLine) : Headers :=
  fields.foldl (fun h f => h.set f.name f.value) (Headers.empty.set status.name status.value)

/-- The characters of a response head: the status line, the header lines, and the closing
line made of `crs` carriage returns and a line feed. -/
def responseHead (status : HeaderLine) (fields : List HeaderLine) (crs : Nat) : List Char :=
  status.text '/' ++ (fields.map (fun f => f.text ':')).flatten ++
    (List.replicate crs '\r' ++ ['\n'])

/-! ## `epf.cpp`: the downloader -/

/-- The constant `MAX_REQUEST_BYTES`. -/
def MAX_REQUEST_BYTES : Int := 10000

/-- The set-up of `downloadBytes` before its loop, from the configured resource and the
configured text of `entropy.request.byte.count`: `requestSize` is `getIntValue()` (that is
`atoi` of the text) clamped to `MAX_REQUEST_BYTES`, and the resource gets the configured
text appended (`resource.append(requestSizeString)`).  Result: the resource used in the
request line and `requestSize`. -/
def downloadSetup (resource requestSizeString : List Char) : List Char × Int :=
  let requestSize := atoi requestSizeString
  let requestSize := if requestSize > MAX_REQUEST_BYTES then MAX_REQUEST_BYTES else requestSize
  (resource ++ requestSizeString, requestSize)

/-- The outcomes of the stages of one exchange of `downloadBytes`: the return values of
`connectToHost`, `sendGetRequest`, `isResponseAvailable`, `retrieveResponseCode` and
`readContent`, and the contents of the array `rndBytes` after the `readContent` call. -/
structure ExchangeOutcomes where
  connectToHost : Bool
  sendGetRequest : Bool
  isResponseAvailable : Bool
  retrieveResponseCode : Int
  readContent : Bool
  rndBytes : List Byte
deriving DecidableEq

/-- One exchange of `downloadBytes` (the body of `if ((int)deq1.size() < maxDeqSizeBytes / 2)`
up to `httpCli.closeConnection()`), as a function of the outcomes of its stages.  Result:
`deq1` afterwards and the flag `isConnectionError`. -/
def exchange (requestSize : Int) (o : ExchangeOutcomes) (deq1 : List Byte) :
    List Byte × Bool :=
  if !o.connectToHost then (deq1, true)
  else if !o.sendGetRequest then (deq1, true)
  else if !o.isResponseAvailable then (deq1, true)
  else if o.retrieveResponseCode ≠ 200 then (deq1, true)
  else if !o.readContent then (deq1, true)
  else (pushLoop (o.rndBytes.take requestSize.toNat) deq1, false)

/-- The first half of one round of the loop of `downloadBytes`: the exchange, run only
when `(int)deq1.size() < maxDeqSizeBytes / 2`.  Result: `deq1` afterwards and whether an
exchange was started (an `HttpClient` built and `connectToHost` called). -/
def downloadStep (maxDeqSizeBytes requestSize : Int) (o : ExchangeOutcomes)
    (deq1 : List Byte) : List Byte × Bool :=
  if (deq1.length : Int) < Int.tdiv maxDeqSizeBytes 2 then
    ((exchange requestSize o deq1).1, true)
  else (deq1, false)

/-- The values the two threads read from the configuration and the kernel at start-up. -/
structure EpfConfig where
  maxDeqSizeBytes : Int
  entropyPoolSizeBytes : Int
  requestSize : Int
deriving DecidableEq

/-- The steps of the two threads as the code guards them. -/
inductive ThreadStep where
  /-- the first half of a downloader round, with the outcomes its exchange would have -/
  | download (o : ExchangeOutcomes)
  /-- the second half of a downloader round: the migration step under the mutex -/
  | migrate
  /-- one round of the feeder under the mutex, the kernel reporting `entropyAvailable`
  and accepting the record submitted through `RNDADDENTROPY` -/
  | feed (entropyAvailable : Int)
deriving DecidableEq

/-- The effect of one guarded step on the shared state, and the size of `deq1` at the
moment an exchange is started, if one is. -/
def Pipeline.threadStep (cfg : EpfConfig) (s : Pipeline) : ThreadStep → Pipeline × Option Nat
  | .download o =>
    let d := downloadStep cfg.maxDeqSizeBytes cfg.requestSize o s.deq1
    ({ s with deq1 := d.1,
              blocks := if d.1 = s.deq1 then s.blocks
                        else s.blocks ++ [o.rndBytes.take cfg.requestSize.toNat] },
     if d.2 then some s.deq1.length else none)
  | .migrate => (s.step cfg.maxDeqSizeBytes cfg.entropyPoolSizeBytes .migrate, none)
  | .feed entropyAvailable =>
    (s.step cfg.maxDeqSizeBytes cfg.entropyPoolSizeBytes (.feed entropyAvailable), none)

/-- The state after a finite sequence of guarded steps, in any interleaving, and the log
of the sizes of `deq1` at which exchanges were started. -/
def Pipeline.threadRun (cfg : EpfConfig) (s : Pipeline) : List ThreadStep → Pipeline × List Nat
  | [] => (s, [])
  | a :: as =>
    let r := s.threadStep cfg a
    let rest := Pipeline.threadRun cfg r.1 as
    (rest.1, (match r.2 with | some n => [n] | none => []) ++ rest.2)

/-- The outcomes of an exchange in which every stage succeeds and `rndBytes` holds `bytes`. -/
def ExchangeOutcomes.success (bytes : List Byte) : ExchangeOutcomes :=
  ⟨true, true, true, 200, true, bytes⟩

/-! ## Spec-side notions for the hex codec -/

/-- The sixteen upper-case hexadecimal digits in order of their value (spec side). -/
def upperHexDigits : List Char := "0123456789ABCDEF".toList

/-- The sixteen lower-case hexadecimal digits in order of their value (spec side). -/
def lowerHexDigits : List Char := "0123456789abcdef".toList

/-- The value of a lower-case hexadecimal digit: its place among the sixteen digits
(spec side). -/
def hexValue (c : Char) : Nat := lowerHexDigits.indexOf c

/-- The characters that are hexadecimal digits, in either letter case (spec side). -/
def hexDigits : List Char := "0123456789abcdefABCDEF".toList

/-- Whether a run of `parseResponse` ended without marking the response available: it
returned with `isAvailable` false, or it ended by the exception or by the write past the
line buffer. -/
def ParseOutcome.unavailable : ParseOutcome → Bool
  | .returned isAvailable _ _ _ => !isAvailable
  | .threw => true
  | .overflow => true
  | .outOfFuel => false

/-! ## `CryptoToken.cpp`: the constructor and `loadTokenFomText` -/

/-- Embedding of `CryptoToken::initializeRandomBytes(byteArray, byteArraySize)`.  The C
library generator `rand()` is a parameter: a function from the state of the generator to
the value it returns (which is not negative) and the next state. -/
def CryptoToken.initializeRandomBytes {σ : Type} (rand : σ → Nat × σ) :
    Nat → σ → List Byte × σ
  | 0, s => ([], s)
  | byteArraySize + 1, s =>
    let r := rand s
    let rest := CryptoToken.initializeRandomBytes rand byteArraySize r.2
    (UInt8.ofNat (r.1 % 256) :: rest.1, rest.2)

/-- Embedding of the constructor `CryptoToken::CryptoToken(rsaCryptor)`, which fills
`unsigned char key[48]` through `initialize()`: the token built and the state of the
generator afterwards. -/
def CryptoToken.construct {σ : Type} (rsaCryptor : RSACryptor) (rand : σ → Nat × σ) (s : σ) :
    CryptoToken × σ :=
  let k := CryptoToken.initializeRandomBytes rand 48 s
  (⟨rsaCryptor, k.1⟩, k.2)

/-- Embedding of `CryptoToken::getCripterSize`: `sizeof(key)` for `unsigned char key[48]`. -/
def CryptoToken.getCripterSize (_t : CryptoToken) : Nat := 48

/-- Embedding of `CryptoToken::loadTokenFomText(tokenText)`: the return value and the token
afterwards; `none` when the primitive returns more bytes than `key[48]` holds.  The
decrypted bytes are written over the start of `key`.  The primitive is taken to leave its
output buffer alone when it returns `-1`. -/
def CryptoToken.loadTokenFomText (t : CryptoToken) (tokenText : List Char) :
    Option (Bool × CryptoToken) :=
  if tokenText.length > 600 ∨ tokenText.length < 10 then some (false, t)
  else
    match BinHexConverter.toBin tokenText with
    | none => some (false, t)
    | some crypterEncrypted =>
      match t.rsaCryptor.decryptWithPrivateKey crypterEncrypted with
      | none => some (false, t)
      | some decrypted =>
        if decrypted.length ≤ 48 then
          some (true, { t with key := decrypted ++ t.key.drop decrypted.length })
        else none

/-- A stand-in cryptor used to run the model on concrete inputs: the key is loaded,
encryption returns `c` zero bytes, decryption rejects every input. -/
def fixedSizeCryptor (c : Nat) : RSACryptor where
  initializedKey := true
  RSA_public_encrypt := fun _ => some (List.replicate c 0)
  RSA_private_decrypt := fun _ => none

/-- A stand-in generator used to run the model on concrete inputs: a counter. -/
def counterRand (s : Nat) : Nat × Nat := (s, s + 1)

/-! ## `epf.cpp`: the size of the kernel pool -/

/-- The constant `MAX_POOL_SIZE_BYTES`. -/
def MAX_POOL_SIZE_BYTES : Int := 1024 * 64

/-- Embedding of `getEntropyPoolSize()` as a function of the first line of
`/proc/sys/kernel/random/poolsize` (`none` when `fopen` fails or `getline` returns `-1`):
`none` when it returns `false`, otherwise the value it leaves in `entropyPoolSizeBytes`. -/
def getEntropyPoolSize (line : Option (List Char)) : Option Int :=
  match line with
  | none => none
  | some line =>
    let entropyPoolSizeBytes := Int.tdiv (atoi line) 8
    some (if entropyPoolSizeBytes > MAX_POOL_SIZE_BYTES then MAX_POOL_SIZE_BYTES
          else entropyPoolSizeBytes)

/-! ## `Configuration.cpp` -/

/-- The member `propertyMap`, a `std::map<std::string, std::string>`: its entries, one for
each key. -/
abbrev PropertyMap := List (List Char × List Char)

/-- The assignment `propertyMap[key] = value`. -/
def PropertyMap.assign : PropertyMap → List Char → List Char → PropertyMap
  | [], key, value => [(key, value)]
  | (k, v) :: m, key, value =>
    if k = key then (key, value) :: m else (k, v) :: PropertyMap.assign m key value

/-- The value stored under `key`, if the map has an entry for it. -/
def PropertyMap.value (m : PropertyMap) (key : List Char) : Option (List Char) :=
  List.lookup key m

/-- The lines `std::getline` delivers from a stream with the characters `text`, `cur`
being the characters of the current line read so far: the pieces between line feeds; the
piece after the last line feed is a line only if it is not empty. -/
def getlines : List Char → List Char → List (List Char)
  | [], cur => if cur = [] then [] else [cur]
  | c :: cs, cur => if c = '\n' then cur :: getlines cs [] else getlines cs (cur ++ [c])

/-- The body of the loop `while (std::getline(lineStream, s))` of
`Configuration::parseLines` for one line `s`: `none` when `substr` throws
`std::out_of_range`, otherwise the map afterwards. -/
def Configuration.parseLine (propertyMap : PropertyMap) (s : List Char) :
    Option PropertyMap :=
  let begin_ := find_first_not_of s blanks 0
  if begin_ = npos then some propertyMap
  else if find "#;".toList (s.getD begin_ (Char.ofNat 0)) 0 ≠ npos then some propertyMap
  else
    let end_ := find s '=' begin_
    match substr s begin_ (sizeSub end_ begin_) with
    | none => none
    | some key =>
      match erase key (sizeAdd (find_last_not_of key blanksCRLF) 1) with
      | none => none
      | some key =>
        if key.isEmpty then some propertyMap
        else if end_ < sizeSub s.length 1 then
          let begin_ := find_first_not_of s blanksCRLF (sizeAdd end_ 1)
          let end_ := sizeAdd (find_last_not_of s blanksCRLF) 1
          match substr s begin_ (sizeSub end_ begin_) with
          | none => none
          | some value => some (PropertyMap.assign propertyMap key value)
        else some propertyMap

/-- Embedding of `Configuration::parseLines(lineStream)` on the lines that `std::getline`
delivers: `none` when a line makes `substr` throw, otherwise the map afterwards. -/
def Configuration.parseLines (propertyMap : PropertyMap) :
    List (List Char) → Option PropertyMap
  | [] => some propertyMap
  | s :: rest =>
    match Configuration.parseLine propertyMap s with
    | none => none
    | some propertyMap => Configuration.parseLines propertyMap rest

/-- The characters of a configuration line with the parts `l` (spec side): leading blanks,
the key, white space, `=`, white space, the value, trailing white space. -/
def HeaderLine.propertyText (l : HeaderLine) : List Char :=
  l.lead ++ l.name ++ l.gap1 ++ ['='] ++ l.gap2 ++ l.value ++ l.trail

/-- The conditions on the parts of a configuration line `key = value` (spec side): the
leading run consists of SP, FF, HT, VT; the other runs of white space consist of SP, FF,
HT, VT, CR, LF; the key is not empty, has no `=`, does not start with SP, FF, HT, VT, `#`
or `;` and does not end with white space; the value is not empty and neither starts nor
ends with white space; the line is shorter than `2 ^ 63` characters. -/
def HeaderLine.isProperty (l : HeaderLine) : Bool :=
  l.lead.all (fun c => decide (c ∈ blanks)) &&
  l.gap1.all (fun c => decide (c ∈ blanksCRLF)) &&
  l.gap2.all (fun c => decide (c ∈ blanksCRLF)) &&
  l.trail.all (fun c => decide (c ∈ blanksCRLF)) &&
  startsOutside (blanks ++ ['#', ';']) l.name && endsOutside blanksCRLF l.name &&
  l.name.all (fun c => decide (c ≠ '=')) &&
  startsOutside blanksCRLF l.value && endsOutside blanksCRLF l.value &&
  decide (l.propertyText.length < 2 ^ 63)

/-- The three kinds of line the specification of the configuration file names (spec
side): a blank line, a comment line (blanks, then `#` or `;`, then anything), and a
property line. -/
inductive ConfigLine where
  | blank (s : List Char)
  | comment (lead : List Char) (mark : Char) (rest : List Char)
  | property (l : HeaderLine)
deriving DecidableEq

/-- The characters of a line of each kind (spec side). -/
def ConfigLine.text : ConfigLine → List Char
  | .blank s => s
  | .comment lead mark rest => lead ++ mark :: rest
  | .property l => l.propertyText

/-- The conditions on a line of each kind (spec side): a blank line consists of white
space (SP, FF, HT, VT, CR, LF); the mark of a comment line is `#` or `;` and stands after
SP, FF, HT, VT only. -/
def ConfigLine.valid : ConfigLine → Bool
  | .blank s => s.all (fun c => decide (c ∈ blanksCRLF))
  | .comment lead mark _ =>
    lead.all (fun c => decide (c ∈ blanks)) && (decide (mark = '#') || decide (mark = ';'))
  | .property l => l.isProperty

/-- What a line of each kind does to the property map according to the specification:
a property line stores its value under its key, the others do nothing. -/
def ConfigLine.store (m : PropertyMap) : ConfigLine → PropertyMap
  | .property l => PropertyMap.assign m l.name l.value
  | _ => m

/-! ## `Property.cpp` -/

/-- A `Property`: the name and the value handed to its constructor. -/
structure Property where
  propName : List Char
  propValue : List Char
deriving DecidableEq

/-- Embedding of `Property::isInteger`. -/
def Property.isInteger (p : Property) : Bool :=
  !p.propValue.isEmpty &&
    decide (find_first_not_of p.propValue "-0123456789".toList 0 = npos)

/-- Embedding of `Property::getIntValue`. -/
def Property.getIntValue (p : Property) : Int := atoi p.propValue

/-- Embedding of `Configuration::getProperty`: the property built from the name and from
`propertyMap[propName]`, the empty string when the map has no such key. -/
def Configuration.getProperty (propertyMap : PropertyMap) (propName : List Char) : Property :=
  ⟨propName, (PropertyMap.value propertyMap propName).getD []⟩

/-- Whether `v` is a decimal integer with an optional sign as the specification words it
(spec side): an optional single leading `+` or `-`, then one or more decimal digits. -/
def isSignedDecimal (v : List Char) : Bool :=
  match v with
  | '-' :: ds => !ds.isEmpty && ds.all isdigit
  | '+' :: ds => !ds.isEmpty && ds.all isdigit
  | ds => !ds.isEmpty && ds.all isdigit

/-! ## The generator `rand()` as the constructor of `CryptoToken` sees it -/

/-- The state of the generator after `n` calls of `rand()` from the state `s` (spec
side). -/
def randState {σ : Type} (rand : σ → Nat × σ) (s : σ) (n : Nat) : σ :=
  Nat.iterate (fun s => (rand s).2) n s

/-- The value returned by the `i`-th next call of `rand()` from the state `s`, counting
from 0 (spec side). -/
def randOutput {σ : Type} (rand : σ → Nat × σ) (s : σ) (i : Nat) : Nat :=
  (rand (randState rand s i)).1

/-! ## `epf.cpp`: the fill loop with its bounds made explicit -/

/-- The fill loop of `feedEntropyPool` with its two hazards made explicit.  Arguments: the
index `i`, the number of rounds left and `deq2`; `none` when a round writes
`entropy.data[i]` for an `i` that is not below `MAX_POOL_SIZE_BYTES`, or calls `front()`
on an empty `deq2`; otherwise the bytes written and `deq2` afterwards, as `fillLoop`. -/
def fillLoopChecked : Nat → Nat → List Byte → Option (List Byte × List Byte)
  | _, 0, deq2 => some ([], deq2)
  | _, _ + 1, [] => none
  | i, n + 1, x :: deq2 =>
    if (i : Int) ≥ MAX_POOL_SIZE_BYTES then none
    else
      match fillLoopChecked (i + 1) n deq2 with
      | none => none
      | some filled => some (x :: filled.1, filled.2)

/-- A stand-in cryptor used to run the model on concrete inputs: the key is loaded,
encryption pads the message with zero bytes to `c` bytes, decryption returns the first 48
bytes; so decryption inverts encryption on messages of 48 bytes when `c ≥ 48`. -/
def paddingCryptor (c : Nat) : RSACryptor where
  initializedKey := true
  RSA_public_encrypt := fun m => some (m ++ List.replicate (c - m.length) 0)
  RSA_private_decrypt := fun ct => some (ct.take 48)

/-! ## Helper lemmas -/

theorem byte_xor_cancel (a k : Byte) : (a ^^^ k) ^^^ k = a := by
  cases a with
  | mk a =>
    cases k with
    | mk k =>
      show UInt8.xor (UInt8.xor ⟨a⟩ ⟨k⟩) ⟨k⟩ = ⟨a⟩
      simp only [UInt8.xor]
      congr 1
      rw [BitVec.xor_assoc, BitVec.xor_self, BitVec.xor_zero]

theorem cryptLoop_length (key : List Byte) (bs : List Byte) (ki : Nat) :
    (XorCryptor.cryptLoop key bs ki).length = bs.length := by
  induction bs generalizing ki with
  | nil => rfl
  | cons b bs ih => simp [XorCryptor.cryptLoop, ih]

theorem cryptLoop_involutive (key : List Byte) (bs : List Byte) (ki : Nat) :
    XorCryptor.cryptLoop key (XorCryptor.cryptLoop key bs ki) ki = bs := by
  induction bs generalizing ki with
  | nil => rfl
  | cons b bs ih => simp [XorCryptor.cryptLoop, ih, byte_xor_cancel]

theorem cryptLoop_getElem_opt (key : List Byte) (hk : 0 < key.length) (bs : List Byte) (ki : Nat)
    (hki : ki < key.length) (i : Nat) :
    (XorCryptor.cryptLoop key bs ki)[i]? =
      (bs[i]?).map (fun b => b ^^^ key.getD ((ki + i) % key.length) 0) := by
  induction bs generalizing ki i with
  | nil => simp [XorCryptor.cryptLoop]
  | cons b bs ih =>
    cases i with
    | zero => simp [XorCryptor.cryptLoop, Nat.mod_eq_of_lt hki]
    | succ i =>
      simp only [XorCryptor.cryptLoop, List.getElem?_cons_succ]
      by_cases h : ki + 1 ≥ key.length
      · have hk1 : ki + 1 = key.length := by omega
        rw [if_pos h, ih 0 hk i]
        have : (ki + (i + 1)) % key.length = (0 + i) % key.length := by
          have : ki + (i + 1) = i + key.length := by omega
          rw [this, Nat.add_mod_right, Nat.zero_add]
        rw [this]
      · rw [if_neg h, ih (ki + 1) (by omega) i]
        have : ki + (i + 1) = ki + 1 + i := by omega
        rw [this]

theorem digitValue_hexDigitUpper :
    ∀ n : Fin 16, BinHexConverter.digitValue (BinHexConverter.hexDigitUpper n.val).toLower
      = some n.val := by
  decide

theorem toInt_sprintf02X (b : Byte) :
    BinHexConverter.toInt (BinHexConverter.hexDigitUpper (b.toNat / 16)).toLower
      (BinHexConverter.hexDigitUpper (b.toNat % 16)).toLower = some b := by
  have hb : b.toNat < 256 := UInt8.toNat_lt_size b
  have h1 := digitValue_hexDigitUpper ⟨b.toNat / 16, by omega⟩
  have h2 := digitValue_hexDigitUpper ⟨b.toNat % 16, by omega⟩
  simp only [] at h1 h2
  simp only [BinHexConverter.toInt, h1, h2]
  congr 1
  have : (b.toNat / 16) <<< 4 ||| b.toNat % 16 = b.toNat := by
    rw [Nat.shiftLeft_eq, Nat.mul_comm]
    have h16 : (16 : Nat) = 2 ^ 4 := rfl
    rw [h16, ← Nat.mul_add_lt_is_or (Nat.mod_lt _ (by decide))]
    omega
  rw [this]
  cases b with
  | mk v =>
    apply congrArg UInt8.mk
    apply BitVec.eq_of_toNat_eq
    simp [UInt8.toNat]

theorem toBinLoop_toHexLoop (bs : List Byte) (tail : List Char) :
    BinHexConverter.toBinLoop (2 * bs.length) (BinHexConverter.toHexLoop bs ++ tail) =
      .returned (some bs) := by
  induction bs with
  | nil => simp only [List.length_nil, Nat.mul_zero, BinHexConverter.toBinLoop]
  | cons b bs ih =>
    have h2 : 2 * (b :: bs).length = 2 * bs.length + 1 + 1 := by
      simp only [List.length_cons]; omega
    rw [h2]
    show BinHexConverter.toBinLoop (2 * bs.length + 1 + 1)
      (BinHexConverter.hexDigitUpper (b.toNat / 16) ::
        BinHexConverter.hexDigitUpper (b.toNat % 16) ::
          (BinHexConverter.toHexLoop bs ++ tail)) = _
    rw [BinHexConverter.toBinLoop, toInt_sprintf02X]
    simp only [Nat.add_sub_cancel, ih]

theorem toBin_eq (s : List Char) (hne : s ≠ []) :
    BinHexConverter.toBin s =
      match BinHexConverter.toBinLoop s.length (s ++ [Char.ofNat 0]) with
      | .returned outputBytes => outputBytes
      | .readPast => none := by
  have hpos : 0 < s.length := List.length_pos.mpr hne
  unfold BinHexConverter.toBin BinHexConverter.toBinAt
  rw [if_neg (by omega), Int.toNat_ofNat]

theorem toHexLoop_length (bs : List Byte) :
    (BinHexConverter.toHexLoop bs).length = 2 * bs.length := by
  induction bs with
  | nil => rfl
  | cons b bs ih =>
    simp only [BinHexConverter.toHexLoop, BinHexConverter.sprintf02X, List.cons_append,
      List.nil_append, List.length_cons, ih]
    omega

/-! ## Claims on the hex codec and the stream cipher -/

theorem toBin_toHexLoop (b : List Byte) (hb : b ≠ []) :
    BinHexConverter.toBin (BinHexConverter.toHexLoop b) = some b := by
  have hlen := toHexLoop_length b
  have hpos : 0 < b.length := List.length_pos.mpr hb
  have hne : BinHexConverter.toHexLoop b ≠ [] := by
    intro h
    rw [h] at hlen
    simp only [List.length_nil] at hlen
    omega
  rw [toBin_eq _ hne, hlen, toBinLoop_toHexLoop b [Char.ofNat 0]]

/-- C5 (counterexample): the claim quantifies over all byte sequences, but for the empty
sequence `BinHexConverter::toHex` returns `false` (`inputBytesSize <= 0`), so there is no
encoding to decode. -/
theorem toHex_empty_fails :
    ¬ ∃ hex, BinHexConverter.toHex [] = some hex ∧ BinHexConverter.toBin hex = some [] := by
  simp [BinHexConverter.toHex]

/-- C5 (amended): for every non-empty byte sequence `b`, `BinHexConverter::toHex` succeeds
and `BinHexConverter::toBin` applied to its output succeeds and returns exactly `b`; the
bytes `0x00 0x10 0xFF` encode to `"0010FF"`, which decodes to the original bytes. -/
theorem toBin_toHex_roundtrip (b : List Byte) (hb : b ≠ []) :
    (∃ hex, BinHexConverter.toHex b = some hex ∧ BinHexConverter.toBin hex = some b) ∧
    BinHexConverter.toHex [0x00, 0x10, 0xFF] = some "0010FF".toList ∧
    BinHexConverter.toBin "0010FF".toList = some [0x00, 0x10, 0xFF] := by
  refine ⟨⟨BinHexConverter.toHexLoop b, ?_, ?_⟩, by decide, by decide⟩
  · cases b with
    | nil => exact absurd rfl hb
    | cons x xs => simp [BinHexConverter.toHex]
  · cases b with
    | nil => exact absurd rfl hb
    | cons x xs =>
      exact toBin_toHexLoop (x :: xs) (by simp)

/-- Witness for C5 (amended) at the three bytes `0x00 0x10 0xFF`. -/
theorem toBin_toHex_roundtrip_witness :
    ([0x00, 0x10, 0xFF] : List Byte) ≠ [] ∧
    (∃ hex, BinHexConverter.toHex [0x00, 0x10, 0xFF] = some hex ∧
      BinHexConverter.toBin hex = some [0x00, 0x10, 0xFF]) :=
  ⟨by decide, (toBin_toHex_roundtrip [0x00, 0x10, 0xFF] (by decide)).1⟩

/-- C6: for every buffer `p` of length at least 2 and every key `k` of length at least 1,
`XorCryptor::crypt` succeeds on `p`, succeeds again on its output, and the second
application restores `p`. -/
theorem crypt_involutive (p k : List Byte) (hp : 2 ≤ p.length) (hk : 1 ≤ k.length) :
    (XorCryptor.crypt p k).1 = true ∧
    (XorCryptor.crypt (XorCryptor.crypt p k).2 k).1 = true ∧
    (XorCryptor.crypt (XorCryptor.crypt p k).2 k).2 = p := by
  have h1 : ¬ (p.length ≤ 1 ∨ k.length < 1) := by omega
  have h2 : ¬ ((XorCryptor.cryptLoop k p 0).length ≤ 1 ∨ k.length < 1) := by
    rw [cryptLoop_length]; omega
  simp only [XorCryptor.crypt, if_neg h1, if_neg h2, cryptLoop_involutive, and_self]

/-- Witness for C6 at the buffer `41 42 43 44` and the key `AA 55`. -/
theorem crypt_involutive_witness :
    (XorCryptor.crypt (XorCryptor.crypt [0x41, 0x42, 0x43, 0x44] [0xAA, 0x55]).2
      [0xAA, 0x55]).2 = [0x41, 0x42, 0x43, 0x44] :=
  (crypt_involutive [0x41, 0x42, 0x43, 0x44] [0xAA, 0x55] (by decide) (by decide)).2.2

/-- C7: for every buffer of length at least 2 and key of length at least 1,
`XorCryptor::crypt` returns `true`, keeps the buffer length, and byte `i` of the result is
`buf[i] XOR key[i mod |key|]`; the buffer `41 42 43 44` with key `AA 55` becomes
`EB 17 E9 11`. -/
theorem crypt_spec (buf key : List Byte) (hb : 2 ≤ buf.length) (hk : 1 ≤ key.length) :
    (XorCryptor.crypt buf key).1 = true ∧
    (XorCryptor.crypt buf key).2.length = buf.length ∧
    (∀ i : Nat, i < buf.length →
      (XorCryptor.crypt buf key).2[i]? =
        some (buf.getD i 0 ^^^ key.getD (i % key.length) 0)) ∧
    XorCryptor.crypt [0x41, 0x42, 0x43, 0x44] [0xAA, 0x55] = (true, [0xEB, 0x17, 0xE9, 0x11]) := by
  have h1 : ¬ (buf.length ≤ 1 ∨ key.length < 1) := by omega
  refine ⟨?_, ?_, ?_, by decide⟩
  · simp only [XorCryptor.crypt, if_neg h1]
  · simp only [XorCryptor.crypt, if_neg h1, cryptLoop_length]
  · intro i hi
    simp only [XorCryptor.crypt, if_neg h1]
    rw [cryptLoop_getElem_opt key (by omega) buf 0 (by omega) i]
    simp [List.getD_eq_getElem?_getD, List.getElem?_eq_getElem hi]

/-- Witness for C7 at the buffer `41 42 43 44` and the key `AA 55`. -/
theorem crypt_spec_witness :
    (XorCryptor.crypt [0x41, 0x42, 0x43, 0x44] [0xAA, 0x55]).2.length = 4 :=
  (crypt_spec [0x41, 0x42, 0x43, 0x44] [0xAA, 0x55] (by decide) (by decide)).2.1

/-! ## Claims on the queues -/

theorem pushLoop_eq_append (rndBytes deq1 : List Byte) :
    pushLoop rndBytes deq1 = deq1 ++ rndBytes := by
  induction rndBytes generalizing deq1 with
  | nil => simp [pushLoop]
  | cons b bs ih => simp [pushLoop, ih]

theorem migrateLoop_eq (i : Nat) (deq1 deq2 : List Byte) :
    migrateLoop i deq1 deq2 =
      (deq1.drop ((deq1.length - i + 1) / 2), deq2 ++ deq1.take ((deq1.length - i + 1) / 2)) := by
  induction deq1 generalizing i deq2 with
  | nil => simp [migrateLoop]
  | cons x xs ih =>
    unfold migrateLoop
    by_cases h : i < (x :: xs).length
    · rw [if_pos h, ih]
      simp only [List.length_cons] at h ⊢
      have e : (xs.length + 1 - i + 1) / 2 = (xs.length - (i + 1) + 1) / 2 + 1 := by omega
      rw [e]
      simp
    · rw [if_neg h]
      simp only [List.length_cons] at h ⊢
      have e : (xs.length + 1 - i + 1) / 2 = 0 := by omega
      rw [e]
      simp

theorem migrate_preserves_order (m : Int) (deq1 deq2 : List Byte) :
    (migrate m deq1 deq2).2 ++ (migrate m deq1 deq2).1 = deq2 ++ deq1 := by
  unfold migrate
  split
  · rw [migrateLoop_eq]; simp
  · rfl

theorem fillLoop_append (n : Nat) (deq2 : List Byte) :
    (fillLoop n deq2).1 ++ (fillLoop n deq2).2 = deq2 := by
  induction deq2 generalizing n with
  | nil => cases n <;> simp [fillLoop]
  | cons x xs ih =>
    cases n with
    | zero => simp [fillLoop]
    | succ n => simp [fillLoop, ih]

theorem feedStep_none (pool e : Int) (deq2 d : List Byte)
    (h : feedStep pool e deq2 = (none, d)) : d = deq2 := by
  unfold feedStep at h
  split at h
  · simp at h
  · simp only [Prod.mk.injEq, true_and] at h
    exact h.symm

theorem feedStep_some (pool e : Int) (deq2 d : List Byte) (r : EntropyRecord)
    (h : feedStep pool e deq2 = (some r, d)) : r.data ++ d = deq2 := by
  unfold feedStep at h
  split at h
  · simp only [Prod.mk.injEq, Option.some.injEq] at h
    rw [← h.1, ← h.2]
    exact fillLoop_append _ _
  · simp at h

theorem step_preserves_order (m pool : Int) (s : Pipeline) (a : Action)
    (h : s.injected ++ s.deq2 ++ s.deq1 = s.blocks.flatten) :
    (s.step m pool a).injected ++ (s.step m pool a).deq2 ++ (s.step m pool a).deq1
      = (s.step m pool a).blocks.flatten := by
  cases a with
  | append rndBytes =>
    simp only [Pipeline.step, pushLoop_eq_append, List.flatten_append, ← h]
    simp
  | migrate =>
    simp only [Pipeline.step, ← h, List.append_assoc]
    rw [migrate_preserves_order]
  | feed e =>
    simp only [Pipeline.step]
    split
    · next d heq =>
      rw [feedStep_none pool e s.deq2 d heq]
      exact h
    · next r d heq =>
      have := feedStep_some pool e s.deq2 d r heq
      simp only [← h, ← this, List.append_assoc]

/-- C3: in every state reached from the initial state by any finite interleaving of the
downloader's append step, its migration step and the feeder's injection step, the bytes
injected so far followed by the egress queue and the ingress queue equal the
concatenation, in download order, of the blocks appended by successful exchanges; hence
the injected bytes are a prefix of that concatenation. -/
theorem pipeline_order_preserved (maxDeqSizeBytes entropyPoolSizeBytes : Int)
    (actions : List Action) :
    (Pipeline.run maxDeqSizeBytes entropyPoolSizeBytes Pipeline.init actions).injected ++
      (Pipeline.run maxDeqSizeBytes entropyPoolSizeBytes Pipeline.init actions).deq2 ++
      (Pipeline.run maxDeqSizeBytes entropyPoolSizeBytes Pipeline.init actions).deq1
      = (Pipeline.run maxDeqSizeBytes entropyPoolSizeBytes Pipeline.init actions).blocks.flatten ∧
    (Pipeline.run maxDeqSizeBytes entropyPoolSizeBytes Pipeline.init actions).injected <+:
      (Pipeline.run maxDeqSizeBytes entropyPoolSizeBytes Pipeline.init actions).blocks.flatten := by
  have key : ∀ (as : List Action) (s : Pipeline),
      s.injected ++ s.deq2 ++ s.deq1 = s.blocks.flatten →
      (Pipeline.run maxDeqSizeBytes entropyPoolSizeBytes s as).injected ++
        (Pipeline.run maxDeqSizeBytes entropyPoolSizeBytes s as).deq2 ++
        (Pipeline.run maxDeqSizeBytes entropyPoolSizeBytes s as).deq1
        = (Pipeline.run maxDeqSizeBytes entropyPoolSizeBytes s as).blocks.flatten := by
    intro as
    induction as with
    | nil => intro s h; exact h
    | cons a as ih =>
      intro s h
      exact ih _ (step_preserves_order maxDeqSizeBytes entropyPoolSizeBytes s a h)
  have h := key actions Pipeline.init rfl
  refine ⟨h, ?_⟩
  rw [← h, List.append_assoc]
  exact List.prefix_append _ _

/-- C4 (the code at the failing input): with `maxDeqSizeBytes = 10`, ingress `1 2 3` and
egress `9` (below the watermark), the migration step leaves `3` in ingress and makes
egress `9 1 2`; the claim asks for an empty ingress and egress `9 1 2 3`. -/
theorem migrate_leaves_bytes_behind :
    migrate 10 [1, 2, 3] [9] = ([3], [9, 1, 2]) ∧
    ¬ ((migrate 10 [1, 2, 3] [9]).1 = [] ∧ (migrate 10 [1, 2, 3] [9]).2 = [9] ++ [1, 2, 3]) := by
  decide

/-! ## Claims on the request text -/

theorem send_result_eq (write : List Char → Int) (cmd : List Char) :
    (if write cmd = -1 ∨ write cmd ≠ (cmd.length : Int) then (false, some cmd)
      else (true, some cmd)) =
    (decide (write cmd = (cmd.length : Int)), some cmd) := by
  have hlen : ¬ ((cmd.length : Int) = -1) := by omega
  by_cases h : write cmd = (cmd.length : Int)
  · rw [if_neg]
    · simp [h]
    · rw [h]; simp [hlen]
  · rw [if_pos (Or.inr h)]
    simp [h]

theorem sendGetRequest_eq (cli : HttpClient) (resource : List Char) (token : CryptoToken)
    (write : List Char → Int) (hex : List Char)
    (hconn : cli.isSocketCreated = true)
    (htok : cli.isStreamEncrypted = true → token.createTokenAsText [] = some hex) :
    cli.sendGetRequest resource token write =
      (decide (write (requestTextSpec resource cli.hostName cli.tlAuthToken
          cli.isStreamEncrypted hex) =
        ((requestTextSpec resource cli.hostName cli.tlAuthToken
          cli.isStreamEncrypted hex).length : Int)),
       some (requestTextSpec resource cli.hostName cli.tlAuthToken cli.isStreamEncrypted hex)) := by
  cases henc : cli.isStreamEncrypted with
  | true =>
    have ht := htok henc
    by_cases hauth : cli.tlAuthToken = []
    · simp only [HttpClient.sendGetRequest, hconn, henc, ht, hauth, requestTextSpec,
        List.length_nil, gt_iff_lt, Nat.lt_irrefl, ↓reduceIte, Bool.not_true,
        Bool.false_eq_true, List.nil_append, List.append_assoc, ne_eq, not_true_eq_false,
        List.append_nil]
      exact send_result_eq write _
    · have hpos : cli.tlAuthToken.length > 0 := List.length_pos.mpr hauth
      simp only [HttpClient.sendGetRequest, hconn, henc, ht, hauth, requestTextSpec, hpos,
        ↓reduceIte, Bool.not_true, Bool.false_eq_true, List.nil_append,
        List.append_assoc, ne_eq, not_false_eq_true]
      exact send_result_eq write _
  | false =>
    by_cases hauth : cli.tlAuthToken = []
    · simp only [HttpClient.sendGetRequest, hconn, henc, hauth, requestTextSpec,
        List.length_nil, gt_iff_lt, Nat.lt_irrefl, ↓reduceIte, Bool.not_true,
        Bool.false_eq_true, List.nil_append, List.append_assoc, ne_eq, not_true_eq_false,
        List.append_nil]
      exact send_result_eq write _
    · have hpos : cli.tlAuthToken.length > 0 := List.length_pos.mpr hauth
      simp only [HttpClient.sendGetRequest, hconn, henc, hauth, requestTextSpec, hpos,
        ↓reduceIte, Bool.not_true, Bool.false_eq_true, List.nil_append,
        List.append_assoc, ne_eq, not_false_eq_true, List.append_nil]
      exact send_result_eq write _

/-- C8: for every resource, host, auth token and `stream_encrypted` flag, when
`HttpClient::sendGetRequest` runs on a connected client (and, for an encrypted stream,
the token text `hex` was created), the text it hands to `write` is exactly the request
line, the `Host` line, the auth-token line iff the token is non-empty, the crypto-token
line iff the stream is encrypted, and a single blank line; it returns `true` exactly when
`write` reports that whole text as sent. -/
theorem sendGetRequest_text (cli : HttpClient) (resource : List Char) (token : CryptoToken)
    (write : List Char → Int) (hex : List Char)
    (hconn : cli.isSocketCreated = true)
    (htok : cli.isStreamEncrypted = true → token.createTokenAsText [] = some hex) :
    (cli.sendGetRequest resource token write).2 =
      some (requestTextSpec resource cli.hostName cli.tlAuthToken cli.isStreamEncrypted hex) ∧
    ((cli.sendGetRequest resource token write).1 = true ↔
      write (requestTextSpec resource cli.hostName cli.tlAuthToken cli.isStreamEncrypted hex) =
        ((requestTextSpec resource cli.hostName cli.tlAuthToken
          cli.isStreamEncrypted hex).length : Int)) := by
  rw [sendGetRequest_eq cli resource token write hex hconn htok]
  exact ⟨rfl, by simp only [decide_eq_true_eq]⟩

/-- Witness for C8: a connected client for host `h`, auth token `t`, no encryption, asking
for the resource `/r16`. -/
theorem sendGetRequest_text_witness :
    (HttpClient.sendGetRequest ⟨"h".toList, "t".toList, false, true⟩ "/r16".toList
      ⟨noCryptor, []⟩ (fun cmd => (cmd.length : Int))).2 =
      some "GET /r16 HTTP/1.0\r\nHost: h\r\ntl-ent-sce-auth-token: t\r\n\r\n".toList :=
  (sendGetRequest_text ⟨"h".toList, "t".toList, false, true⟩ "/r16".toList ⟨noCryptor, []⟩
    (fun cmd => (cmd.length : Int)) [] rfl (by intro h; cases h)).1


/-! ## Claims on the verified body read -/

theorem read_length {α : Type} (sock sock' : Sock α) (count : Nat) (l : List α)
    (h : sock.read count = (.data l, sock')) : l.length ≤ count := by
  unfold Sock.read at h
  split at h
  · simp only [Prod.mk.injEq, ReadEvent.data.injEq] at h
    rw [← h.1]; simp
  · simp at h
  · split at h
    · simp only [Prod.mk.injEq, ReadEvent.data.injEq] at h
      rw [← h.1]; assumption
    · simp only [Prod.mk.injEq, ReadEvent.data.injEq] at h
      rw [← h.1]; simp

theorem store_length (buf : List Byte) (total : Nat) (l : List Byte)
    (h : total + l.length ≤ buf.length) : (store buf total l).length = buf.length := by
  simp only [store, List.length_append, List.length_take, List.length_drop]
  omega

theorem crypt_length (b k : List Byte) : (XorCryptor.crypt b k).2.length = b.length := by
  unfold XorCryptor.crypt
  split
  · rfl
  · exact cryptLoop_length _ _ _

theorem readLoop_done (lib : Sha256Lib) (r : HttpResponse) (fuel : Nat) (sock : Sock Byte)
    (buf : List Byte) (total : Nat) (res : ReadResult) (h : ¬ total < buf.length)
    (hres : HttpResponse.readLoop lib r fuel sock buf total = some res) :
    res.ok = true ∧ res.byteBuff = buf := by
  cases fuel with
  | zero => simp [HttpResponse.readLoop] at hres
  | succ fuel =>
    simp only [HttpResponse.readLoop, if_neg h, Option.some.injEq] at hres
    rw [← hres]
    exact ⟨rfl, rfl⟩

theorem readLoop_total (lib : Sha256Lib) (r : HttpResponse) (fuel : Nat) :
    ∀ (sock : Sock Byte) (buf : List Byte) (total : Nat),
      buf.length - total < fuel → total ≤ buf.length →
      ∃ res, HttpResponse.readLoop lib r fuel sock buf total = some res := by
  induction fuel with
  | zero => intro sock buf total h; omega
  | succ fuel ih =>
    intro sock buf total hfuel hle
    unfold HttpResponse.readLoop
    split
    · next hlt =>
      rcases hread : sock.read (buf.length - total) with ⟨ev, sock'⟩
      cases ev with
      | error => exact ⟨_, rfl⟩
      | data l =>
        cases l with
        | nil =>
          simp only []
          split <;> exact ⟨_, rfl⟩
        | cons b bs =>
          have hl := read_length _ _ _ _ hread
          have hst : (store buf total (b :: bs)).length = buf.length :=
            store_length _ _ _ (by omega)
          simp only []
          have hlen1 : 1 ≤ (b :: bs).length := by simp
          split
          · split
            · exact ⟨_, rfl⟩
            · split
              · exact ⟨_, rfl⟩
              · split
                · exact ⟨_, rfl⟩
                · apply ih
                  · rw [crypt_length, hst]; omega
                  · rw [crypt_length, hst]; omega
          · apply ih
            · rw [hst]; omega
            · rw [hst]; omega
    · exact ⟨_, rfl⟩

theorem readLoop_fingerprint (lib : Sha256Lib) (r : HttpResponse)
    (henc : r.isStreamEncrypted = true) (fuel : Nat) :
    ∀ (sock : Sock Byte) (buf : List Byte) (total : Nat) (res : ReadResult),
      total < buf.length →
      HttpResponse.readLoop lib r fuel sock buf total = some res → res.ok = true →
      BinHexConverter.toHex (SHA256.hash lib res.byteBuff) =
        some (r.headers "TL-RESP-BYTEHASH".toList) ∧
      r.headers "TL-RESP-BYTEHASH".toList ≠ [] ∧
      res.byteBuff.length = buf.length := by
  induction fuel with
  | zero => intro sock buf total res _ h; simp [HttpResponse.readLoop] at h
  | succ fuel ih =>
    intro sock buf total res hlt hres hok
    unfold HttpResponse.readLoop at hres
    rw [if_pos hlt] at hres
    rcases hread : sock.read (buf.length - total) with ⟨ev, sock'⟩
    rw [hread] at hres
    cases ev with
    | error =>
      simp only [Option.some.injEq] at hres
      rw [← hres] at hok; cases hok
    | data l =>
      cases l with
      | nil =>
        simp only [] at hres
        rw [if_pos (by omega)] at hres
        simp only [Option.some.injEq] at hres
        rw [← hres] at hok; cases hok
      | cons b bs =>
        have hl := read_length _ _ _ _ hread
        have hst : (store buf total (b :: bs)).length = buf.length :=
          store_length _ _ _ (by omega)
        simp only [henc, if_true] at hres
        split at hres
        · simp only [Option.some.injEq] at hres
          rw [← hres] at hok; cases hok
        · next hne =>
          split at hres
          · simp only [Option.some.injEq] at hres
            rw [← hres] at hok; cases hok
          · next actual hhex =>
            split at hres
            · simp only [Option.some.injEq] at hres
              rw [← hres] at hok; cases hok
            · next heq =>
              have heq' : actual = r.headers "TL-RESP-BYTEHASH".toList := by
                simpa using heq
              have hne' : r.headers "TL-RESP-BYTEHASH".toList ≠ [] := by
                intro h0; apply hne; rw [h0]; rfl
              by_cases hmore : (b :: bs).length + total <
                  (XorCryptor.crypt (store buf total (b :: bs)) r.cryptoKey).2.length
              · have := ih _ _ _ _ hmore hres hok
                refine ⟨this.1, this.2.1, ?_⟩
                rw [this.2.2, crypt_length, hst]
              · have := readLoop_done lib r fuel _ _ _ _ hmore hres
                rw [this.2, crypt_length, hst]
                exact ⟨by rw [hhex, heq'], hne', rfl⟩

/-- C1: for every requested byte count `n ≥ 1` (the length of the buffer region) and
every response stream, `HttpResponse::readContent` returns, and if it returns `true` with
`stream_encrypted = true`, then the buffer it hands back has the upper-case hex of the
SHA-256 of the salt `"2093457209837"` followed by its `n` bytes equal to the stored
`TL-RESP-BYTEHASH` header value, and that header value is not empty. -/
theorem readContent_true_fingerprint (lib : Sha256Lib) (r : HttpResponse) (sock : Sock Byte)
    (byteBuff : List Byte) (henc : r.isStreamEncrypted = true) (hn : 1 ≤ byteBuff.length) :
    (∃ res, r.readContent lib sock byteBuff = some res) ∧
    ∀ res, r.readContent lib sock byteBuff = some res → res.ok = true →
      BinHexConverter.toHex (lib.digest (salt ++ res.byteBuff)) =
        some (r.getHeader "TL-RESP-BYTEHASH".toList) ∧
      r.getHeader "TL-RESP-BYTEHASH".toList ≠ [] ∧
      res.byteBuff.length = byteBuff.length := by
  constructor
  · unfold HttpResponse.readContent
    split
    · exact ⟨_, rfl⟩
    · exact readLoop_total lib r _ _ _ _ (by omega) (by omega)
  · intro res hres hok
    unfold HttpResponse.readContent at hres
    split at hres
    · simp only [Option.some.injEq] at hres
      rw [← hres] at hok; cases hok
    · exact readLoop_fingerprint lib r henc _ _ _ _ _ (by omega) hres hok


/-- Witness for C1: the two plaintext bytes `41 42`, encrypted under a key of 48 bytes `5A`
and delivered by one read, with the fingerprint header of the plaintext. -/
theorem readContent_true_fingerprint_witness :
    (fingerprintResponse paddingDigest (List.replicate 48 0x5A) [0x41, 0x42]).isStreamEncrypted
      = true ∧
    ((fingerprintResponse paddingDigest (List.replicate 48 0x5A) [0x41, 0x42]).readContent
      paddingDigest [.data [0x1B, 0x18]] [0, 0]).map (fun res => (res.ok, res.byteBuff))
      = some (true, [0x41, 0x42]) ∧
    ∀ res, (fingerprintResponse paddingDigest (List.replicate 48 0x5A) [0x41, 0x42]).readContent
        paddingDigest [.data [0x1B, 0x18]] [0, 0] = some res → res.ok = true →
      BinHexConverter.toHex (paddingDigest.digest (salt ++ res.byteBuff)) =
        some ((fingerprintResponse paddingDigest (List.replicate 48 0x5A)
          [0x41, 0x42]).getHeader "TL-RESP-BYTEHASH".toList) ∧
      (fingerprintResponse paddingDigest (List.replicate 48 0x5A)
          [0x41, 0x42]).getHeader "TL-RESP-BYTEHASH".toList ≠ [] ∧
      res.byteBuff.length = 2 :=
  ⟨rfl, by decide,
    (readContent_true_fingerprint paddingDigest
      (fingerprintResponse paddingDigest (List.replicate 48 0x5A) [0x41, 0x42])
      [.data [0x1B, 0x18]] [0, 0] rfl (by decide)).2⟩

theorem toHex_hash (lib : Sha256Lib) (m : List Byte) :
    BinHexConverter.toHex (SHA256.hash lib m) =
      some (BinHexConverter.toHexLoop (SHA256.hash lib m)) := by
  have h : ¬ (SHA256.hash lib m).length ≤ 0 := by
    rw [SHA256.hash, lib.digest_length]; omega
  simp only [BinHexConverter.toHex, if_neg h]

theorem fingerprint_ne_nil (lib : Sha256Lib) (m : List Byte) :
    BinHexConverter.toHexLoop (SHA256.hash lib m) ≠ [] := by
  intro h
  have := toHexLoop_length (SHA256.hash lib m)
  rw [h, SHA256.hash, lib.digest_length] at this
  simp at this

/-- One round of the loop of `readContent` on an encrypted stream whose fingerprint header
is that of `plain`, when the read delivers the non-empty chunk `b :: bs`. -/
theorem readLoop_step_encrypted (lib : Sha256Lib) (key plain : List Byte) (fuel : Nat)
    (sock sock' : Sock Byte) (buf : List Byte) (total : Nat) (b : Byte) (bs : List Byte)
    (hlt : total < buf.length)
    (hread : sock.read (buf.length - total) = (.data (b :: bs), sock')) :
    HttpResponse.readLoop lib (fingerprintResponse lib key plain) (fuel + 1) sock buf total =
      if BinHexConverter.toHexLoop
          (SHA256.hash lib (XorCryptor.crypt (store buf total (b :: bs)) key).2) ≠
          BinHexConverter.toHexLoop (SHA256.hash lib plain) then
        some ⟨false, (XorCryptor.crypt (store buf total (b :: bs)) key).2,
          "Byte stream hash values don't match", sock'⟩
      else
        HttpResponse.readLoop lib (fingerprintResponse lib key plain) fuel sock'
          (XorCryptor.crypt (store buf total (b :: bs)) key).2 ((b :: bs).length + total) := by
  have hhdr : (fingerprintResponse lib key plain).headers "TL-RESP-BYTEHASH".toList =
      BinHexConverter.toHexLoop (SHA256.hash lib plain) := by
    simp [fingerprintResponse, Headers.set]
  have hne : ¬ (BinHexConverter.toHexLoop (SHA256.hash lib plain)).length = 0 := by
    intro h
    exact fingerprint_ne_nil lib plain (List.length_eq_zero.mp h)
  rw [HttpResponse.readLoop, if_pos hlt, hread]
  simp only [hhdr, if_neg hne, toHex_hash]
  simp only [fingerprintResponse, if_true]

theorem crypt_pair (x y : Byte) :
    (XorCryptor.crypt [x, y] (List.replicate 48 0x5A)).2 = [x ^^^ 0x5A, y ^^^ 0x5A] := by
  have h0 : (List.replicate 48 (0x5A : Byte)).getD 0 0 = 0x5A := by decide
  have h1 : (List.replicate 48 (0x5A : Byte)).getD 1 0 = 0x5A := by decide
  have hk : (List.replicate 48 (0x5A : Byte)).length = 48 := by simp
  simp [XorCryptor.crypt, XorCryptor.cryptLoop, h0, h1]

/-- C2 (the code at the failing input): plaintext `41 42`, a key of 48 bytes `5A`, the
body `1B 18` delivered by two reads of one byte each, the fingerprint of the plaintext as
header, whatever the buffer held before and whatever the hash function is.  The call does
not both return `true` and leave the plaintext in the buffer: either a fingerprint check
on the way fails, or the first byte has been XORed twice.  With a hash that tells the
buffers apart the call returns `false` at the first read. -/
theorem readContent_split_read (lib : Sha256Lib) (g0 g1 : Byte) :
    ((fingerprintResponse lib (List.replicate 48 0x5A) [0x41, 0x42]).readContent lib
      [.data [0x1B], .data [0x18]] [g0, g1]).map
        (fun res => decide (res.ok = true ∧ res.byteBuff = [0x41, 0x42])) = some false ∧
    ((fingerprintResponse paddingDigest (List.replicate 48 0x5A) [0x41, 0x42]).readContent
      paddingDigest [.data [0x1B], .data [0x18]] [0, 0]).map
        (fun res => (res.ok, res.lastErrorMessage)) =
      some (false, "Byte stream hash values don't match") := by
  refine ⟨?_, by decide⟩
  have hav : (fingerprintResponse lib (List.replicate 48 0x5A) [0x41, 0x42]).isAvailable
      = true := rfl
  simp only [HttpResponse.readContent, hav, Bool.not_true, Bool.false_eq_true, if_false]
  rw [show [g0, g1].length + 1 = 2 + 1 from rfl,
    readLoop_step_encrypted lib _ _ 2 [.data [0x1B], .data [0x18]] [.data [0x18]] [g0, g1] 0 0x1B []
      (by simp) rfl]
  have hs1 : store [g0, g1] 0 [0x1B] = [0x1B, g1] := rfl
  rw [hs1, crypt_pair]
  split
  · rfl
  · rw [readLoop_step_encrypted lib _ _ 1 [.data [0x18]] []
      [(0x1B : Byte) ^^^ 0x5A, g1 ^^^ 0x5A] ([(0x1B : Byte)].length + 0) 0x18 [] (by simp) rfl]
    have hs2 : store [(0x1B : Byte) ^^^ 0x5A, g1 ^^^ 0x5A] ([(0x1B : Byte)].length + 0) [0x18]
        = [0x1B ^^^ 0x5A, 0x18] := rfl
    rw [hs2, crypt_pair]
    split
    · rfl
    · simp only [HttpResponse.readLoop]
      have : ¬ ([(0x18 : Byte)].length + ([(0x1B : Byte)].length + 0) <
          [((0x1B : Byte) ^^^ 0x5A) ^^^ 0x5A, (0x18 : Byte) ^^^ 0x5A].length) := by
        simp
      rw [if_neg this]
      simp only [Option.map_some', Option.some.injEq, decide_eq_false_iff_not, true_and]
      decide


/-- The part of C2 that the code does deliver: when the whole encrypted body arrives in one
read, `readContent` returns `true` and leaves the plaintext in the buffer. -/
theorem readContent_single_read (lib : Sha256Lib) (key plain buf0 : List Byte)
    (rest : Sock Byte) (hP : 2 ≤ plain.length) (hk : 1 ≤ key.length)
    (hb : buf0.length = plain.length) :
    (fingerprintResponse lib key plain).readContent lib
      (.data (XorCryptor.crypt plain key).2 :: rest) buf0 = some ⟨true, plain, "", rest⟩ := by
  have hinv : (XorCryptor.crypt (XorCryptor.crypt plain key).2 key).2 = plain := by
    have h1 : ¬ (plain.length ≤ 1 ∨ key.length < 1) := by omega
    have h2 : ¬ ((XorCryptor.cryptLoop key plain 0).length ≤ 1 ∨ key.length < 1) := by
      rw [cryptLoop_length]; omega
    simp only [XorCryptor.crypt, if_neg h1, if_neg h2, cryptLoop_involutive]
  have hclen := crypt_length plain key
  obtain ⟨b, bs, hbody⟩ : ∃ b bs, (XorCryptor.crypt plain key).2 = b :: bs := by
    cases h : (XorCryptor.crypt plain key).2 with
    | nil => rw [h] at hclen; simp at hclen; omega
    | cons b bs => exact ⟨b, bs, rfl⟩
  have hav : (fingerprintResponse lib key plain).isAvailable = true := rfl
  simp only [HttpResponse.readContent, hav, Bool.not_true, Bool.false_eq_true, if_false]
  have hread : Sock.read (.data (XorCryptor.crypt plain key).2 :: rest) (buf0.length - 0)
      = (.data (b :: bs), rest) := by
    have hle : (b :: bs).length ≤ plain.length := by rw [← hbody, hclen]
    simp only [Sock.read, hb, Nat.sub_zero, hbody, if_pos hle]
  rw [readLoop_step_encrypted lib key plain buf0.length _ rest buf0 0 b bs (by omega) hread]
  have hst : store buf0 0 (b :: bs) = b :: bs := by
    have : (b :: bs).length = buf0.length := by rw [← hbody, hclen, hb]
    simp only [store, List.take_zero, List.nil_append, Nat.zero_add, this, List.drop_length,
      List.append_nil]
  rw [hst, ← hbody, hinv, if_neg (by simp)]
  have hdone : ¬ ((XorCryptor.crypt plain key).2.length + 0 < plain.length) := by
    rw [hclen]; omega
  cases hfuel : buf0.length with
  | zero => omega
  | succ n =>
    simp only [HttpResponse.readLoop, if_neg hdone]
    rfl


/-! ## Claims on the status code -/

theorem findStr_single_none (c : Char) (s : List Char) (h : ∀ x ∈ s, x ≠ c) :
    findStr [c] s = none := by
  induction s with
  | nil => simp [findStr]
  | cons x xs ih =>
    have hx : x ≠ c := h x (List.mem_cons_self _ _)
    have hxs : ∀ y ∈ xs, y ≠ c := fun y hy => h y (List.mem_cons_of_mem _ hy)
    have hp : ¬ ([c] <+: x :: xs) := by
      rw [List.cons_prefix_cons]
      intro hp
      exact hx hp.1.symm
    simp only [findStr, if_neg hp, ih hxs]

theorem findStr_single_some (c : Char) (pre post : List Char) (h : ∀ x ∈ pre, x ≠ c) :
    findStr [c] (pre ++ c :: post) = some pre.length := by
  induction pre with
  | nil =>
    have hp : [c] <+: c :: post := by
      rw [List.cons_prefix_cons]
      exact ⟨rfl, List.nil_prefix⟩
    simp only [List.nil_append, findStr, if_pos hp, List.length_nil]
  | cons x xs ih =>
    have hx : x ≠ c := h x (List.mem_cons_self _ _)
    have hxs : ∀ y ∈ xs, y ≠ c := fun y hy => h y (List.mem_cons_of_mem _ hy)
    have hp : ¬ ([c] <+: x :: (xs ++ c :: post)) := by
      rw [List.cons_prefix_cons]
      intro hp
      exact hx hp.1.symm
    show findStr [c] (x :: (xs ++ c :: post)) = _
    rw [findStr, if_neg hp, ih hxs]
    rfl

theorem first_occurrence (c : Char) (s : List Char) :
    (∀ x ∈ s, x ≠ c) ∨ ∃ pre post, s = pre ++ c :: post ∧ ∀ x ∈ pre, x ≠ c := by
  induction s with
  | nil => left; intro x hx; cases hx
  | cons y ys ih =>
    by_cases hy : y = c
    · right
      exact ⟨[], ys, by rw [hy]; rfl, by intro x hx; cases hx⟩
    · rcases ih with h | ⟨pre, post, hs, hpre⟩
      · left
        intro x hx
        rcases List.mem_cons.mp hx with rfl | hx
        · exact hy
        · exact h x hx
      · right
        refine ⟨y :: pre, post, by rw [hs]; rfl, ?_⟩
        intro x hx
        rcases List.mem_cons.mp hx with rfl | hx
        · exact hy
        · exact hpre x hx

theorem splitLoop_space (fuel : Nat) :
    ∀ (str : List Char) (acc : List (List Char)), str.length < fuel → str ≠ [] →
      HttpResponse.splitLoop [' '] fuel str acc = some (acc ++ str.splitOn ' ') := by
  induction fuel with
  | zero => intro str acc h; omega
  | succ fuel ih =>
    intro str acc hfuel hne
    have hlen : str.length ≠ 0 := by
      intro h; exact hne (List.length_eq_zero.mp h)
    have hfuel1 : ∃ f, fuel = f + 1 := ⟨fuel - 1, by omega⟩
    rw [HttpResponse.splitLoop, if_neg hlen]
    rcases first_occurrence ' ' str with h | ⟨pre, post, hs, hpre⟩
    · rw [findStr_single_none ' ' str h]
      simp only []
      obtain ⟨f, hf⟩ := hfuel1
      have hsp : str.splitOn ' ' = [str] := by
        apply List.splitOnP_eq_single
        intro x hx
        simpa using h x hx
      rw [hf, HttpResponse.splitLoop, hsp]
      simp only [List.length_nil, ↓reduceIte]
    · have hsp : str.splitOn ' ' = pre :: post.splitOn ' ' := by
        rw [hs]
        apply List.splitOnP_first
        · intro x hx
          simpa using hpre x hx
        · simp
      rw [hs, findStr_single_some ' ' pre post hpre]
      simp only [List.take_left', List.length_singleton]
      have hdrop : (pre ++ ' ' :: post).drop (pre.length + 1) = post := by
        rw [show pre ++ ' ' :: post = (pre ++ [' ']) ++ post by simp]
        apply List.drop_left'
        simp
      rw [hdrop, ← hs, hsp]
      by_cases hpost : post = []
      · obtain ⟨f, hf⟩ := hfuel1
        rw [hpost, hf, HttpResponse.splitLoop]
        simp [List.splitOn]
      · have hpl : post.length ≠ 0 := by
          intro h; exact hpost (List.length_eq_zero.mp h)
        rw [if_neg hpl, ih post _ _ hpost]
        · simp
        · rw [hs] at hfuel
          simp only [List.length_append, List.length_cons] at hfuel
          omega

theorem split_space (str : List Char) (hne : str ≠ []) :
    HttpResponse.split str " ".toList = some (str.splitOn ' ') := by
  have := splitLoop_space (str.length + 1) str [] (by omega) hne
  simpa [HttpResponse.split] using this


theorem digitChar_facts :
    ∀ d : Fin 10, isdigit (digitChar d.val) = true ∧ isspace (digitChar d.val) = false ∧
      digitChar d.val ≠ '-' ∧ digitChar d.val ≠ '+' ∧ (digitChar d.val).toNat - 48 = d.val := by
  decide

theorem atoiDigits_digits (ds : List Nat) (rest : List Char) (hds : ∀ d ∈ ds, d < 10)
    (hrest : ∀ c ∈ rest.head?, isdigit c = false) (acc : Int) :
    atoiDigits (ds.map digitChar ++ rest) acc =
      acc * 10 ^ ds.length + (Nat.ofDigits 10 ds.reverse : Nat) := by
  induction ds generalizing acc with
  | nil =>
    cases rest with
    | nil => simp [atoiDigits]
    | cons c cs =>
      have hc : isdigit c = false := hrest c (by simp)
      simp [atoiDigits, hc]
  | cons d ds ih =>
    have hd : d < 10 := hds d (List.mem_cons_self _ _)
    have hds' : ∀ x ∈ ds, x < 10 := fun x hx => hds x (List.mem_cons_of_mem _ hx)
    have hf := digitChar_facts ⟨d, hd⟩
    simp only [] at hf
    have hval : ((digitChar d).toNat : Int) - 48 = (d : Int) := by
      have h48 : 48 ≤ (digitChar d).toNat := by
        have := hf.2.2.2.2
        by_contra hlt
        have hz : (digitChar d).toNat - 48 = 0 := by omega
        rw [hz] at this
        subst this
        revert hlt
        decide
      have := hf.2.2.2.2
      omega
    show atoiDigits (digitChar d :: (ds.map digitChar ++ rest)) acc = _
    rw [atoiDigits, if_pos hf.1, hval, ih hds']
    rw [List.reverse_cons, Nat.ofDigits_append, Nat.ofDigits_singleton, List.length_reverse,
      List.length_cons]
    push_cast
    ring

theorem strtolValue_cons_plain (c : Char) (cs : List Char) (hsp : isspace c = false)
    (hm : c ≠ '-') (hp : c ≠ '+') : strtolValue (c :: cs) = atoiDigits (c :: cs) 0 := by
  unfold strtolValue
  have hdw : (c :: cs).dropWhile isspace = c :: cs := by
    simp [List.dropWhile, hsp]
  rw [hdw]
  split
  · next h => simp only [List.cons.injEq] at h; exact absurd h.1 hm
  · next h => simp only [List.cons.injEq] at h; exact absurd h.1 hp
  · rfl

theorem atoi_of_int (s : List Char) (h1 : -2147483648 ≤ strtolValue s)
    (h2 : strtolValue s < 2147483648) : atoi s = strtolValue s := by
  unfold atoi
  simp only []
  rw [if_neg (by omega), if_neg (by omega)]
  omega

theorem atoi_digits (ds : List Nat) (rest : List Char) (hne : ds ≠ [])
    (hds : ∀ d ∈ ds, d < 10) (hrest : ∀ c ∈ rest.head?, isdigit c = false)
    (hint : Nat.ofDigits 10 ds.reverse < 2 ^ 31) :
    atoi (ds.map digitChar ++ rest) = (Nat.ofDigits 10 ds.reverse : Nat) := by
  have hv : strtolValue (ds.map digitChar ++ rest) = (Nat.ofDigits 10 ds.reverse : Nat) := by
    cases ds with
    | nil => exact absurd rfl hne
    | cons d ds =>
      have hd : d < 10 := hds d (List.mem_cons_self _ _)
      have hf := digitChar_facts ⟨d, hd⟩
      simp only [] at hf
      have h1 := strtolValue_cons_plain (digitChar d) (ds.map digitChar ++ rest) hf.2.1
        hf.2.2.1 hf.2.2.2.1
      have h2 := atoiDigits_digits (d :: ds) rest hds hrest 0
      simp only [List.map_cons, List.cons_append] at h1 h2 ⊢
      rw [h1, h2]
      simp
  rw [atoi_of_int _ (by rw [hv]; omega) (by rw [hv]; omega), hv]

theorem atoi_no_number (t : List Char)
    (h : ∀ c ∈ t.head?, isspace c = false ∧ c ≠ '-' ∧ c ≠ '+' ∧ isdigit c = false) :
    atoi t = 0 := by
  have hv : strtolValue t = 0 := by
    cases t with
    | nil => rfl
    | cons c cs =>
      have hc := h c (by simp)
      rw [strtolValue_cons_plain c cs hc.1 hc.2.1 hc.2.2.1, atoiDigits,
        if_neg (by simp [hc.2.2.2])]
  rw [atoi_of_int _ (by rw [hv]; omega) (by rw [hv]; omega), hv]

/-- C10 (counterexample): the status line `HTTP/1.0<TAB>200<TAB>OK` gives an available
response whose HTTP entry is `1.0<TAB>200<TAB>OK`; its second whitespace-separated token
is `200`, but `retrieveResponseCode` returns 0, as it does for the entry `1.0  200 OK`
with two spaces; and for the entry `1.0 4294967496 OK` it returns 200, not the decimal
value 4294967496 of the second token, which does not fit an `int`. -/
theorem retrieveResponseCode_tab_separated :
    (HttpResponse.construct [.data "HTTP/1.0\t200\tOK\r\n\r\n".toList] false []).map
      (fun p => (p.1.isAvailable, p.1.getHeader "HTTP".toList, p.1.retrieveResponseCode))
      = some (true, "1.0\t200\tOK".toList, some 0) ∧
    HttpResponse.retrieveResponseCode
      ⟨Headers.empty.set "HTTP".toList "1.0  200 OK".toList, "", true, false, []⟩ = some 0 ∧
    HttpResponse.retrieveResponseCode
      ⟨Headers.empty.set "HTTP".toList "1.0 4294967496 OK".toList, "", true, false, []⟩ =
        some 200 := by
  decide

/-- C10 (amended): for every available response, `retrieveResponseCode` cuts the HTTP
entry at every single space character and returns `atoi` of the second piece, and 0 when
there is no second piece; `atoi` of a piece that starts with a run of decimal digits
followed by no further digit is the decimal value of that run when that value is below
`2 ^ 31`, and `atoi` of a piece that is empty or starts with a character that is neither
white space, a sign nor a digit is 0; the entry `1.0 200 OK` gives 200. -/
theorem retrieveResponseCode_spec (r : HttpResponse) (hav : r.isAvailable = true) :
    r.retrieveResponseCode =
      some (match (r.getHeader "HTTP".toList).splitOn ' ' with
        | _ :: t :: _ => atoi t
        | _ => 0) ∧
    (∀ (ds : List Nat) (rest : List Char), ds ≠ [] → (∀ d ∈ ds, d < 10) →
      (∀ c ∈ rest.head?, isdigit c = false) → Nat.ofDigits 10 ds.reverse < 2 ^ 31 →
      atoi (ds.map digitChar ++ rest) = (Nat.ofDigits 10 ds.reverse : Nat)) ∧
    (∀ t : List Char,
      (∀ c ∈ t.head?, isspace c = false ∧ c ≠ '-' ∧ c ≠ '+' ∧ isdigit c = false) →
      atoi t = 0) ∧
    HttpResponse.retrieveResponseCode
      ⟨Headers.empty.set "HTTP".toList "1.0 200 OK".toList, "", true, false, []⟩ = some 200 := by
  refine ⟨?_, atoi_digits, atoi_no_number, by decide⟩
  unfold HttpResponse.retrieveResponseCode
  rw [if_pos hav]
  by_cases hempty : r.getHeader "HTTP".toList = []
  · rw [hempty]
    simp [List.splitOn]
  · have hpos : (r.getHeader "HTTP".toList).length > 0 := List.length_pos.mpr hempty
    simp only [hpos, if_true, split_space _ hempty]
    rcases hsp : (r.getHeader "HTTP".toList).splitOn ' ' with _ | ⟨a, _ | ⟨b, l⟩⟩
    · simp
    · simp
    · simp

/-- Witness for C10 (amended) at the response whose HTTP entry is `1.0 200 OK`. -/
theorem retrieveResponseCode_spec_witness :
    HttpResponse.retrieveResponseCode
      ⟨Headers.empty.set "HTTP".toList "1.0 200 OK".toList, "", true, false, []⟩ =
      some (match (HttpResponse.getHeader
          ⟨Headers.empty.set "HTTP".toList "1.0 200 OK".toList, "", true, false, []⟩
          "HTTP".toList).splitOn ' ' with
        | _ :: t :: _ => atoi t
        | _ => 0) :=
  (retrieveResponseCode_spec
    ⟨Headers.empty.set "HTTP".toList "1.0 200 OK".toList, "", true, false, []⟩ rfl).1


/-! ## Claims on header parsing -/

theorem takeWhile_run {α : Type} (p : α → Bool) (a : List α) (y : α) (b : List α)
    (ha : ∀ x ∈ a, p x = true) (hy : p y = false) :
    (a ++ y :: b).takeWhile p = a ∧ (a ++ y :: b).dropWhile p = y :: b := by
  induction a with
  | nil => simp [List.takeWhile, List.dropWhile, hy]
  | cons x xs ih =>
    have hx : p x = true := ha x (List.mem_cons_self _ _)
    have := ih (fun z hz => ha z (List.mem_cons_of_mem _ hz))
    simp [List.takeWhile, List.dropWhile, hx, this.1, this.2]

theorem takeWhile_all {α : Type} (p : α → Bool) (a : List α) (ha : ∀ x ∈ a, p x = true) :
    a.takeWhile p = a ∧ a.dropWhile p = [] := by
  induction a with
  | nil => simp
  | cons x xs ih =>
    have hx : p x = true := ha x (List.mem_cons_self _ _)
    have := ih (fun z hz => ha z (List.mem_cons_of_mem _ hz))
    simp [List.takeWhile, List.dropWhile, hx, this.1, this.2]

theorem rdropWhile_run {α : Type} (p : α → Bool) (a : List α) (y : α) (b : List α)
    (hb : ∀ x ∈ b, p x = true) (hy : p y = false) :
    (a ++ y :: b).rdropWhile p = a ++ [y] := by
  have h := takeWhile_run p b.reverse y a.reverse (by simpa using hb) hy
  unfold List.rdropWhile
  rw [show (a ++ y :: b).reverse = b.reverse ++ y :: a.reverse by simp, h.2]
  simp

theorem rdropWhile_all {α : Type} (p : α → Bool) (a : List α) (ha : ∀ x ∈ a, p x = true) :
    a.rdropWhile p = [] := by
  have h := takeWhile_all p a.reverse (by simpa using ha)
  unfold List.rdropWhile
  rw [h.2]
  rfl

theorem find_first_not_of_run (set pre a : List Char) (y : Char) (b : List Char)
    (ha : ∀ x ∈ a, x ∈ set) (hy : y ∉ set) :
    find_first_not_of (pre ++ a ++ y :: b) set pre.length = pre.length + a.length := by
  unfold find_first_not_of
  have hd : (pre ++ a ++ y :: b).drop pre.length = a ++ y :: b := by
    rw [List.append_assoc]
    exact List.drop_left' rfl
  have h := takeWhile_run (fun c => decide (c ∈ set)) a y b (by simpa using ha) (by simpa using hy)
  rw [hd, h.1, h.2]

theorem find_run (c : Char) (pre a b : List Char) (ha : ∀ x ∈ a, x ≠ c) :
    find (pre ++ a ++ c :: b) c pre.length = pre.length + a.length := by
  unfold find
  have hd : (pre ++ a ++ c :: b).drop pre.length = a ++ c :: b := by
    rw [List.append_assoc]
    exact List.drop_left' rfl
  have h := takeWhile_run (fun x => decide (x ≠ c)) a c b (by simpa using ha) (by simp)
  rw [hd, h.1, h.2]

theorem find_absent (c : Char) (s : List Char) (hs : ∀ x ∈ s, x ≠ c) :
    find s c 0 = npos := by
  unfold find
  have h := takeWhile_all (fun x => decide (x ≠ c)) s (by simpa using hs)
  rw [List.drop_zero, h.2]

theorem find_last_not_of_run (set a : List Char) (y : Char) (b : List Char)
    (hb : ∀ x ∈ b, x ∈ set) (hy : y ∉ set) :
    find_last_not_of (a ++ y :: b) set = a.length := by
  unfold find_last_not_of
  rw [rdropWhile_run (fun c => decide (c ∈ set)) a y b (by simpa using hb) (by simpa using hy)]
  cases h : a ++ [y] with
  | nil => simp at h
  | cons z zs =>
    have : (z :: zs).length = a.length + 1 := by rw [← h]; simp
    simp only []
    omega

theorem find_last_not_of_all (set s : List Char) (hs : ∀ x ∈ s, x ∈ set) :
    find_last_not_of s set = npos := by
  unfold find_last_not_of
  rw [rdropWhile_all (fun c => decide (c ∈ set)) s (by simpa using hs)]

theorem substr_mid (pre mid post : List Char) :
    substr (pre ++ mid ++ post) pre.length mid.length = some mid := by
  unfold substr
  have h : ¬ pre.length > (pre ++ mid ++ post).length := by
    simp only [List.length_append]; omega
  rw [if_neg h, List.append_assoc, List.drop_left' rfl, List.take_left' rfl]

theorem erase_left (a b : List Char) : erase (a ++ b) a.length = some a := by
  unfold erase
  have h : ¬ a.length > (a ++ b).length := by
    simp only [List.length_append]; omega
  rw [if_neg h, List.take_left' rfl]


theorem sizeAdd_small (a b : Nat) (h : a + b < 2 ^ 64) : sizeAdd a b = a + b := by
  unfold sizeAdd
  exact Nat.mod_eq_of_lt h

theorem sizeSub_small (a b : Nat) (hb : b ≤ a) (ha : a < 2 ^ 64) : sizeSub a b = a - b := by
  unfold sizeSub
  rw [Nat.mod_eq_of_lt (by omega : b < 2 ^ 64)]
  have : a + 2 ^ 64 - b = (a - b) + 2 ^ 64 := by omega
  rw [this, Nat.add_mod_right]
  exact Nat.mod_eq_of_lt (by omega)

theorem startsOutside_cons (set s : List Char) (h : startsOutside set s = true) :
    ∃ c cs, s = c :: cs ∧ c ∉ set := by
  cases s with
  | nil => simp [startsOutside] at h
  | cons c cs =>
    refine ⟨c, cs, rfl, ?_⟩
    simpa [startsOutside] using h

theorem endsOutside_concat (set s : List Char) (h : endsOutside set s = true) :
    ∃ init c, s = init ++ [c] ∧ c ∉ set := by
  unfold endsOutside at h
  split at h
  · cases h
  · next c hc =>
    refine ⟨s.dropLast, c, ?_, by simpa using h⟩
    have hne : s ≠ [] := by
      intro h0; rw [h0] at hc; simp at hc
    have := List.dropLast_append_getLast hne
    rw [List.getLast?_eq_getLast _ hne] at hc
    simp only [Option.some.injEq] at hc
    rw [← hc]
    exact this.symm

/-- The facts packed in `HeaderLine.wellFormed`. -/
theorem wellFormed_facts (l : HeaderLine) (d : Char) (hw : l.wellFormed d = true) :
    (∀ x ∈ l.lead, x ∈ blanks) ∧ (∀ x ∈ l.gap1, x ∈ blanksCRLF) ∧
    (∀ x ∈ l.gap2, x ∈ blanksCRLF) ∧ (∀ x ∈ l.trail, x ∈ blanksCRLF) ∧
    startsOutside blanks l.name = true ∧ endsOutside blanksCRLF l.name = true ∧
    (∀ x ∈ l.name, x ≠ d) ∧
    startsOutside blanksCRLF l.value = true ∧ endsOutside blanksCRLF l.value = true ∧
    (∀ x ∈ (l.text d).dropLast, x ≠ '\n') ∧ (∀ x ∈ l.text d, x ≠ Char.ofNat 0) ∧
    (l.text d).length ≤ 255 := by
  simp only [HeaderLine.wellFormed, Bool.and_eq_true, List.all_eq_true, decide_eq_true_eq] at hw
  obtain ⟨⟨⟨⟨⟨⟨⟨⟨⟨⟨⟨h1, h2⟩, h3⟩, h4⟩, h5⟩, h6⟩, h7⟩, h8⟩, h9⟩, h10⟩, h11⟩, h12⟩ := hw
  exact ⟨h1, h2, h3, h4, h5, h6, h7, h8, h9, h10, h11, h12⟩

theorem parseLine_wellFormed (h : Headers) (l : HeaderLine) (d : Char)
    (hd : d ∉ blanksCRLF) (hw : l.wellFormed d = true) :
    HttpResponse.parseLine h (l.text d) d = some (h.set l.name l.value) := by
  obtain ⟨hlead, hgap1, hgap2, htrail, hns, hne, hnd, hvs, hve, -, -, hlen⟩ :=
    wellFormed_facts l d hw
  obtain ⟨n0, nrest, hn0, hn0out⟩ := startsOutside_cons _ _ hns
  obtain ⟨ninit, nl, hnl, hnlout⟩ := endsOutside_concat _ _ hne
  obtain ⟨v0, vrest, hv0, hv0out⟩ := startsOutside_cons _ _ hvs
  obtain ⟨vinit, vl, hvl, hvlout⟩ := endsOutside_concat _ _ hve
  have hlen' : l.lead.length + l.name.length + l.gap1.length + 1 + l.gap2.length +
      l.value.length + l.trail.length + 1 ≤ 255 := by
    simp only [HeaderLine.text, List.length_append, List.length_singleton] at hlen
    omega
  have hbegin : find_first_not_of (l.text d) blanks 0 = l.lead.length := by
    have e : l.text d = [] ++ l.lead ++
        n0 :: (nrest ++ l.gap1 ++ [d] ++ l.gap2 ++ l.value ++ l.trail ++ ['\n']) := by
      simp [HeaderLine.text, hn0]
    rw [e]
    have := find_first_not_of_run blanks [] l.lead n0
      (nrest ++ l.gap1 ++ [d] ++ l.gap2 ++ l.value ++ l.trail ++ ['\n']) hlead hn0out
    simpa using this
  have hend : find (l.text d) d l.lead.length = l.lead.length + (l.name ++ l.gap1).length := by
    have e : l.text d = l.lead ++ (l.name ++ l.gap1) ++
        d :: (l.gap2 ++ l.value ++ l.trail ++ ['\n']) := by
      simp [HeaderLine.text]
    rw [e]
    apply find_run
    intro x hx
    rcases List.mem_append.mp hx with hx | hx
    · exact hnd x hx
    · intro hxd
      rw [hxd] at hx
      exact hd (hgap1 d hx)
  have hkey0 : substr (l.text d) l.lead.length (l.name ++ l.gap1).length =
      some (l.name ++ l.gap1) := by
    have e : l.text d = l.lead ++ (l.name ++ l.gap1) ++
        ([d] ++ l.gap2 ++ l.value ++ l.trail ++ ['\n']) := by
      simp [HeaderLine.text]
    rw [e]
    exact substr_mid _ _ _
  have hlast : find_last_not_of (l.name ++ l.gap1) blanksCRLF = ninit.length := by
    have e : l.name ++ l.gap1 = ninit ++ nl :: l.gap1 := by simp [hnl]
    rw [e]
    exact find_last_not_of_run blanksCRLF ninit nl l.gap1 hgap1 hnlout
  have hnlen : l.name.length = ninit.length + 1 := by rw [hnl]; simp
  have herase : erase (l.name ++ l.gap1) (ninit.length + 1) = some l.name := by
    rw [← hnlen]
    exact erase_left _ _
  have hbegin2 : find_first_not_of (l.text d) blanksCRLF
      (l.lead.length + (l.name ++ l.gap1).length + 1) =
      l.lead.length + (l.name ++ l.gap1).length + 1 + l.gap2.length := by
    have e : l.text d = (l.lead ++ l.name ++ l.gap1 ++ [d]) ++ l.gap2 ++
        v0 :: (vrest ++ l.trail ++ ['\n']) := by
      simp [HeaderLine.text, hv0]
    have hl : l.lead.length + (l.name ++ l.gap1).length + 1 =
        (l.lead ++ l.name ++ l.gap1 ++ [d]).length := by
      simp only [List.length_append, List.length_singleton]; omega
    rw [e, hl]
    exact find_first_not_of_run blanksCRLF _ l.gap2 v0 _ hgap2 hv0out
  have hlast2 : find_last_not_of (l.text d) blanksCRLF =
      l.lead.length + (l.name ++ l.gap1).length + 1 + l.gap2.length + vinit.length := by
    have e : l.text d = (l.lead ++ l.name ++ l.gap1 ++ [d] ++ l.gap2 ++ vinit) ++
        vl :: (l.trail ++ ['\n']) := by
      simp [HeaderLine.text, hvl]
    rw [e, find_last_not_of_run blanksCRLF _ vl (l.trail ++ ['\n']) _ hvlout]
    · simp only [List.length_append, List.length_singleton]; omega
    · intro x hx
      rcases List.mem_append.mp hx with hx | hx
      · exact htrail x hx
      · rw [List.mem_singleton.mp hx]; decide
  have hvlen : l.value.length = vinit.length + 1 := by rw [hvl]; simp
  have hval : substr (l.text d) (l.lead.length + (l.name ++ l.gap1).length + 1 + l.gap2.length)
      l.value.length = some l.value := by
    have e : l.text d = (l.lead ++ l.name ++ l.gap1 ++ [d] ++ l.gap2) ++ l.value ++
        (l.trail ++ ['\n']) := by
      simp [HeaderLine.text]
    have hl : l.lead.length + (l.name ++ l.gap1).length + 1 + l.gap2.length =
        (l.lead ++ l.name ++ l.gap1 ++ [d] ++ l.gap2).length := by
      simp only [List.length_append, List.length_singleton]; omega
    rw [e, hl]
    exact substr_mid _ _ _
  have hng : (l.name ++ l.gap1).length = l.name.length + l.gap1.length := List.length_append _ _
  have hnpos : ¬ (l.lead.length = npos) := by
    unfold npos; omega
  have hnonempty : l.name.isEmpty = false := by rw [hn0]; rfl
  unfold HttpResponse.parseLine
  simp only [hbegin, if_neg hnpos, hend]
  rw [sizeSub_small _ _ (by omega) (by omega), Nat.add_sub_cancel_left, hkey0]
  simp only [hlast]
  rw [sizeAdd_small _ _ (by omega), herase]
  simp only [hnonempty, Bool.false_eq_true, if_false]
  rw [sizeAdd_small _ 1 (by omega), hbegin2, hlast2, sizeAdd_small _ 1 (by omega),
    sizeSub_small _ _ (by omega) (by omega)]
  have hsub : l.lead.length + (l.name ++ l.gap1).length + 1 + l.gap2.length + vinit.length + 1 -
      (l.lead.length + (l.name ++ l.gap1).length + 1 + l.gap2.length) = l.value.length := by
    omega
  rw [hsub, hval]


theorem parseLine_blank (h : Headers) (line : List Char) (d : Char) (hne : line ≠ [])
    (hall : ∀ c ∈ line, c = '\r' ∨ c = '\n') (hd : d ≠ '\r' ∧ d ≠ '\n')
    (hlen : line.length < 2 ^ 64) :
    HttpResponse.parseLine h line d = some h := by
  obtain ⟨c, cs, hc⟩ : ∃ c cs, line = c :: cs := by
    cases line with
    | nil => exact absurd rfl hne
    | cons c cs => exact ⟨c, cs, rfl⟩
  have hcout : c ∉ blanks := by
    rcases hall c (by rw [hc]; exact List.mem_cons_self _ _) with h' | h' <;> rw [h'] <;> decide
  have hbegin : find_first_not_of line blanks 0 = 0 := by
    have := find_first_not_of_run blanks [] [] c cs (by intro x hx; cases hx) hcout
    rw [hc]
    simpa using this
  have hend : find line d 0 = npos := by
    apply find_absent
    intro x hx hxd
    rcases hall x hx with h' | h'
    · exact hd.1 (by rw [← hxd, h'])
    · exact hd.2 (by rw [← hxd, h'])
  have hsub : substr line 0 npos = some line := by
    unfold substr
    rw [if_neg (by omega), List.drop_zero, List.take_of_length_le (by unfold npos; omega)]
  have hlast : find_last_not_of line blanksCRLF = npos := by
    apply find_last_not_of_all
    intro x hx
    rcases hall x hx with h' | h' <;> rw [h'] <;> decide
  have h0 : ¬ ((0 : Nat) = npos) := by unfold npos; omega
  have hss : sizeSub npos 0 = npos := by
    rw [sizeSub_small _ _ (by omega) (by unfold npos; omega)]; rfl
  have hsa : sizeAdd npos 1 = 0 := by decide
  have her : erase line 0 = some [] := by
    unfold erase
    rw [if_neg (by omega), List.take_zero]
  unfold HttpResponse.parseLine
  simp only [hbegin, if_neg h0, hend, hss, hsub, hlast, hsa, her, List.isEmpty_nil, if_true]

theorem read_one {α : Type} (sock : Sock α) (c : α) (rest : List α)
    (h : sock.bytes = c :: rest) :
    ∃ sock', sock.read 1 = (.data [c], sock') ∧ sock'.bytes = rest ∧ sock'.size < sock.size := by
  cases sock with
  | nil => simp [Sock.bytes] at h
  | cons ev evs =>
    cases ev with
    | error => simp [Sock.bytes] at h
    | data l =>
      cases l with
      | nil => simp [Sock.bytes] at h
      | cons b l =>
        simp only [Sock.bytes, List.cons_append, List.cons.injEq] at h
        obtain ⟨hb, hrest⟩ := h
        subst hb
        cases l with
        | nil =>
          refine ⟨evs, ?_, by simpa using hrest, ?_⟩
          · simp [Sock.read]
          · simp only [Sock.size, List.length_singleton]; omega
        | cons b' l' =>
          refine ⟨.data (b' :: l') :: evs, ?_, ?_, ?_⟩
          · simp [Sock.read]
          · simpa [Sock.bytes] using hrest
          · simp only [Sock.size, List.length_cons]; omega

theorem cString_eq_self (line : List Char) (h : ∀ c ∈ line, c ≠ Char.ofNat 0) :
    cString line = line := by
  unfold cString
  exact (takeWhile_all _ line (by simpa using h)).1

theorem parseLoop_char (fuel : Nat) (sock : Sock Char) (line : List Char) (nlc : Nat)
    (fl : Bool) (h : Headers) (c : Char) (rest : List Char)
    (hb : sock.bytes = c :: rest) (hc : c ≠ '\n') (hlen : line.length ≤ 254)
    (hfuel : sock.size < fuel) :
    ∃ sock' fuel', sock'.bytes = rest ∧ sock'.size < fuel' ∧
      HttpResponse.parseLoop fuel sock line nlc fl h =
        HttpResponse.parseLoop fuel' sock' (line ++ [c]) (if c ≠ '\r' then 0 else nlc) fl h := by
  obtain ⟨sock', hread, hbytes, hsize⟩ := read_one sock c rest hb
  cases fuel with
  | zero => omega
  | succ fuel =>
    refine ⟨sock', fuel, hbytes, by omega, ?_⟩
    rw [HttpResponse.parseLoop, hread]
    simp only []
    rw [if_neg (by omega), if_neg hc]

theorem parseLoop_chars (cs : List Char) :
    ∀ (fuel : Nat) (sock : Sock Char) (line : List Char) (nlc : Nat) (fl : Bool) (h : Headers)
      (rest : List Char), sock.bytes = cs ++ rest → (∀ c ∈ cs, c ≠ '\n') →
      line.length + cs.length ≤ 255 → sock.size < fuel →
      ∃ sock' fuel', sock'.bytes = rest ∧ sock'.size < fuel' ∧
        HttpResponse.parseLoop fuel sock line nlc fl h =
          HttpResponse.parseLoop fuel' sock' (line ++ cs)
            (cs.foldl (fun n c => if c ≠ '\r' then 0 else n) nlc) fl h := by
  induction cs with
  | nil =>
    intro fuel sock line nlc fl h rest hb _ _ hfuel
    exact ⟨sock, fuel, by simpa using hb, hfuel, by simp⟩
  | cons c cs ih =>
    intro fuel sock line nlc fl h rest hb hnl hlen hfuel
    simp only [List.length_cons] at hlen
    obtain ⟨sock1, fuel1, hb1, hf1, e1⟩ := parseLoop_char fuel sock line nlc fl h c (cs ++ rest)
      (by simpa using hb) (hnl c (List.mem_cons_self _ _)) (by omega) hfuel
    obtain ⟨sock2, fuel2, hb2, hf2, e2⟩ := ih fuel1 sock1 (line ++ [c])
      (if c ≠ '\r' then 0 else nlc) fl h rest hb1
      (fun x hx => hnl x (List.mem_cons_of_mem _ hx))
      (by simp only [List.length_append, List.length_singleton]; omega) hf1
    refine ⟨sock2, fuel2, hb2, hf2, ?_⟩
    rw [e1, e2]
    simp [List.foldl]

theorem parseLoop_newline (fuel : Nat) (sock : Sock Char) (line : List Char) (nlc : Nat)
    (fl : Bool) (h : Headers) (rest : List Char)
    (hb : sock.bytes = '\n' :: rest) (hlen : line.length ≤ 254)
    (hnul : ∀ c ∈ line, c ≠ Char.ofNat 0) (hfuel : sock.size < fuel) :
    ∃ sock' fuel', sock'.bytes = rest ∧ sock'.size < fuel' ∧
      HttpResponse.parseLoop fuel sock line nlc fl h =
        match HttpResponse.parseLine h (line ++ ['\n']) (if fl then '/' else ':') with
        | none => .threw
        | some h' =>
          if nlc + 1 > 1 then .returned true h' "" sock'
          else HttpResponse.parseLoop fuel' sock' [] (nlc + 1) false h' := by
  obtain ⟨sock', hread, hbytes, hsize⟩ := read_one sock '\n' rest hb
  cases fuel with
  | zero => omega
  | succ fuel =>
    refine ⟨sock', fuel, hbytes, by omega, ?_⟩
    have hcs : cString (line ++ ['\n']) = line ++ ['\n'] := by
      apply cString_eq_self
      intro c hc
      rcases List.mem_append.mp hc with hc | hc
      · exact hnul c hc
      · rw [List.mem_singleton.mp hc]; decide
    rw [HttpResponse.parseLoop, hread]
    simp only []
    rw [if_neg (by omega), if_pos trivial,
      if_neg (by simp only [List.length_append, List.length_singleton]; omega), hcs]

theorem foldl_reset (cs : List Char) (n : Nat) :
    cs.foldl (fun n c => if c ≠ '\r' then 0 else n) n =
      if cs.all (fun c => decide (c = '\r')) then n else 0 := by
  induction cs generalizing n with
  | nil => simp
  | cons c cs ih =>
    rw [List.foldl_cons, ih]
    by_cases hc : c = '\r'
    · simp [hc]
    · simp [hc]


theorem parseLoop_line (l : HeaderLine) (fl : Bool)
    (hw : l.wellFormed (if fl then '/' else ':') = true)
    (fuel : Nat) (sock : Sock Char) (nlc : Nat) (h : Headers) (rest : List Char)
    (hb : sock.bytes = l.text (if fl then '/' else ':') ++ rest) (hfuel : sock.size < fuel) :
    ∃ sock' fuel', sock'.bytes = rest ∧ sock'.size < fuel' ∧
      HttpResponse.parseLoop fuel sock [] nlc fl h =
        HttpResponse.parseLoop fuel' sock' [] 1 false (h.set l.name l.value) := by
  have hd : (if fl then '/' else ':') ∉ blanksCRLF := by cases fl <;> decide
  generalize hdd : (if fl = true then '/' else ':') = d at hw hb hd
  obtain ⟨-, -, -, -, -, hne, -, -, -, hnl, hnul, hlen⟩ := wellFormed_facts l d hw
  obtain ⟨ninit, nl, hnlast, hnlout⟩ := endsOutside_concat _ _ hne
  have hX : (l.text d).dropLast =
      l.lead ++ l.name ++ l.gap1 ++ [d] ++ l.gap2 ++ l.value ++ l.trail := by
    unfold HeaderLine.text
    exact List.dropLast_concat
  have htext : l.text d = (l.text d).dropLast ++ ['\n'] := by
    rw [hX]; rfl
  have hblen : (l.text d).dropLast.length + 1 = (l.text d).length := by
    conv => rhs; rw [htext]
    simp
  obtain ⟨sock1, fuel1, hb1, hf1, e1⟩ := parseLoop_chars (l.text d).dropLast fuel sock [] nlc fl h
    ('\n' :: rest) (by rw [hb]; conv => lhs; rw [htext]
                       simp) hnl (by simp only [List.length_nil]; omega) hfuel
  have hreset : (l.text d).dropLast.foldl (fun n c => if c ≠ '\r' then 0 else n) nlc = 0 := by
    rw [foldl_reset]
    have : (l.text d).dropLast.all (fun c => decide (c = '\r')) = false := by
      rw [List.all_eq_false]
      refine ⟨nl, ?_, ?_⟩
      · rw [hX, hnlast]; simp
      · have : nl ≠ '\r' := by
          intro h'; apply hnlout; rw [h']; decide
        simpa using this
    rw [this]
    rfl
  obtain ⟨sock2, fuel2, hb2, hf2, e2⟩ := parseLoop_newline fuel1 sock1 ([] ++ (l.text d).dropLast)
    0 fl h rest hb1 (by simp only [List.nil_append]; omega)
    (by intro c hc
        apply hnul c
        rw [htext]
        exact List.mem_append_left _ (by simpa using hc)) hf1
  refine ⟨sock2, fuel2, hb2, hf2, ?_⟩
  rw [e1, hreset, e2, List.nil_append, ← htext, hdd, parseLine_wellFormed h l d hd hw]
  rfl

theorem parseLoop_fields (fields : List HeaderLine) :
    ∀ (fuel : Nat) (sock : Sock Char) (h : Headers) (rest : List Char),
      (∀ f ∈ fields, f.wellFormed ':' = true) →
      sock.bytes = (fields.map (fun f => f.text ':')).flatten ++ rest → sock.size < fuel →
      ∃ sock' fuel', sock'.bytes = rest ∧ sock'.size < fuel' ∧
        HttpResponse.parseLoop fuel sock [] 1 false h =
          HttpResponse.parseLoop fuel' sock' [] 1 false
            (fields.foldl (fun h f => h.set f.name f.value) h) := by
  induction fields with
  | nil =>
    intro fuel sock h rest _ hb hfuel
    exact ⟨sock, fuel, by simpa using hb, hfuel, rfl⟩
  | cons f fs ih =>
    intro fuel sock h rest hw hb hfuel
    obtain ⟨sock1, fuel1, hb1, hf1, e1⟩ := parseLoop_line f false
      (hw f (List.mem_cons_self _ _)) fuel sock 1 h
      ((fs.map (fun f => f.text ':')).flatten ++ rest) (by simpa using hb) hfuel
    obtain ⟨sock2, fuel2, hb2, hf2, e2⟩ := ih fuel1 sock1 (h.set f.name f.value) rest
      (fun g hg => hw g (List.mem_cons_of_mem _ hg)) hb1 hf1
    exact ⟨sock2, fuel2, hb2, hf2, by rw [e1, e2]; rfl⟩

theorem parseLoop_closing (crs : Nat) (hcrs : crs ≤ 254) (fuel : Nat) (sock : Sock Char)
    (h : Headers) (rest : List Char)
    (hb : sock.bytes = List.replicate crs '\r' ++ ['\n'] ++ rest) (hfuel : sock.size < fuel) :
    ∃ sock', sock'.bytes = rest ∧
      HttpResponse.parseLoop fuel sock [] 1 false h = .returned true h "" sock' := by
  have hcr : ∀ c ∈ List.replicate crs '\r', c = '\r' := fun c hc => (List.mem_replicate.mp hc).2
  obtain ⟨sock1, fuel1, hb1, hf1, e1⟩ := parseLoop_chars (List.replicate crs '\r') fuel sock []
    1 false h ('\n' :: rest) (by simpa using hb)
    (by intro c hc; rw [hcr c hc]; decide)
    (by simp only [List.length_nil, List.length_replicate]; omega) hfuel
  have hkeep : (List.replicate crs '\r').foldl (fun n c => if c ≠ '\r' then 0 else n) 1 = 1 := by
    rw [foldl_reset]
    have : (List.replicate crs '\r').all (fun c => decide (c = '\r')) = true := by
      rw [List.all_eq_true]
      intro c hc
      simpa using hcr c hc
    rw [this]
    rfl
  obtain ⟨sock2, fuel2, hb2, hf2, e2⟩ := parseLoop_newline fuel1 sock1
    ([] ++ List.replicate crs '\r') 1 false h rest hb1
    (by simp only [List.nil_append, List.length_replicate]; omega)
    (by intro c hc
        rw [hcr c (by simpa using hc)]; decide) hf1
  refine ⟨sock2, hb2, ?_⟩
  rw [e1, hkeep, e2, List.nil_append]
  simp only [Bool.false_eq_true, if_false]
  rw [parseLine_blank h (List.replicate crs '\r' ++ ['\n']) ':' (by simp)
      (by intro c hc
          rcases List.mem_append.mp hc with hc | hc
          · exact Or.inl (hcr c hc)
          · exact Or.inr (List.mem_singleton.mp hc))
      (by decide)
      (by simp only [List.length_append, List.length_replicate, List.length_singleton]; omega)]
  rfl

/-- C9 (counterexample): in the head `HTTP/1.0 200 OK`, `<CR>A: b`, blank line, the
second line split on its first `:` with both sides trimmed of CR would store `b` under
`A`; the code stores it under `<CR>A` and nothing under `A`. -/
theorem parseResponse_keeps_leading_CR :
    (HttpResponse.construct [.data "HTTP/1.0 200 OK\r\n\rA: b\r\n\r\n".toList] false []).map
      (fun p => (p.1.isAvailable, p.1.getHeader "A".toList, p.1.getHeader "\rA".toList))
      = some (true, [], "b".toList) := by
  decide

/-- C9 (amended): for every response head whose status line and header lines have the
shape `lead name gap delimiter gap value trail LF` (delimiter `/` on the first line, `:`
on the others; `lead` made of SP, FF, HT, VT; the other gaps made of SP, FF, HT, VT, CR;
the name non-empty, free of the delimiter, not starting with SP, FF, HT, VT and not ending
with white space; the value non-empty, neither starting nor ending with white space; no
NUL; at most 255 characters per line) and which is closed by a line of at most 254
carriage returns and a line feed, however the bytes are cut into reads,
`parseResponse` stores every value under its name (the key `HTTP` for a status line),
marks the response available and leaves the body in the socket.  The name is trimmed of
leading SP, FF, HT, VT only.  The lines `HTTP/1.0 200 OK`, `TL-RESP-BYTEHASH: ABCD` and
a blank line give `HTTP -> 1.0 200 OK` and `TL-RESP-BYTEHASH -> ABCD`. -/
theorem parseResponse_wellFormed (status : HeaderLine) (fields : List HeaderLine) (crs : Nat)
    (body : List Char) (sock : Sock Char)
    (hs : status.wellFormed '/' = true) (hf : ∀ f ∈ fields, f.wellFormed ':' = true)
    (hcrs : crs ≤ 254) (hsock : sock.bytes = responseHead status fields crs ++ body) :
    (∃ sock', HttpResponse.parseResponse sock =
        .returned true (storeHeaders status fields) "" sock' ∧ sock'.bytes = body) ∧
    (HttpResponse.construct
        [.data "HTTP/1.0 200 OK\r\nTL-RESP-BYTEHASH: ABCD\r\n\r\n".toList] false []).map
      (fun p => (p.1.isAvailable, p.1.getHeader "HTTP".toList,
        p.1.getHeader "TL-RESP-BYTEHASH".toList))
      = some (true, "1.0 200 OK".toList, "ABCD".toList) := by
  refine ⟨?_, by decide⟩
  unfold HttpResponse.parseResponse
  obtain ⟨sock1, fuel1, hb1, hf1, e1⟩ := parseLoop_line status true hs (sock.size + 1) sock 0
    Headers.empty ((fields.map (fun f => f.text ':')).flatten ++
      (List.replicate crs '\r' ++ ['\n']) ++ body)
    (by rw [hsock]; simp [responseHead]) (by omega)
  obtain ⟨sock2, fuel2, hb2, hf2, e2⟩ := parseLoop_fields fields fuel1 sock1
    (Headers.empty.set status.name status.value)
    ((List.replicate crs '\r' ++ ['\n']) ++ body) hf (by rw [hb1]; simp) hf1
  obtain ⟨sock3, hb3, e3⟩ := parseLoop_closing crs hcrs fuel2 sock2
    (fields.foldl (fun h f => h.set f.name f.value) (Headers.empty.set status.name status.value))
    body hb2 hf2
  exact ⟨sock3, by rw [e1, e2, e3]; rfl, hb3⟩

/-- Witness for C9 (amended): the status line `HTTP/1.0 200 OK` and the header line
`TL-RESP-BYTEHASH: ABCD`, delivered in two reads that cut the first line, followed by the
body `xy`. -/
theorem parseResponse_wellFormed_witness :
    (∃ sock', HttpResponse.parseResponse
        [.data "HTTP/1.0 2".toList, .data "00 OK\r\nTL-RESP-BYTEHASH: ABCD\r\n\r\nxy".toList] =
        .returned true
          (storeHeaders ⟨[], "HTTP".toList, [], [], "1.0 200 OK".toList, "\r".toList⟩
            [⟨[], "TL-RESP-BYTEHASH".toList, [], " ".toList, "ABCD".toList, "\r".toList⟩])
          "" sock' ∧ sock'.bytes = "xy".toList) ∧
    storeHeaders ⟨[], "HTTP".toList, [], [], "1.0 200 OK".toList, "\r".toList⟩
        [⟨[], "TL-RESP-BYTEHASH".toList, [], " ".toList, "ABCD".toList, "\r".toList⟩]
        "TL-RESP-BYTEHASH".toList = "ABCD".toList :=
  ⟨(parseResponse_wellFormed
      ⟨[], "HTTP".toList, [], [], "1.0 200 OK".toList, "\r".toList⟩
      [⟨[], "TL-RESP-BYTEHASH".toList, [], " ".toList, "ABCD".toList, "\r".toList⟩] 1
      "xy".toList
      [.data "HTTP/1.0 2".toList, .data "00 OK\r\nTL-RESP-BYTEHASH: ABCD\r\n\r\nxy".toList]
      (by decide) (by decide) (by decide) (by decide)).1, by decide⟩


/-! ## Claims on the downloader exchange and its guard -/

/-- C13: one exchange of the downloader, as a function of the outcomes of connect, send,
header parse, status code and `readContent`, leaves the ingress queue unchanged when any
stage fails (a status code other than 200 included), and when all succeed makes it the
old queue followed by the `requestSize` bytes read, in order; no other result occurs, so
no partial block is appended. -/
theorem exchange_all_or_nothing (requestSize : Int) (o : ExchangeOutcomes)
    (deq1 : List Byte) :
    (exchange requestSize o deq1).1 =
      (if o.connectToHost = true ∧ o.sendGetRequest = true ∧ o.isResponseAvailable = true ∧
          o.retrieveResponseCode = 200 ∧ o.readContent = true
        then deq1 ++ o.rndBytes.take requestSize.toNat else deq1) ∧
    ((exchange requestSize o deq1).2 = false ↔
      (o.connectToHost = true ∧ o.sendGetRequest = true ∧ o.isResponseAvailable = true ∧
          o.retrieveResponseCode = 200 ∧ o.readContent = true)) := by
  unfold exchange
  cases h1 : o.connectToHost <;> cases h2 : o.sendGetRequest <;>
    cases h3 : o.isResponseAvailable <;> cases h5 : o.readContent <;>
    by_cases h4 : o.retrieveResponseCode = 200 <;>
    simp [h4, pushLoop_eq_append]

theorem tdiv_two_spec (m : Int) :
    (0 ≤ m ∧ Int.tdiv m 2 = m / 2) ∨ (m < 0 ∧ Int.tdiv m 2 ≤ 0) := by
  by_cases h : 0 ≤ m
  · exact Or.inl ⟨h, Int.tdiv_eq_ediv h (by omega)⟩
  · right
    refine ⟨by omega, ?_⟩
    cases m with
    | ofNat k => exact absurd (Int.ofNat_nonneg k) h
    | negSucc k =>
      show -((((k + 1) / 2 : Nat) : Int)) ≤ 0
      omega

theorem threadRun_log (cfg : EpfConfig) (steps : List ThreadStep) :
    ∀ (s : Pipeline), ∀ n ∈ (s.threadRun cfg steps).2,
      (n : Int) < Int.tdiv cfg.maxDeqSizeBytes 2 := by
  induction steps with
  | nil => intro s n hn; simp [Pipeline.threadRun] at hn
  | cons a as ih =>
    intro s n hn
    simp only [Pipeline.threadRun, List.mem_append] at hn
    rcases hn with hn | hn
    · cases a with
      | download o =>
        simp only [Pipeline.threadStep, downloadStep] at hn
        by_cases hg : (s.deq1.length : Int) < Int.tdiv cfg.maxDeqSizeBytes 2
        · simp only [if_pos hg, if_true, List.mem_singleton] at hn
          rw [hn]; exact hg
        · simp [if_neg hg] at hn
      | migrate => simp [Pipeline.threadStep] at hn
      | feed e => simp [Pipeline.threadStep] at hn
    · exact ih _ n hn

/-- C14: in every round of the downloader loop an exchange is started exactly when
`|ingress| < max_queue_bytes / 2` (C integer division) holds at that moment, and in every
run of the two threads every exchange was started at an ingress size `n` with
`n < max_queue_bytes / 2`, hence with `2 n < max_queue_bytes`: no request is issued while
`|ingress| >= max_queue_bytes / 2`. -/
theorem download_guard (cfg : EpfConfig) (o : ExchangeOutcomes) (s : Pipeline)
    (steps : List ThreadStep) :
    ((downloadStep cfg.maxDeqSizeBytes cfg.requestSize o s.deq1).2 = true ↔
      (s.deq1.length : Int) < Int.tdiv cfg.maxDeqSizeBytes 2) ∧
    (∀ n ∈ (s.threadRun cfg steps).2,
      (n : Int) < Int.tdiv cfg.maxDeqSizeBytes 2 ∧ 2 * (n : Int) < cfg.maxDeqSizeBytes) := by
  constructor
  · unfold downloadStep
    split <;> simp [*]
  · intro n hn
    have h := threadRun_log cfg steps s n hn
    refine ⟨h, ?_⟩
    rcases tdiv_two_spec cfg.maxDeqSizeBytes with ⟨h0, he⟩ | ⟨h0, he⟩
    · rw [he] at h
      omega
    · omega


/-! ## Claims on the feeder round -/

theorem int_shiftRight_three (e : Int) : e >>> 3 = e / 8 := by
  cases e with
  | ofNat m =>
    have h := Int.shiftRight_coe_nat m 3
    simp only [Nat.cast_ofNat] at h
    show (m : Int) >>> 3 = (m : Int) / 8
    rw [h, Nat.shiftRight_eq_div_pow]
    norm_num
  | negSucc m =>
    have h := Int.shiftRight_negSucc m 3
    simp only [Nat.cast_ofNat] at h
    rw [h, Nat.shiftRight_eq_div_pow]
    rfl

theorem int_shiftLeft_three (e : Int) : e <<< 3 = e * 8 := by
  have := Int.shiftLeft_eq_mul_pow e 3
  simpa using this

theorem pool_watermark (pool : Int) : Int.tdiv (pool * 8) 2 = pool * 4 := by
  have : pool * 8 = pool * 4 * 2 := by ring
  rw [this, Int.mul_tdiv_cancel _ (by decide)]

theorem fillLoop_eq (n : Nat) (deq2 : List Byte) :
    fillLoop n deq2 = (deq2.take n, deq2.drop n) := by
  induction deq2 generalizing n with
  | nil => cases n <;> simp [fillLoop]
  | cons x xs ih =>
    cases n with
    | zero => simp [fillLoop]
    | succ n => simp [fillLoop, ih]

/-- The value of `feedStep` when its guard holds. -/
theorem feedStep_inject (pool e : Int) (deq2 : List Byte)
    (h : e < pool * 4 ∧ deq2 ≠ []) :
    feedStep pool e deq2 =
      (some { entropy_count := e + min (pool - e / 8) (deq2.length : Int) * 8,
              buf_size := min (pool - e / 8) (deq2.length : Int),
              data := deq2.take (min (pool - e / 8) (deq2.length : Int)).toNat },
       deq2.drop (min (pool - e / 8) (deq2.length : Int)).toNat) := by
  have hg : e < Int.tdiv (pool * 8) 2 ∧ deq2.length > 0 := by
    rw [pool_watermark]
    exact ⟨h.1, List.length_pos.mpr h.2⟩
  have hmin : (if pool - e / 8 > (deq2.length : Int) then (deq2.length : Int) else pool - e / 8)
      = min (pool - e / 8) (deq2.length : Int) := by
    rw [Int.min_def]
    split <;> split <;> omega
  unfold feedStep
  rw [if_pos hg]
  simp only [int_shiftRight_three, int_shiftLeft_three, hmin, fillLoop_eq]

/-- The value of `feedStep` when its guard fails. -/
theorem feedStep_skip (pool e : Int) (deq2 : List Byte)
    (h : ¬ (e < pool * 4 ∧ deq2 ≠ [])) : feedStep pool e deq2 = (none, deq2) := by
  have hg : ¬ (e < Int.tdiv (pool * 8) 2 ∧ deq2.length > 0) := by
    rw [pool_watermark]
    intro hg
    exact h ⟨hg.1, List.length_pos.mp hg.2⟩
  unfold feedStep
  rw [if_neg hg]

/-- C15: in every round of the feeder loop a record is submitted through `RNDADDENTROPY`
exactly when the queried entropy bit count is below `pool_bytes * 4` and egress is not
empty; nothing is injected while egress is empty or the entropy count is at least
`pool_bytes * 4`, and egress is then left as it is. -/
theorem feed_guard (entropyPoolSizeBytes entropyAvailable : Int) (deq2 : List Byte) :
    ((feedStep entropyPoolSizeBytes entropyAvailable deq2).1.isSome = true ↔
      (entropyAvailable < entropyPoolSizeBytes * 4 ∧ deq2 ≠ [])) ∧
    ((deq2 = [] ∨ entropyAvailable ≥ entropyPoolSizeBytes * 4) →
      feedStep entropyPoolSizeBytes entropyAvailable deq2 = (none, deq2)) := by
  constructor
  · by_cases h : entropyAvailable < entropyPoolSizeBytes * 4 ∧ deq2 ≠ []
    · rw [feedStep_inject _ _ _ h]
      simp [h]
    · rw [feedStep_skip _ _ _ h]
      simp [h]
  · intro h
    apply feedStep_skip
    intro hg
    rcases h with h | h
    · exact hg.2 h
    · omega

/-- C16: whenever the feeder injects, with `want = min (pool_bytes - floor (entropy_bits / 8))
|egress|`, the record's `buf_size` is `want`, its data are the first `want` bytes of egress
in order, and egress afterwards is the old egress without those `want` front bytes. -/
theorem feed_record (entropyPoolSizeBytes entropyAvailable : Int) (deq2 deq2' : List Byte)
    (r : EntropyRecord)
    (h : feedStep entropyPoolSizeBytes entropyAvailable deq2 = (some r, deq2')) :
    r.buf_size = min (entropyPoolSizeBytes - entropyAvailable / 8) (deq2.length : Int) ∧
    r.data = deq2.take
      (min (entropyPoolSizeBytes - entropyAvailable / 8) (deq2.length : Int)).toNat ∧
    deq2' = deq2.drop
      (min (entropyPoolSizeBytes - entropyAvailable / 8) (deq2.length : Int)).toNat ∧
    deq2 = r.data ++ deq2' := by
  by_cases hg : entropyAvailable < entropyPoolSizeBytes * 4 ∧ deq2 ≠ []
  · rw [feedStep_inject _ _ _ hg] at h
    simp only [Prod.mk.injEq, Option.some.injEq] at h
    obtain ⟨hr, hd⟩ := h
    subst hr
    subst hd
    exact ⟨rfl, rfl, rfl, (List.take_append_drop _ _).symm⟩
  · rw [feedStep_skip _ _ _ hg] at h
    simp at h

/-- Witness for C16: a pool of 512 bytes, 100 bits of entropy in the kernel and five bytes
in egress: all five are injected. -/
theorem feed_record_witness :
    feedStep 512 100 [1, 2, 3, 4, 5] = (some ⟨140, 5, [1, 2, 3, 4, 5]⟩, []) ∧
    (5 : Int) = min (512 - 100 / 8) (([1, 2, 3, 4, 5] : List Byte).length : Int) :=
  ⟨by decide, (feed_record 512 100 [1, 2, 3, 4, 5] [] ⟨140, 5, [1, 2, 3, 4, 5]⟩ (by decide)).1⟩

/-- C17 (counterexample): with a pool of 512 bytes, 100 bits of entropy in the kernel and
five bytes in egress, the five bytes are injected (`want = 5`) and the record's
`entropy_count` is 140, not `5 * 8 = 40`. -/
theorem feed_entropy_count_includes_pool :
    (feedStep 512 100 [1, 2, 3, 4, 5]).1.map (fun r => (r.buf_size, r.entropy_count))
      = some (5, 140) ∧ (140 : Int) ≠ 5 * 8 := by
  decide

/-- C17 (amended): for every injection performed by the feeder, the `entropy_count` of the
submitted record is the queried kernel entropy bit count plus `want * 8`, where `want` is
the number of bytes injected (`buf_size`); `want * 8` bits is what the injection adds to
the count the kernel reported. -/
theorem feed_entropy_count (entropyPoolSizeBytes entropyAvailable : Int)
    (deq2 deq2' : List Byte) (r : EntropyRecord)
    (h : feedStep entropyPoolSizeBytes entropyAvailable deq2 = (some r, deq2')) :
    r.entropy_count = entropyAvailable + r.buf_size * 8 ∧
    r.entropy_count - entropyAvailable = r.buf_size * 8 := by
  by_cases hg : entropyAvailable < entropyPoolSizeBytes * 4 ∧ deq2 ≠ []
  · rw [feedStep_inject _ _ _ hg] at h
    simp only [Prod.mk.injEq, Option.some.injEq] at h
    obtain ⟨hr, -⟩ := h
    subst hr
    constructor
    · rfl
    · simp
  · rw [feedStep_skip _ _ _ hg] at h
    simp at h

/-- Witness for C17 (amended) at the input of the counterexample. -/
theorem feed_entropy_count_witness :
    feedStep 512 100 [1, 2, 3, 4, 5] = (some ⟨140, 5, [1, 2, 3, 4, 5]⟩, []) ∧
    (140 : Int) = 100 + 5 * 8 :=
  ⟨by decide, (feed_entropy_count 512 100 [1, 2, 3, 4, 5] [] ⟨140, 5, [1, 2, 3, 4, 5]⟩
    (by decide)).1⟩


/-! ## Claims on the queue sizes and the request size -/

/-- C18 (divergence): with `max_queue_bytes = 10` and `request_bytes = 20`, one successful
exchange from the empty start state leaves 20 bytes in ingress, above the watermark of 10:
the downloader only tests `deq1.size() < maxDeqSizeBytes / 2` before an exchange and then
appends the whole block. -/
theorem ingress_exceeds_watermark :
    (Pipeline.init.threadRun ⟨10, 512, 20⟩
      [.download (ExchangeOutcomes.success (List.replicate 20 0))]).1.deq1.length = 20 ∧
    ¬ ((20 : Int) ≤ 10) := by
  decide

theorem exchange_parts (requestSize : Int) (o : ExchangeOutcomes) (deq1 : List Byte) :
    (exchange requestSize o deq1).1 = deq1 ∨
    (exchange requestSize o deq1).1 = deq1 ++ o.rndBytes.take requestSize.toNat := by
  unfold exchange
  repeat' split
  all_goals first
    | exact Or.inl rfl
    | exact Or.inr (pushLoop_eq_append _ _)

theorem exchange_success (requestSize : Int) (bytes deq1 : List Byte) :
    (exchange requestSize (ExchangeOutcomes.success bytes) deq1).1 =
      deq1 ++ bytes.take requestSize.toNat := by
  simp [exchange, ExchangeOutcomes.success, pushLoop_eq_append]

theorem downloadSetup_within_limit (resource : List Char) (ds : List Nat) (hne : ds ≠ [])
    (hds : ∀ d ∈ ds, d < 10) (hle : Nat.ofDigits 10 ds.reverse ≤ 10000) :
    downloadSetup resource (ds.map digitChar) =
      (resource ++ ds.map digitChar, ((Nat.ofDigits 10 ds.reverse : Nat) : Int)) := by
  have h := atoi_digits ds [] hne hds (by simp) (by omega)
  rw [List.append_nil] at h
  unfold downloadSetup
  simp only [h, MAX_REQUEST_BYTES]
  rw [if_neg (by omega)]

/-- C19 (the code at the failing input): for the configured value `20000` the resource in
the request line gets the suffix `20000`, which names 20000 bytes, while the byte count
the downloader reads and appends is 10000; the request sent is
`GET /api/entropy/20000 HTTP/1.0`. -/
theorem request_suffix_not_clamped :
    downloadSetup "/api/entropy/".toList "20000".toList =
      ("/api/entropy/20000".toList, 10000) ∧
    atoi "20000".toList = 20000 ∧
    (HttpClient.sendGetRequest ⟨"h".toList, [], false, true⟩
      (downloadSetup "/api/entropy/".toList "20000".toList).1 ⟨noCryptor, []⟩
      (fun cmd => (cmd.length : Int))).2 =
      some "GET /api/entropy/20000 HTTP/1.0\r\nHost: h\r\n\r\n".toList ∧
    (exchange (downloadSetup "/api/entropy/".toList "20000".toList).2
      (ExchangeOutcomes.success (List.replicate 10000 7)) []).1.length = 10000 := by
  refine ⟨by decide, by decide, by decide, ?_⟩
  have h : (downloadSetup "/api/entropy/".toList "20000".toList).2 = 10000 := by decide
  rw [h]
  rw [exchange_success]
  simp only [List.nil_append, List.length_take, List.length_replicate]
  decide

/-! ## Claims on case in the hex decoder -/

theorem toLower_of_upper : ∀ k : Fin 26,
    (Char.ofNat (65 + k.val + 32)).toLower = Char.ofNat (65 + k.val + 32) := by
  decide

theorem toLower_toLower (c : Char) : c.toLower.toLower = c.toLower := by
  by_cases h : c.toNat ≥ 65 ∧ c.toNat ≤ 90
  · have h1 : c.toLower = Char.ofNat (c.toNat + 32) := by
      simp only [Char.toLower]
      rw [if_pos h]
    have h2 := toLower_of_upper ⟨c.toNat - 65, by omega⟩
    simp only [] at h2
    have h3 : 65 + (c.toNat - 65) + 32 = c.toNat + 32 := by omega
    rw [h3] at h2
    rw [h1, h2]
  · have h1 : c.toLower = c := by
      simp only [Char.toLower]
      rw [if_neg h]
    rw [h1, h1]

theorem toBinLoop_map_toLower (k : Nat) :
    ∀ (n : Nat) (s : List Char), s.length ≤ k →
      BinHexConverter.toBinLoop n (s.map Char.toLower) = BinHexConverter.toBinLoop n s := by
  induction k using Nat.strong_induction_on with
  | _ k ih =>
    intro n s hs
    cases n with
    | zero => simp only [BinHexConverter.toBinLoop]
    | succ n =>
      match s with
      | [] => rfl
      | [h] => rfl
      | h :: l :: rest =>
        simp only [List.length_cons] at hs
        have := ih (k - 2) (by omega) (n - 1) rest (by omega)
        simp only [List.map_cons, BinHexConverter.toBinLoop, toLower_toLower, this]

/-- C20 (counterexample): decoding `"0010FF"` does not fail; it gives the bytes
`00 10 FF`, like decoding `"0010ff"`. -/
theorem toBin_accepts_uppercase :
    BinHexConverter.toBin "0010FF".toList = some [0x00, 0x10, 0xFF] ∧
    BinHexConverter.toBin "0010ff".toList = some [0x00, 0x10, 0xFF] := by
  decide

/-- C20 (amended): `BinHexConverter::toBin` lowers every character before it decodes it,
so for every hex string decoding the string and decoding its lower-case form give the
same result, and uppercase digits `A`-`F` are accepted like `a`-`f`; in particular
`"0010FF"` and `"0010ff"` both decode to the bytes `00 10 FF`, and `"AbCdEf"` decodes to
`AB CD EF`. -/
theorem toBin_case_insensitive (s : List Char) :
    BinHexConverter.toBin (s.map Char.toLower) = BinHexConverter.toBin s ∧
    BinHexConverter.toBin "0010FF".toList = some [0x00, 0x10, 0xFF] ∧
    BinHexConverter.toBin "0010ff".toList = some [0x00, 0x10, 0xFF] ∧
    BinHexConverter.toBin "AbCdEf".toList = some [0xAB, 0xCD, 0xEF] := by
  refine ⟨?_, by decide, by decide, by decide⟩
  have hnul : s.map Char.toLower ++ [Char.ofNat 0] = (s ++ [Char.ofNat 0]).map Char.toLower := by
    rw [List.map_append]
    rfl
  unfold BinHexConverter.toBin BinHexConverter.toBinAt
  rw [List.length_map, hnul, toBinLoop_map_toLower _ _ _ (Nat.le_refl _)]


/-! ## Claims on the body read: plain streams and rejected fingerprints -/

theorem read_cases {α : Type} (sock : Sock α) (count : Nat) (hc : 1 ≤ count) :
    (sock.bytes = [] ∧ ((sock.read count).1 = .error ∨ (sock.read count).1 = .data [])) ∨
    (∃ b l, (sock.read count).1 = .data (b :: l) ∧ (b :: l).length ≤ count ∧
      sock.bytes = (b :: l) ++ (sock.read count).2.bytes) := by
  cases sock with
  | nil => left; simp [Sock.bytes, Sock.read]
  | cons ev evs =>
    cases ev with
    | error => left; simp [Sock.bytes, Sock.read]
    | data l =>
      cases l with
      | nil => left; simp [Sock.bytes, Sock.read]
      | cons b l =>
        right
        by_cases hle : (b :: l).length ≤ count
        · refine ⟨b, l, ?_, hle, ?_⟩
          · simp only [Sock.read, if_pos hle]
          · simp only [Sock.read, if_pos hle, Sock.bytes]
        · obtain ⟨c, hcount⟩ : ∃ c, count = c + 1 := ⟨count - 1, by omega⟩
          have hlen : c < l.length := by
            simp only [List.length_cons] at hle; omega
          obtain ⟨x, xs, hx⟩ : ∃ x xs, l.drop c = x :: xs := by
            cases h : l.drop c with
            | nil =>
              have := congrArg List.length h
              simp only [List.length_drop, List.length_nil] at this
              omega
            | cons x xs => exact ⟨x, xs, rfl⟩
          subst hcount
          refine ⟨b, l.take c, ?_, ?_, ?_⟩
          · simp only [Sock.read, if_neg hle, List.take_succ_cons]
          · simp only [List.length_cons, List.length_take]; omega
          · simp only [Sock.read, if_neg hle, List.drop_succ_cons, hx, Sock.bytes]
            rw [← hx]
            simp only [List.cons_append, List.append_assoc, List.cons.injEq, true_and]
            rw [← List.append_assoc, List.take_append_drop]

theorem store_take (buf : List Byte) (total : Nat) (l : List Byte) (h : total ≤ buf.length) :
    (store buf total l).take (l.length + total) = buf.take total ++ l := by
  unfold store
  have h1 : (buf.take total ++ l).length = l.length + total := by
    simp only [List.length_append, List.length_take]; omega
  rw [← h1, List.take_left']
  rfl

theorem readLoop_plain (lib : Sha256Lib) (r : HttpResponse)
    (hplain : r.isStreamEncrypted = false) (fuel : Nat) :
    ∀ (sock : Sock Byte) (buf : List Byte) (total : Nat),
      total ≤ buf.length → buf.length - total < fuel →
      ∃ res, HttpResponse.readLoop lib r fuel sock buf total = some res ∧
        (res.ok = true ↔ buf.length - total ≤ sock.bytes.length) ∧
        (res.ok = true →
          res.byteBuff = buf.take total ++ sock.bytes.take (buf.length - total) ∧
          res.sock.bytes = sock.bytes.drop (buf.length - total)) := by
  induction fuel with
  | zero => intro sock buf total _ h; omega
  | succ fuel ih =>
    intro sock buf total hle hfuel
    unfold HttpResponse.readLoop
    by_cases hlt : total < buf.length
    · rw [if_pos hlt]
      rcases read_cases sock (buf.length - total) (by omega) with ⟨hb, hev⟩ | ⟨b, l, hev, hl, hb⟩
      · rcases hread : sock.read (buf.length - total) with ⟨ev, sock'⟩
        rw [hread] at hev
        simp only [] at hev
        rcases hev with hev | hev
        · subst hev
          refine ⟨_, rfl, ?_, ?_⟩
          · rw [hb]; simp; omega
          · intro h; cases h
        · subst hev
          simp only []
          rw [if_pos (by omega)]
          refine ⟨_, rfl, ?_, ?_⟩
          · rw [hb]; simp; omega
          · intro h; cases h
      · rcases hread : sock.read (buf.length - total) with ⟨ev, sock'⟩
        rw [hread] at hev hb
        simp only [] at hev hb
        subst hev
        simp only [hplain, Bool.false_eq_true, if_false]
        have hst : (store buf total (b :: l)).length = buf.length :=
          store_length _ _ _ (by omega)
        have hl' : (b :: l).length + total ≤ buf.length := by omega
        have hfuel' : buf.length - ((b :: l).length + total) < fuel := by
          have : 1 ≤ (b :: l).length := by simp
          omega
        obtain ⟨res, hres, hiff, hbuf⟩ := ih sock' (store buf total (b :: l))
          ((b :: l).length + total) (by rw [hst]; exact hl') (by rw [hst]; exact hfuel')
        refine ⟨res, hres, ?_, ?_⟩
        · rw [hiff, hst, hb, List.length_append]
          omega
        · intro hok
          obtain ⟨h1, h2⟩ := hbuf hok
          rw [hst] at h1 h2
          constructor
          · rw [h1, store_take _ _ _ hle, hb, List.append_assoc]
            congr 1
            rw [List.take_append_eq_append_take, List.take_of_length_le hl]
            congr 2
            omega
          · rw [h2, hb, List.drop_append_eq_append_drop, List.drop_of_length_le hl,
              List.nil_append]
            congr 1
            omega
    · rw [if_neg hlt]
      refine ⟨_, rfl, ?_, ?_⟩
      · simp; omega
      · intro _
        have h0 : buf.length - total = 0 := by omega
        have ht : total = buf.length := by omega
        simp [h0, ht]

/-- C11: with `stream_encrypted = false` and an available response, for every `n >= 0`
(the length of the buffer region) and every sequence of read results,
`HttpResponse::readContent` returns, and it returns `true` if and only if the stream
delivers at least `n` bytes before an end of stream or a read error; on success the buffer
holds exactly the first `n` bytes of the stream and the stream has lost exactly those `n`
bytes; an end of stream before `n` bytes makes it return `false`. -/
theorem readContent_plain (lib : Sha256Lib) (r : HttpResponse) (sock : Sock Byte)
    (byteBuff : List Byte) (hav : r.isAvailable = true)
    (hplain : r.isStreamEncrypted = false) :
    ∃ res, r.readContent lib sock byteBuff = some res ∧
      (res.ok = true ↔ byteBuff.length ≤ sock.bytes.length) ∧
      (res.ok = true →
        res.byteBuff = sock.bytes.take byteBuff.length ∧
        res.sock.bytes = sock.bytes.drop byteBuff.length) := by
  unfold HttpResponse.readContent
  simp only [hav, Bool.not_true, Bool.false_eq_true, if_false]
  obtain ⟨res, hres, hiff, hbuf⟩ := readLoop_plain lib r hplain (byteBuff.length + 1) sock
    byteBuff 0 (by omega) (by omega)
  refine ⟨res, hres, by simpa using hiff, ?_⟩
  intro hok
  simpa using hbuf hok

/-- Witness for C11: four bytes asked from a stream that delivers `1 2`, then `3 4 5`,
then an error: the call succeeds with `1 2 3 4` and leaves `5` to be read. -/
theorem readContent_plain_witness :
    (HttpResponse.readContent paddingDigest ⟨Headers.empty, "", true, false, []⟩
      [.data [1, 2], .data [3, 4, 5], .error] [0, 0, 0, 0]).map
        (fun res => (res.ok, res.byteBuff, res.sock)) =
      some (true, [1, 2, 3, 4], [.data [5], .error]) ∧
    ∃ res, HttpResponse.readContent paddingDigest ⟨Headers.empty, "", true, false, []⟩
        [.data [1, 2], .data [3, 4, 5], .error] [0, 0, 0, 0] = some res ∧
      (res.ok = true ↔ ([0, 0, 0, 0] : List Byte).length ≤
        (Sock.bytes [ReadEvent.data [(1 : Byte), 2], .data [3, 4, 5], .error]).length) ∧
      (res.ok = true →
        res.byteBuff = (Sock.bytes [ReadEvent.data [(1 : Byte), 2], .data [3, 4, 5],
          .error]).take ([0, 0, 0, 0] : List Byte).length ∧
        res.sock.bytes = (Sock.bytes [ReadEvent.data [(1 : Byte), 2], .data [3, 4, 5],
          .error]).drop ([0, 0, 0, 0] : List Byte).length) :=
  ⟨by decide,
   readContent_plain paddingDigest ⟨Headers.empty, "", true, false, []⟩
     [.data [1, 2], .data [3, 4, 5], .error] [0, 0, 0, 0] rfl rfl⟩


/-- One round of the loop of `readContent` on an encrypted stream, when the read delivers
the non-empty chunk `b :: bs`. -/
theorem readLoop_round (lib : Sha256Lib) (r : HttpResponse)
    (henc : r.isStreamEncrypted = true) (fuel : Nat) (sock sock' : Sock Byte)
    (buf : List Byte) (total : Nat) (b : Byte) (bs : List Byte) (hlt : total < buf.length)
    (hread : sock.read (buf.length - total) = (.data (b :: bs), sock')) :
    HttpResponse.readLoop lib r (fuel + 1) sock buf total =
      if r.getHeader "TL-RESP-BYTEHASH".toList = [] then
        some ⟨false, (XorCryptor.crypt (store buf total (b :: bs)) r.cryptoKey).2,
          "Missing byte stream hash value", sock'⟩
      else if BinHexConverter.toHex
          (SHA256.hash lib (XorCryptor.crypt (store buf total (b :: bs)) r.cryptoKey).2) ≠
          some (r.getHeader "TL-RESP-BYTEHASH".toList) then
        some ⟨false, (XorCryptor.crypt (store buf total (b :: bs)) r.cryptoKey).2,
          "Byte stream hash values don't match", sock'⟩
      else
        HttpResponse.readLoop lib r fuel sock'
          (XorCryptor.crypt (store buf total (b :: bs)) r.cryptoKey).2
          ((b :: bs).length + total) := by
  rw [HttpResponse.readLoop, if_pos hlt, hread]
  simp only [henc, if_true, toHex_hash, HttpResponse.getHeader, List.length_eq_zero, ne_eq,
    Option.some.injEq]

/-- C12: with `stream_encrypted = true`, in every round of the loop of
`HttpResponse::readContent` in which the read delivered bytes, the call returns `false`
when the `TL-RESP-BYTEHASH` header is empty (absent) and when it differs from the
upper-case hex fingerprint computed over the buffer; a call that returns `true` has passed
both checks in the round it starts with and continues with the next round; and with an
empty header every call for `n >= 1` bytes returns `false`. -/
theorem readContent_rejects (lib : Sha256Lib) (r : HttpResponse)
    (henc : r.isStreamEncrypted = true) :
    (∀ (fuel : Nat) (sock sock' : Sock Byte) (buf : List Byte) (total : Nat) (b : Byte)
        (bs : List Byte), total < buf.length →
        sock.read (buf.length - total) = (.data (b :: bs), sock') →
        (r.getHeader "TL-RESP-BYTEHASH".toList = [] →
          HttpResponse.readLoop lib r (fuel + 1) sock buf total =
            some ⟨false, (XorCryptor.crypt (store buf total (b :: bs)) r.cryptoKey).2,
              "Missing byte stream hash value", sock'⟩) ∧
        (r.getHeader "TL-RESP-BYTEHASH".toList ≠ [] →
          BinHexConverter.toHex (SHA256.hash lib
              (XorCryptor.crypt (store buf total (b :: bs)) r.cryptoKey).2) ≠
            some (r.getHeader "TL-RESP-BYTEHASH".toList) →
          HttpResponse.readLoop lib r (fuel + 1) sock buf total =
            some ⟨false, (XorCryptor.crypt (store buf total (b :: bs)) r.cryptoKey).2,
              "Byte stream hash values don't match", sock'⟩)) ∧
    (∀ (fuel : Nat) (sock : Sock Byte) (buf : List Byte) (total : Nat) (res : ReadResult),
        total < buf.length →
        HttpResponse.readLoop lib r fuel sock buf total = some res → res.ok = true →
        ∃ b bs sock', sock.read (buf.length - total) = (.data (b :: bs), sock') ∧
          r.getHeader "TL-RESP-BYTEHASH".toList ≠ [] ∧
          BinHexConverter.toHex (SHA256.hash lib
              (XorCryptor.crypt (store buf total (b :: bs)) r.cryptoKey).2) =
            some (r.getHeader "TL-RESP-BYTEHASH".toList) ∧
          HttpResponse.readLoop lib r (fuel - 1) sock'
            (XorCryptor.crypt (store buf total (b :: bs)) r.cryptoKey).2
            ((b :: bs).length + total) = some res) ∧
    (∀ (sock : Sock Byte) (byteBuff : List Byte), 1 ≤ byteBuff.length →
        r.getHeader "TL-RESP-BYTEHASH".toList = [] →
        ∃ res, r.readContent lib sock byteBuff = some res ∧ res.ok = false) := by
  refine ⟨?_, ?_, ?_⟩
  · intro fuel sock sock' buf total b bs hlt hread
    rw [readLoop_round lib r henc fuel sock sock' buf total b bs hlt hread]
    constructor
    · intro h0
      rw [if_pos h0]
    · intro h0 hne
      rw [if_neg h0, if_pos hne]
  · intro fuel sock buf total res hlt hres hok
    cases fuel with
    | zero => simp [HttpResponse.readLoop] at hres
    | succ fuel =>
      rcases hread : sock.read (buf.length - total) with ⟨ev, sock'⟩
      cases ev with
      | error =>
        rw [HttpResponse.readLoop, if_pos hlt, hread] at hres
        simp only [Option.some.injEq] at hres
        rw [← hres] at hok; cases hok
      | data l =>
        cases l with
        | nil =>
          rw [HttpResponse.readLoop, if_pos hlt, hread] at hres
          simp only [] at hres
          rw [if_pos (by omega)] at hres
          simp only [Option.some.injEq] at hres
          rw [← hres] at hok; cases hok
        | cons b bs =>
          rw [readLoop_round lib r henc fuel sock sock' buf total b bs hlt hread] at hres
          refine ⟨b, bs, sock', rfl, ?_⟩
          by_cases h0 : r.getHeader "TL-RESP-BYTEHASH".toList = []
          · rw [if_pos h0] at hres
            simp only [Option.some.injEq] at hres
            rw [← hres] at hok; cases hok
          · rw [if_neg h0] at hres
            by_cases hne : BinHexConverter.toHex (SHA256.hash lib
                (XorCryptor.crypt (store buf total (b :: bs)) r.cryptoKey).2) ≠
                some (r.getHeader "TL-RESP-BYTEHASH".toList)
            · rw [if_pos hne] at hres
              simp only [Option.some.injEq] at hres
              rw [← hres] at hok; cases hok
            · rw [if_neg hne] at hres
              exact ⟨h0, not_not.mp hne, hres⟩
  · intro sock byteBuff hn h0
    unfold HttpResponse.readContent
    split
    · exact ⟨_, rfl, rfl⟩
    · rcases hread : sock.read (byteBuff.length - 0) with ⟨ev, sock'⟩
      cases ev with
      | error =>
        rw [HttpResponse.readLoop, if_pos (by omega), hread]
        exact ⟨_, rfl, rfl⟩
      | data l =>
        cases l with
        | nil =>
          rw [HttpResponse.readLoop, if_pos (by omega), hread]
          simp only []
          rw [if_pos (by omega)]
          exact ⟨_, rfl, rfl⟩
        | cons b bs =>
          rw [readLoop_round lib r henc _ sock sock' byteBuff 0 b bs (by omega) hread,
            if_pos h0]
          exact ⟨_, rfl, rfl⟩

/-- Witness for C12: an available, encrypted response without the `TL-RESP-BYTEHASH`
header; two bytes are asked and delivered, and the call returns `false`. -/
theorem readContent_rejects_witness :
    (HttpResponse.readContent paddingDigest
      ⟨Headers.empty, "", true, true, List.replicate 48 0x5A⟩ [.data [0x1B, 0x18]] [0, 0]).map
        (fun res => (res.ok, res.lastErrorMessage)) =
      some (false, "Missing byte stream hash value") ∧
    ∃ res, HttpResponse.readContent paddingDigest
        ⟨Headers.empty, "", true, true, List.replicate 48 0x5A⟩ [.data [0x1B, 0x18]] [0, 0]
        = some res ∧ res.ok = false :=
  ⟨by decide,
   (readContent_rejects paddingDigest ⟨Headers.empty, "", true, true, List.replicate 48 0x5A⟩
     rfl).2.2 [.data [0x1B, 0x18]] [0, 0] (by decide) rfl⟩

/-! ## Claims on the hex codec and the XOR guard -/

theorem hexDigitUpper_spec : ∀ n : Fin 16,
    BinHexConverter.hexDigitUpper n.val = upperHexDigits.getD n.val '0' ∧
    BinHexConverter.hexDigitUpper n.val ≠ Char.ofNat 0 := by
  decide

theorem toHexLoop_getElem (bs : List Byte) :
    ∀ (i : Nat) (hi : i < bs.length),
      (BinHexConverter.toHexLoop bs)[2 * i]? =
        some (BinHexConverter.hexDigitUpper ((bs.get ⟨i, hi⟩).toNat / 16)) ∧
      (BinHexConverter.toHexLoop bs)[2 * i + 1]? =
        some (BinHexConverter.hexDigitUpper ((bs.get ⟨i, hi⟩).toNat % 16)) := by
  induction bs with
  | nil => intro i hi; simp at hi
  | cons b bs ih =>
    intro i hi
    show (BinHexConverter.hexDigitUpper (b.toNat / 16) ::
        BinHexConverter.hexDigitUpper (b.toNat % 16) :: BinHexConverter.toHexLoop bs)[2 * i]? = _ ∧
      (BinHexConverter.hexDigitUpper (b.toNat / 16) ::
        BinHexConverter.hexDigitUpper (b.toNat % 16) :: BinHexConverter.toHexLoop bs)[2 * i + 1]? = _
    cases i with
    | zero => exact ⟨by simp, by simp⟩
    | succ i =>
      have h2 : 2 * (i + 1) = 2 * i + 1 + 1 := by omega
      rw [h2]
      simp only [List.getElem?_cons_succ, List.get_cons_succ]
      exact ih i (by simpa using hi)

theorem toHexLoop_mem (bs : List Byte) :
    ∀ c ∈ BinHexConverter.toHexLoop bs, ∃ n : Fin 16, c = BinHexConverter.hexDigitUpper n.val := by
  induction bs with
  | nil => intro c hc; simp [BinHexConverter.toHexLoop] at hc
  | cons b bs ih =>
    intro c hc
    have hb : b.toNat < 256 := UInt8.toNat_lt_size b
    simp only [BinHexConverter.toHexLoop, BinHexConverter.sprintf02X, List.cons_append,
      List.nil_append, List.mem_cons] at hc
    rcases hc with hc | hc | hc
    · exact ⟨⟨b.toNat / 16, by omega⟩, hc⟩
    · exact ⟨⟨b.toNat % 16, by omega⟩, hc⟩
    · exact ih c hc

/-- C21: for every non-empty input of `n` bytes `BinHexConverter::toHex` returns `true` and
writes exactly `2 n` characters before the terminating NUL (none of them is a NUL), and the
characters at `2 i` and `2 i + 1` are the upper-case hexadecimal digits of the high and of
the low nibble of byte `i`. -/
theorem toHex_digits (inputBytes : List Byte) (hne : inputBytes ≠ []) :
    ∃ outputHex, BinHexConverter.toHex inputBytes = some outputHex ∧
      outputHex.length = 2 * inputBytes.length ∧
      (∀ c ∈ outputHex, c ≠ Char.ofNat 0) ∧
      ∀ (i : Nat) (hi : i < inputBytes.length),
        outputHex[2 * i]? =
          some (upperHexDigits.getD ((inputBytes.get ⟨i, hi⟩).toNat / 16) '0') ∧
        outputHex[2 * i + 1]? =
          some (upperHexDigits.getD ((inputBytes.get ⟨i, hi⟩).toNat % 16) '0') := by
  have hlen : ¬ inputBytes.length ≤ 0 := by
    cases inputBytes with
    | nil => exact absurd rfl hne
    | cons b bs => simp
  refine ⟨BinHexConverter.toHexLoop inputBytes, ?_, toHexLoop_length _, ?_, ?_⟩
  · unfold BinHexConverter.toHex
    rw [if_neg hlen]
  · intro c hc
    obtain ⟨n, hn⟩ := toHexLoop_mem inputBytes c hc
    rw [hn]
    exact (hexDigitUpper_spec n).2
  · intro i hi
    have hb : (inputBytes.get ⟨i, hi⟩).toNat < 256 := UInt8.toNat_lt_size _
    obtain ⟨h1, h2⟩ := toHexLoop_getElem inputBytes i hi
    have e1 := (hexDigitUpper_spec ⟨(inputBytes.get ⟨i, hi⟩).toNat / 16, by omega⟩).1
    have e2 := (hexDigitUpper_spec ⟨(inputBytes.get ⟨i, hi⟩).toNat % 16, by omega⟩).1
    simp only [] at e1 e2
    rw [h1, h2, e1, e2]
    exact ⟨rfl, rfl⟩

theorem toHex_digits_witness :
    ∃ outputHex, BinHexConverter.toHex [0x00, 0x10, 0xFF] = some outputHex ∧
      outputHex.length = 2 * [(0x00 : Byte), 0x10, 0xFF].length ∧
      (∀ c ∈ outputHex, c ≠ Char.ofNat 0) ∧
      ∀ (i : Nat) (hi : i < [(0x00 : Byte), 0x10, 0xFF].length),
        outputHex[2 * i]? =
          some (upperHexDigits.getD (([(0x00 : Byte), 0x10, 0xFF].get ⟨i, hi⟩).toNat / 16) '0') ∧
        outputHex[2 * i + 1]? =
          some (upperHexDigits.getD (([(0x00 : Byte), 0x10, 0xFF].get ⟨i, hi⟩).toNat % 16) '0') :=
  toHex_digits [0x00, 0x10, 0xFF] (by decide)

/-- C24: `XorCryptor::crypt` returns `false` and leaves the buffer as it was whenever the
buffer has fewer than 2 bytes or the key has fewer than 1 byte. -/
theorem crypt_rejects_short (bytes cryptoKey : List Byte)
    (h : bytes.length < 2 ∨ cryptoKey.length < 1) :
    XorCryptor.crypt bytes cryptoKey = (false, bytes) := by
  unfold XorCryptor.crypt
  rw [if_pos (by omega)]

theorem crypt_rejects_short_witness :
    XorCryptor.crypt [0x41] [0x01, 0x02] = (false, [0x41]) ∧
    XorCryptor.crypt [0x41, 0x42] [] = (false, [0x41, 0x42]) :=
  ⟨crypt_rejects_short [0x41] [0x01, 0x02] (Or.inl (by decide)),
   crypt_rejects_short [0x41, 0x42] [] (Or.inr (by decide))⟩

theorem digitValue_lower : ∀ c ∈ lowerHexDigits,
    BinHexConverter.digitValue c.toLower = some (hexValue c) ∧ hexValue c < 16 := by
  decide

theorem toInt_toNat : ∀ a b : Fin 16,
    (UInt8.ofNat ((a.val <<< 4) ||| b.val)).toNat = 16 * a.val + b.val := by
  decide

theorem toInt_lower (h l : Char) (hh : h ∈ lowerHexDigits) (hl : l ∈ lowerHexDigits) :
    ∃ b, BinHexConverter.toInt h.toLower l.toLower = some b ∧
      b.toNat = 16 * hexValue h + hexValue l := by
  obtain ⟨e1, b1⟩ := digitValue_lower h hh
  obtain ⟨e2, b2⟩ := digitValue_lower l hl
  refine ⟨UInt8.ofNat ((hexValue h <<< 4) ||| hexValue l), ?_, ?_⟩
  · simp only [BinHexConverter.toInt, e1, e2]
  · exact toInt_toNat ⟨hexValue h, b1⟩ ⟨hexValue l, b2⟩

theorem toBinLoop_digits (n : Nat) :
    ∀ (s tail : List Char), s.length = 2 * n → (∀ c ∈ s, c ∈ lowerHexDigits) →
      ∃ out, BinHexConverter.toBinLoop (2 * n) (s ++ tail) = .returned (some out) ∧
        out.length = n ∧
        ∀ i, i < n → (out.getD i 0).toNat =
          16 * hexValue (s.getD (2 * i) '0') + hexValue (s.getD (2 * i + 1) '0') := by
  induction n with
  | zero =>
    intro s tail hs _
    have : s = [] := List.length_eq_zero.mp (by omega)
    subst this
    exact ⟨[], by simp only [Nat.mul_zero, BinHexConverter.toBinLoop], rfl,
      fun i hi => absurd hi (by omega)⟩
  | succ n ih =>
    intro s tail hs hd
    match s, hs, hd with
    | [], hs, _ => simp at hs
    | [_], hs, _ => simp at hs; omega
    | h :: l :: rest, hs, hd =>
      simp only [List.length_cons] at hs
      obtain ⟨b, hb, hbv⟩ := toInt_lower h l (hd h (by simp)) (hd l (by simp))
      obtain ⟨out, ho, hol, hov⟩ := ih rest tail (by omega) (fun c hc => hd c (by simp [hc]))
      refine ⟨b :: out, ?_, by simp [hol], ?_⟩
      · have h2 : 2 * (n + 1) = 2 * n + 1 + 1 := by omega
        rw [h2]
        show BinHexConverter.toBinLoop (2 * n + 1 + 1) (h :: l :: (rest ++ tail)) = _
        rw [BinHexConverter.toBinLoop, hb]
        simp only [Nat.add_sub_cancel, ho]
      · intro i hi
        cases i with
        | zero => simpa using hbv
        | succ i =>
          have h2 : 2 * (i + 1) = 2 * i + 1 + 1 := by omega
          rw [h2]
          simp only [List.getD_cons_succ]
          exact hov i (by omega)

/-- C22: for every non-empty input string of even length over the digits `0`-`9` and
`a`-`f` `BinHexConverter::toBin` returns `true` and writes `length / 2` bytes, and byte `i`
has the value `16 * value(char 2 i) + value(char 2 i + 1)`. -/
theorem toBin_digits (inputHexChars : List Char) (hne : inputHexChars ≠ [])
    (heven : inputHexChars.length % 2 = 0)
    (hdig : ∀ c ∈ inputHexChars, c ∈ lowerHexDigits) :
    ∃ outputBytes, BinHexConverter.toBin inputHexChars = some outputBytes ∧
      outputBytes.length = inputHexChars.length / 2 ∧
      ∀ i, i < inputHexChars.length / 2 → (outputBytes.getD i 0).toNat =
        16 * hexValue (inputHexChars.getD (2 * i) '0') +
          hexValue (inputHexChars.getD (2 * i + 1) '0') := by
  obtain ⟨out, ho, hol, hov⟩ := toBinLoop_digits (inputHexChars.length / 2) inputHexChars
    [Char.ofNat 0] (by omega) hdig
  refine ⟨out, ?_, hol, hov⟩
  have h2 : inputHexChars.length = 2 * (inputHexChars.length / 2) := by omega
  rw [toBin_eq _ hne]
  conv => lhs; rw [h2]
  rw [ho]

theorem toBin_digits_witness :
    ∃ outputBytes, BinHexConverter.toBin "0010ff".toList = some outputBytes ∧
      outputBytes.length = "0010ff".toList.length / 2 ∧
      ∀ i, i < "0010ff".toList.length / 2 → (outputBytes.getD i 0).toNat =
        16 * hexValue ("0010ff".toList.getD (2 * i) '0') +
          hexValue ("0010ff".toList.getD (2 * i + 1) '0') :=
  toBin_digits "0010ff".toList (by decide) (by decide) (by decide)

theorem digitValue_ascii : ∀ n : Fin 128,
    Char.ofNat n.val ∉ hexDigits → BinHexConverter.digitValue (Char.ofNat n.val).toLower = none := by
  decide

theorem digitValue_not_hex (c : Char) (hc : c ∉ hexDigits) :
    BinHexConverter.digitValue c.toLower = none := by
  by_cases h : c.toNat < 128
  · have := digitValue_ascii ⟨c.toNat, h⟩
    simp only [Char.ofNat_toNat] at this
    exact this hc
  · have h1 : c.toLower = c := by
      simp only [Char.toLower]
      rw [if_neg (by omega)]
    rw [h1]
    unfold BinHexConverter.digitValue
    have h9 : ¬ c ≤ '9' := by
      intro h'
      have : c.toNat ≤ ('9' : Char).toNat := h'
      have e : ('9' : Char).toNat = 57 := rfl
      omega
    have hf : ¬ c ≤ 'f' := by
      intro h'
      have : c.toNat ≤ ('f' : Char).toNat := h'
      have e : ('f' : Char).toNat = 102 := rfl
      omega
    rw [if_neg (fun h' => h9 h'.2), if_neg (fun h' => hf h'.2)]

theorem toInt_not_hex (h l : Char) (hc : h ∉ hexDigits ∨ l ∉ hexDigits) :
    BinHexConverter.toInt h.toLower l.toLower = none := by
  unfold BinHexConverter.toInt
  rcases hc with hc | hc
  · rw [digitValue_not_hex h hc]
  · rw [digitValue_not_hex l hc]
    cases BinHexConverter.digitValue h.toLower <;> rfl

theorem toBinLoop_never_true (k : Nat) :
    ∀ (n : Nat) (memory : List Char), memory.length ≤ k →
      (∃ i c, i < 2 * ((n + 1) / 2) ∧ memory[i]? = some c ∧ c ∉ hexDigits) →
      ∀ out, BinHexConverter.toBinLoop n memory ≠ .returned (some out) := by
  induction k using Nat.strong_induction_on with
  | _ k ih =>
    intro n memory hk hbad out
    obtain ⟨i, c, hi, hc, hcn⟩ := hbad
    cases n with
    | zero => omega
    | succ n =>
      match memory, hk, hc with
      | [], _, hc => simp at hc
      | [h], _, _ =>
        intro hr
        simp [BinHexConverter.toBinLoop] at hr
      | h :: l :: rest, hk, hc =>
        simp only [List.length_cons] at hk
        rw [BinHexConverter.toBinLoop]
        by_cases hhl : h ∉ hexDigits ∨ l ∉ hexDigits
        · rw [toInt_not_hex h l hhl]
          simp
        · have hi2 : 2 ≤ i := by
            rcases i with _ | _ | i
            · simp only [List.getElem?_cons_zero, Option.some.injEq] at hc
              exact absurd (Or.inl (hc ▸ hcn)) hhl
            · simp only [List.getElem?_cons_succ, List.getElem?_cons_zero,
                Option.some.injEq] at hc
              exact absurd (Or.inr (hc ▸ hcn)) hhl
            · omega
          obtain ⟨j, hj⟩ : ∃ j, i = j + 2 := ⟨i - 2, by omega⟩
          rw [hj] at hc hi
          simp only [List.getElem?_cons_succ] at hc
          have hrest := ih (k - 2) (by omega) (n - 1) rest (by omega)
            ⟨j, c, by omega, hc, hcn⟩
          cases hb : BinHexConverter.toInt h.toLower l.toLower with
          | none => simp
          | some b =>
            simp only []
            cases hr : BinHexConverter.toBinLoop (n - 1) rest with
            | readPast => simp
            | returned r =>
              cases r with
              | none => simp
              | some bs => exact absurd hr (hrest bs)

/-- Where the rejection holds: on the characters of a NUL-terminated string (the call
`toBin(s.c_str(), s.size(), out)`), `BinHexConverter::toBin` returns `false` when the
length is odd, the last character being paired with the terminating NUL, and when a
character is not a hexadecimal digit. -/
theorem toBin_string_rejects (inputHexChars : List Char)
    (h : inputHexChars.length % 2 = 1 ∨ ∃ c ∈ inputHexChars, c ∉ hexDigits) :
    BinHexConverter.toBin inputHexChars = none := by
  by_cases hne : inputHexChars = []
  · rw [hne]; rfl
  · have hbad : ∃ i c, i < 2 * ((inputHexChars.length + 1) / 2) ∧
        (inputHexChars ++ [Char.ofNat 0])[i]? = some c ∧ c ∉ hexDigits := by
      rcases h with hodd | ⟨c, hc, hcn⟩
      · refine ⟨inputHexChars.length, Char.ofNat 0, by omega, ?_, by decide⟩
        simp
      · obtain ⟨i, hi, hic⟩ := List.getElem_of_mem hc
        refine ⟨i, c, by omega, ?_, hcn⟩
        rw [List.getElem?_append_left hi, List.getElem?_eq_getElem hi, hic]
    have hnever := toBinLoop_never_true _ inputHexChars.length
      (inputHexChars ++ [Char.ofNat 0]) (Nat.le_refl _) hbad
    rw [toBin_eq _ hne]
    cases hr : BinHexConverter.toBinLoop inputHexChars.length
        (inputHexChars ++ [Char.ofNat 0]) with
    | readPast => rfl
    | returned r =>
      cases r with
      | none => rfl
      | some bs => exact absurd hr (hnever bs)

/-- C23 (divergence): `BinHexConverter::toBin` has no test on the parity of
`inputHexCharSize`; in its last round for an odd size it reads the character
`inputHexChars[inputHexCharSize]`, which lies after the input.  Called on the text
`0010ff` with the size 5 it returns `true` and writes the three bytes `00 10 FF`;
called with the size 3 on an array of exactly the three characters `abc` it reads past the
array.  Only when the character after the input is not a hexadecimal digit, such as the
NUL after the string `abc`, does it return `false`; a character that is not a hexadecimal
digit within the input makes it return `false`. -/
theorem toBin_accepts_odd_size :
    BinHexConverter.toBinAt "0010ff".toList 5 = .returned (some [0x00, 0x10, 0xFF]) ∧
    BinHexConverter.toBinAt "abc".toList 3 = .readPast ∧
    BinHexConverter.toBinAt ("abc".toList ++ [Char.ofNat 0]) 3 = .returned none ∧
    BinHexConverter.toBin "abc".toList = none ∧
    BinHexConverter.toBinAt "0g".toList 2 = .returned none := by
  decide

/-! ## Claims on over-long header lines and on header lookup -/

theorem parseLoop_full (fuel : Nat) (sock : Sock Char) (line : List Char) (nlc : Nat)
    (fl : Bool) (h : Headers) (hlen : 256 ≤ line.length) (hfuel : sock.size < fuel) :
    ∃ sock', HttpResponse.parseLoop fuel sock line nlc fl h =
      .returned false h "Error when reading HTTP response headers" sock' := by
  cases fuel with
  | zero => omega
  | succ fuel =>
    rw [HttpResponse.parseLoop]
    cases hread : sock.read 1 with
    | mk ev sock' =>
      cases ev with
      | error => exact ⟨sock', rfl⟩
      | data l =>
        cases l with
        | nil =>
          refine ⟨sock', ?_⟩
          simp only []
          rw [if_pos hlen]
        | cons c l =>
          refine ⟨sock', ?_⟩
          simp only []
          rw [if_pos hlen]

theorem parseLoop_store (fuel : Nat) (sock : Sock Char) (line : List Char) (nlc : Nat)
    (fl : Bool) (h : Headers) (c : Char) (rest : List Char)
    (hb : sock.bytes = c :: rest) (hc : c ≠ '\n') (hlen : line.length < 256)
    (hfuel : sock.size < fuel) :
    ∃ sock' fuel', sock'.bytes = rest ∧ sock'.size < fuel' ∧
      HttpResponse.parseLoop fuel sock line nlc fl h =
        HttpResponse.parseLoop fuel' sock' (line ++ [c]) (if c ≠ '\r' then 0 else nlc) fl h := by
  obtain ⟨sock', hread, hbytes, hsize⟩ := read_one sock c rest hb
  cases fuel with
  | zero => omega
  | succ fuel =>
    refine ⟨sock', fuel, hbytes, by omega, ?_⟩
    rw [HttpResponse.parseLoop, hread]
    simp only []
    rw [if_neg (by omega), if_neg hc]

theorem parseLoop_stores (cs : List Char) :
    ∀ (fuel : Nat) (sock : Sock Char) (line : List Char) (nlc : Nat) (fl : Bool) (h : Headers)
      (rest : List Char), sock.bytes = cs ++ rest → (∀ c ∈ cs, c ≠ '\n') →
      line.length + cs.length ≤ 256 → sock.size < fuel →
      ∃ sock' fuel', sock'.bytes = rest ∧ sock'.size < fuel' ∧
        HttpResponse.parseLoop fuel sock line nlc fl h =
          HttpResponse.parseLoop fuel' sock' (line ++ cs)
            (cs.foldl (fun n c => if c ≠ '\r' then 0 else n) nlc) fl h := by
  induction cs with
  | nil =>
    intro fuel sock line nlc fl h rest hb _ _ hfuel
    exact ⟨sock, fuel, by simpa using hb, hfuel, by simp⟩
  | cons c cs ih =>
    intro fuel sock line nlc fl h rest hb hnl hlen hfuel
    simp only [List.length_cons] at hlen
    obtain ⟨sock1, fuel1, hb1, hf1, e1⟩ := parseLoop_store fuel sock line nlc fl h c (cs ++ rest)
      (by simpa using hb) (hnl c (List.mem_cons_self _ _)) (by omega) hfuel
    obtain ⟨sock2, fuel2, hb2, hf2, e2⟩ := ih fuel1 sock1 (line ++ [c])
      (if c ≠ '\r' then 0 else nlc) fl h rest hb1
      (fun x hx => hnl x (List.mem_cons_of_mem _ hx))
      (by simp only [List.length_append, List.length_singleton]; omega) hf1
    refine ⟨sock2, fuel2, hb2, hf2, ?_⟩
    rw [e1, e2]
    simp [List.foldl]

theorem parseLoop_long (fuel : Nat) (sock : Sock Char) (nlc : Nat) (fl : Bool) (h : Headers)
    (long rest : List Char) (hb : sock.bytes = long ++ rest) (hnl : ∀ c ∈ long, c ≠ '\n')
    (hlen : 256 ≤ long.length) (hfuel : sock.size < fuel) :
    ∃ sock', HttpResponse.parseLoop fuel sock [] nlc fl h =
      .returned false h "Error when reading HTTP response headers" sock' := by
  obtain ⟨sock1, fuel1, -, hf1, e1⟩ := parseLoop_stores (long.take 256) fuel sock [] nlc fl h
    (long.drop 256 ++ rest)
    (by rw [hb, ← List.append_assoc, List.take_append_drop])
    (fun c hc => hnl c (List.mem_of_mem_take hc))
    (by simp only [List.length_nil, List.length_take]; omega) hfuel
  obtain ⟨sock2, e2⟩ := parseLoop_full fuel1 sock1 ([] ++ long.take 256)
    ((long.take 256).foldl (fun n c => if c ≠ '\r' then 0 else n) nlc) fl h
    (by simp only [List.nil_append, List.length_take]; omega) hf1
  exact ⟨sock2, by rw [e1, e2]⟩

theorem parseLoop_segment (fuel : Nat) (sock : Sock Char) (nlc : Nat) (fl : Bool)
    (h : Headers) (seg rest : List Char) (hb : sock.bytes = seg ++ '\n' :: rest)
    (hnl : ∀ c ∈ seg, c ≠ '\n') (hhead : nlc = 0 ∨ ∃ c ∈ seg, c ≠ '\r')
    (hfuel : sock.size < fuel) :
    (HttpResponse.parseLoop fuel sock [] nlc fl h).unavailable = true ∨
    ∃ sock' fuel' h', sock'.bytes = rest ∧ sock'.size < fuel' ∧
      HttpResponse.parseLoop fuel sock [] nlc fl h =
        HttpResponse.parseLoop fuel' sock' [] 1 false h' := by
  by_cases hl : 256 ≤ seg.length
  · obtain ⟨sock', e⟩ := parseLoop_long fuel sock nlc fl h seg ('\n' :: rest) hb hnl hl hfuel
    left
    rw [e]
    rfl
  · obtain ⟨sock1, fuel1, hb1, hf1, e1⟩ := parseLoop_stores seg fuel sock [] nlc fl h
      ('\n' :: rest) hb hnl (by simp only [List.length_nil]; omega) hfuel
    have hreset : seg.foldl (fun n c => if c ≠ '\r' then 0 else n) nlc = 0 := by
      rw [foldl_reset]
      rcases hhead with h0 | ⟨c, hc, hcr⟩
      · rw [h0]; simp
      · have : seg.all (fun c => decide (c = '\r')) = false := by
          rw [List.all_eq_false]
          exact ⟨c, hc, by simpa using hcr⟩
        rw [this]
        rfl
    rw [e1, hreset, List.nil_append]
    obtain ⟨sock2, hread, hb2, hsize⟩ := read_one sock1 '\n' rest hb1
    cases fuel1 with
    | zero => omega
    | succ fuel1 =>
      rw [HttpResponse.parseLoop, hread]
      simp only []
      rw [if_neg (by omega), if_pos trivial]
      by_cases hov : (seg ++ ['\n']).length ≥ 256
      · left
        rw [if_pos hov]
        rfl
      · rw [if_neg hov]
        cases hp : HttpResponse.parseLine h (cString (seg ++ ['\n'])) (if fl then '/' else ':') with
        | none => left; rfl
        | some h' =>
          right
          refine ⟨sock2, fuel1, h', hb2, by omega, ?_⟩
          simp only []
          rw [if_neg (by omega)]

theorem parseLoop_lines (earlier : List (List Char)) :
    ∀ (fuel : Nat) (sock : Sock Char) (h : Headers) (fl : Bool) (long rest : List Char),
      sock.bytes = (earlier.map (fun l => l ++ ['\n'])).flatten ++ long ++ rest →
      (∀ l ∈ earlier, (∀ c ∈ l, c ≠ '\n') ∧ ∃ c ∈ l, c ≠ '\r') →
      (∀ c ∈ long, c ≠ '\n') → 256 ≤ long.length → sock.size < fuel →
      (HttpResponse.parseLoop fuel sock [] 1 fl h).unavailable = true := by
  induction earlier with
  | nil =>
    intro fuel sock h fl long rest hb _ hnl hlen hfuel
    obtain ⟨sock', e⟩ := parseLoop_long fuel sock 1 fl h long rest (by simpa using hb) hnl hlen
      hfuel
    rw [e]
    rfl
  | cons l ls ih =>
    intro fuel sock h fl long rest hb hls hnl hlen hfuel
    obtain ⟨hl1, hl2⟩ := hls l (List.mem_cons_self _ _)
    rcases parseLoop_segment fuel sock 1 fl h l
        ((ls.map (fun l => l ++ ['\n'])).flatten ++ long ++ rest)
        (by rw [hb]; simp) hl1 (Or.inr hl2) hfuel with hu | ⟨sock1, fuel1, h1, hb1, hf1, e1⟩
    · exact hu
    · rw [e1]
      exact ih fuel1 sock1 h1 false long rest hb1 (fun x hx => hls x (List.mem_cons_of_mem _ hx))
        hnl hlen hf1

theorem parseResponse_long_line (sock : Sock Char) (earlier : List (List Char))
    (long rest : List Char)
    (hb : sock.bytes = (earlier.map (fun l => l ++ ['\n'])).flatten ++ long ++ rest)
    (hearlier : ∀ l ∈ earlier, ∀ c ∈ l, c ≠ '\n')
    (hhead : ∀ l ∈ earlier.tail, ∃ c ∈ l, c ≠ '\r')
    (hnl : ∀ c ∈ long, c ≠ '\n') (hlen : 256 ≤ long.length) :
    (HttpResponse.parseResponse sock).unavailable = true := by
  unfold HttpResponse.parseResponse
  cases earlier with
  | nil =>
    obtain ⟨sock', e⟩ := parseLoop_long (sock.size + 1) sock 0 true Headers.empty long rest
      (by simpa using hb) hnl hlen (by omega)
    rw [e]
    rfl
  | cons l ls =>
    rcases parseLoop_segment (sock.size + 1) sock 0 true Headers.empty l
        ((ls.map (fun l => l ++ ['\n'])).flatten ++ long ++ rest)
        (by rw [hb]; simp) (hearlier l (List.mem_cons_self _ _)) (Or.inl rfl) (by omega)
      with hu | ⟨sock1, fuel1, h1, hb1, hf1, e1⟩
    · exact hu
    · rw [e1]
      exact parseLoop_lines ls fuel1 sock1 h1 false long rest hb1
        (fun x hx => ⟨hearlier x (List.mem_cons_of_mem _ hx), hhead x hx⟩) hnl hlen hf1

/-- C25: for every response stream in which some line of the head has more than 256 bytes
(its first 256 bytes hold no line feed; the lines before it are any lines that do not end
the head) `parseResponse` does not mark the response available; whenever the constructor
returns, the object has `isAvailable` false, so `retrieveResponseCode` returns 0,
`readContent` returns `false` with the buffer as it was, and the exchange of the
downloader appends no bytes to its queue. -/
theorem long_header_line_unavailable (sock : Sock Char) (earlier : List (List Char))
    (long rest : List Char)
    (hb : sock.bytes = (earlier.map (fun l => l ++ ['\n'])).flatten ++ long ++ rest)
    (hearlier : ∀ l ∈ earlier, ∀ c ∈ l, c ≠ '\n')
    (hhead : ∀ l ∈ earlier.tail, ∃ c ∈ l, c ≠ '\r')
    (hnl : ∀ c ∈ long, c ≠ '\n') (hlen : 256 ≤ long.length) :
    (HttpResponse.parseResponse sock).unavailable = true ∧
    ∀ (isStreamEncrypted : Bool) (cryptoKey : List Byte) (r : HttpResponse) (s : Sock Char),
      HttpResponse.construct sock isStreamEncrypted cryptoKey = some (r, s) →
      r.isAvailable = false ∧ r.retrieveResponseCode = some 0 ∧
      (∀ (lib : Sha256Lib) (body : Sock Byte) (byteBuff : List Byte),
        r.readContent lib body byteBuff = some ⟨false, byteBuff, r.lastErrorMessage, body⟩) ∧
      ∀ (requestSize : Int) (o : ExchangeOutcomes) (deq1 : List Byte),
        o.isResponseAvailable = r.isAvailable → exchange requestSize o deq1 = (deq1, true) := by
  have hu := parseResponse_long_line sock earlier long rest hb hearlier hhead hnl hlen
  refine ⟨hu, ?_⟩
  intro enc key r s hc
  have hav : r.isAvailable = false := by
    unfold HttpResponse.construct at hc
    cases hp : HttpResponse.parseResponse sock with
    | returned a hd m s' =>
      rw [hp] at hc hu
      simp only [Option.some.injEq, Prod.mk.injEq] at hc
      rw [← hc.1]
      simpa [ParseOutcome.unavailable] using hu
    | threw => rw [hp] at hc; simp at hc
    | overflow => rw [hp] at hc; simp at hc
    | outOfFuel => rw [hp] at hc; simp at hc
  refine ⟨hav, ?_, ?_, ?_⟩
  · unfold HttpResponse.retrieveResponseCode
    rw [hav]
    rfl
  · intro lib body byteBuff
    unfold HttpResponse.readContent
    rw [hav]
    rfl
  · intro requestSize o deq1 ho
    unfold exchange
    rw [ho, hav]
    cases o.connectToHost <;> cases o.sendGetRequest <;> rfl

theorem long_header_line_unavailable_witness :
    (HttpResponse.parseResponse
      [.data ('H' :: "TTP/1.0 200 OK\r\n".toList), .data ('a' :: List.replicate 255 'a')]).unavailable
      = true ∧
    ∀ (isStreamEncrypted : Bool) (cryptoKey : List Byte) (r : HttpResponse) (s : Sock Char),
      HttpResponse.construct
        [.data ('H' :: "TTP/1.0 200 OK\r\n".toList), .data ('a' :: List.replicate 255 'a')]
        isStreamEncrypted cryptoKey = some (r, s) →
      r.isAvailable = false ∧ r.retrieveResponseCode = some 0 ∧
      (∀ (lib : Sha256Lib) (body : Sock Byte) (byteBuff : List Byte),
        r.readContent lib body byteBuff = some ⟨false, byteBuff, r.lastErrorMessage, body⟩) ∧
      ∀ (requestSize : Int) (o : ExchangeOutcomes) (deq1 : List Byte),
        o.isResponseAvailable = r.isAvailable → exchange requestSize o deq1 = (deq1, true) :=
  long_header_line_unavailable
    [.data ('H' :: "TTP/1.0 200 OK\r\n".toList), .data ('a' :: List.replicate 255 'a')]
    ["HTTP/1.0 200 OK\r".toList] ('a' :: List.replicate 255 'a') []
    (by
      have e1 : "HTTP/1.0 200 OK\r".toList ++ ['\n'] = 'H' :: "TTP/1.0 200 OK\r\n".toList := by
        decide
      simp only [Sock.bytes, List.map_cons, List.map_nil, List.flatten_cons, List.flatten_nil,
        List.append_nil, e1])
    (by decide) (by decide)
    (by
      intro c hc
      rcases List.mem_cons.mp hc with hc | hc
      · rw [hc]; decide
      · rw [(List.mem_replicate.mp hc).2]; decide)
    (by rw [List.length_cons, List.length_replicate])

theorem parseResponse_head (status : HeaderLine) (fields : List HeaderLine) (crs : Nat)
    (body : List Char) (sock : Sock Char)
    (hs : status.wellFormed '/' = true) (hf : ∀ f ∈ fields, f.wellFormed ':' = true)
    (hcrs : crs ≤ 254) (hsock : sock.bytes = responseHead status fields crs ++ body) :
    ∃ sock', HttpResponse.parseResponse sock =
        .returned true (storeHeaders status fields) "" sock' ∧ sock'.bytes = body := by
  unfold HttpResponse.parseResponse
  obtain ⟨sock1, fuel1, hb1, hf1, e1⟩ := parseLoop_line status true hs (sock.size + 1) sock 0
    Headers.empty ((fields.map (fun f => f.text ':')).flatten ++
      (List.replicate crs '\r' ++ ['\n']) ++ body)
    (by rw [hsock]; simp [responseHead]) (by omega)
  obtain ⟨sock2, fuel2, hb2, hf2, e2⟩ := parseLoop_fields fields fuel1 sock1
    (Headers.empty.set status.name status.value)
    ((List.replicate crs '\r' ++ ['\n']) ++ body) hf (by rw [hb1]; simp) hf1
  obtain ⟨sock3, hb3, e3⟩ := parseLoop_closing crs hcrs fuel2 sock2
    (fields.foldl (fun h f => h.set f.name f.value) (Headers.empty.set status.name status.value))
    body hb2 hf2
  exact ⟨sock3, by rw [e1, e2, e3]; rfl, hb3⟩

theorem foldl_set_absent (fields : List HeaderLine) :
    ∀ (h : Headers) (name : List Char), (∀ f ∈ fields, name ≠ f.name) →
      (fields.foldl (fun h f => h.set f.name f.value) h) name = h name := by
  induction fields with
  | nil => intro h name _; rfl
  | cons f fs ih =>
    intro h name hn
    rw [List.foldl_cons, ih _ name (fun g hg => hn g (List.mem_cons_of_mem _ hg))]
    unfold Headers.set
    rw [if_neg (hn f (List.mem_cons_self _ _))]

theorem foldl_set_last (pre post : List HeaderLine) (f : HeaderLine) (h : Headers)
    (hpost : ∀ g ∈ post, g.name ≠ f.name) :
    ((pre ++ f :: post).foldl (fun h f => h.set f.name f.value) h) f.name = f.value := by
  rw [List.foldl_append, List.foldl_cons,
    foldl_set_absent post _ f.name (fun g hg => (hpost g hg).symm)]
  unfold Headers.set
  rw [if_pos rfl]

/-- C26: `HttpResponse` stores header names as they are written and looks them up by exact
comparison: after a response head is parsed, `getHeader(N)` returns the value `V` of the
last line `N: V`, and `getHeader(N')` returns the empty string for every `N'` that differs
from every stored name, also when it differs only in letter case (`tl-resp-bytehash` finds
nothing after `TL-RESP-BYTEHASH: ABCD`). -/
theorem getHeader_case_sensitive (status : HeaderLine) (fields : List HeaderLine) (crs : Nat)
    (body : List Char) (sock : Sock Char) (isStreamEncrypted : Bool) (cryptoKey : List Byte)
    (hs : status.wellFormed '/' = true) (hf : ∀ f ∈ fields, f.wellFormed ':' = true)
    (hcrs : crs ≤ 254) (hsock : sock.bytes = responseHead status fields crs ++ body) :
    (∃ r s, HttpResponse.construct sock isStreamEncrypted cryptoKey = some (r, s) ∧
      (∀ pre f post, fields = pre ++ f :: post → (∀ g ∈ post, g.name ≠ f.name) →
        r.getHeader f.name = f.value) ∧
      (∀ name, name ≠ status.name → (∀ f ∈ fields, name ≠ f.name) → r.getHeader name = [])) ∧
    (HttpResponse.construct
        [.data "HTTP/1.0 200 OK\r\nTL-RESP-BYTEHASH: ABCD\r\n\r\n".toList] false []).map
      (fun p => (p.1.getHeader "TL-RESP-BYTEHASH".toList,
        p.1.getHeader "tl-resp-bytehash".toList, p.1.getHeader "Tl-Resp-Bytehash".toList))
      = some ("ABCD".toList, [], []) := by
  refine ⟨?_, by decide⟩
  obtain ⟨sock', e, -⟩ := parseResponse_head status fields crs body sock hs hf hcrs hsock
  refine ⟨⟨storeHeaders status fields, "", true, isStreamEncrypted, cryptoKey⟩, sock', ?_, ?_, ?_⟩
  · unfold HttpResponse.construct
    rw [e]
  · intro pre f post hfields hpost
    show storeHeaders status fields f.name = f.value
    unfold storeHeaders
    rw [hfields]
    exact foldl_set_last pre post f _ hpost
  · intro name hname hnames
    show storeHeaders status fields name = []
    unfold storeHeaders
    rw [foldl_set_absent fields _ name hnames]
    unfold Headers.set
    rw [if_neg hname]
    rfl

theorem getHeader_case_sensitive_witness :
    (∃ r s, HttpResponse.construct
        [.data "HTTP/1.0 2".toList, .data "00 OK\r\nContent-Type: text/plain\r\n\r\nxy".toList]
        false [] = some (r, s) ∧
      (∀ pre f post,
        [(⟨[], "Content-Type".toList, [], " ".toList, "text/plain".toList, "\r".toList⟩ :
          HeaderLine)] = pre ++ f :: post →
        (∀ g ∈ post, g.name ≠ f.name) → r.getHeader f.name = f.value) ∧
      (∀ name, name ≠ "HTTP".toList →
        (∀ f ∈ [(⟨[], "Content-Type".toList, [], " ".toList, "text/plain".toList, "\r".toList⟩ :
          HeaderLine)], name ≠ f.name) → r.getHeader name = [])) :=
  (getHeader_case_sensitive
    ⟨[], "HTTP".toList, [], [], "1.0 200 OK".toList, "\r".toList⟩
    [⟨[], "Content-Type".toList, [], " ".toList, "text/plain".toList, "\r".toList⟩] 1
    "xy".toList
    [.data "HTTP/1.0 2".toList, .data "00 OK\r\nContent-Type: text/plain\r\n\r\nxy".toList]
    false [] (by decide) (by decide) (by decide) (by decide)).1

/-! ## Claims on the crypto token -/

/-- C27: `CryptoToken::loadTokenFomText` returns `false` and leaves the key as it was for
every token text shorter than 10 or longer than 600 characters, and also whenever the RSA
primitive rejects the decoded input (or the text does not decode at all). -/
theorem loadTokenFomText_rejects (t : CryptoToken) (tokenText : List Char)
    (h : tokenText.length < 10 ∨ 600 < tokenText.length ∨
      ∀ crypterEncrypted, BinHexConverter.toBin tokenText = some crypterEncrypted →
        t.rsaCryptor.decryptWithPrivateKey crypterEncrypted = none) :
    t.loadTokenFomText tokenText = some (false, t) := by
  unfold CryptoToken.loadTokenFomText
  by_cases hlen : tokenText.length > 600 ∨ tokenText.length < 10
  · rw [if_pos hlen]
  · rw [if_neg hlen]
    have hrsa : ∀ crypterEncrypted, BinHexConverter.toBin tokenText = some crypterEncrypted →
        t.rsaCryptor.decryptWithPrivateKey crypterEncrypted = none := by
      rcases h with h | h | h
      · exact absurd (Or.inr h) hlen
      · exact absurd (Or.inl h) hlen
      · exact h
    cases hb : BinHexConverter.toBin tokenText with
    | none => rfl
    | some crypterEncrypted =>
      simp only []
      rw [hrsa crypterEncrypted hb]

theorem loadTokenFomText_rejects_witness :
    (CryptoToken.construct (fixedSizeCryptor 256) counterRand 0).1.loadTokenFomText
        "00112233".toList =
      some (false, (CryptoToken.construct (fixedSizeCryptor 256) counterRand 0).1) ∧
    (CryptoToken.construct (fixedSizeCryptor 256) counterRand 0).1.loadTokenFomText
        "00112233445566778899".toList =
      some (false, (CryptoToken.construct (fixedSizeCryptor 256) counterRand 0).1) :=
  ⟨loadTokenFomText_rejects _ "00112233".toList (Or.inl (by decide)),
   loadTokenFomText_rejects _ "00112233445566778899".toList
     (Or.inr (Or.inr (fun _ _ => rfl)))⟩

theorem initializeRandomBytes_length {σ : Type} (rand : σ → Nat × σ) (n : Nat) :
    ∀ s : σ, (CryptoToken.initializeRandomBytes rand n s).1.length = n := by
  induction n with
  | zero => intro s; rfl
  | succ n ih =>
    intro s
    simp only [CryptoToken.initializeRandomBytes, List.length_cons, ih]

theorem createTokenAsText_eq (t : CryptoToken) (tokenText : List Char)
    (crypterEncrypted : List Byte)
    (henc : t.rsaCryptor.encryptWithPublicKey t.key = some crypterEncrypted)
    (hc : 1 ≤ crypterEncrypted.length ∧ crypterEncrypted.length ≤ 299) :
    t.createTokenAsText tokenText =
      some (tokenText ++ BinHexConverter.toHexLoop crypterEncrypted) := by
  unfold CryptoToken.createTokenAsText CryptoToken.createTokenAsTextBounded
  rw [henc]
  simp only [BinHexConverter.toHex]
  rw [if_neg (by omega), if_neg (by omega)]
  simp only []
  rw [if_neg (by rw [toHexLoop_length]; omega)]

theorem createTokenAsTextBounded_long (t : CryptoToken) (tokenText : List Char)
    (crypterEncrypted : List Byte)
    (henc : t.rsaCryptor.encryptWithPublicKey t.key = some crypterEncrypted)
    (hc : 300 < crypterEncrypted.length) :
    t.createTokenAsTextBounded tokenText = .overflow ∧ t.createTokenAsText tokenText = none := by
  have h : t.createTokenAsTextBounded tokenText = .overflow := by
    unfold CryptoToken.createTokenAsTextBounded
    rw [henc]
    simp only []
    rw [if_pos hc]
  refine ⟨h, ?_⟩
  unfold CryptoToken.createTokenAsText
  rw [h]

theorem paddingCryptor_encrypt (c s : Nat) (hc : 48 ≤ c) :
    ∃ crypterEncrypted,
      (CryptoToken.construct (paddingCryptor c) counterRand s).1.rsaCryptor.encryptWithPublicKey
        (CryptoToken.construct (paddingCryptor c) counterRand s).1.key = some crypterEncrypted ∧
      crypterEncrypted.length = c := by
  refine ⟨(CryptoToken.construct (paddingCryptor c) counterRand s).1.key ++
    List.replicate (c - (CryptoToken.construct (paddingCryptor c) counterRand s).1.key.length)
      (0 : Byte), rfl, ?_⟩
  have hK : (CryptoToken.construct (paddingCryptor c) counterRand s).1.key.length = 48 :=
    initializeRandomBytes_length counterRand 48 s
  rw [List.length_append, List.length_replicate, hK]
  omega

/-- C28 (divergence): `createTokenAsText` puts no bound on the number of bytes the RSA
encryption returns.  With a key of 4096 bits the encryption of the 48-byte key succeeds
with 512 bytes, which the primitive writes to `crypterEncrypted[300]`, past the end of the
array (and `toHex` would write 1024 characters and a NUL to `crypterEncryptedHex[600]`); the
same happens with a key of 3072 bits and 384 bytes.  With a key of 2048 bits and 256 bytes
the call stays within both arrays. -/
theorem createTokenAsText_writes_past_ciphertext_buffer :
    (CryptoToken.construct (paddingCryptor 512) counterRand 0).1.createTokenAsTextBounded [] =
      .overflow ∧
    (CryptoToken.construct (paddingCryptor 384) counterRand 0).1.createTokenAsTextBounded [] =
      .overflow ∧
    ((CryptoToken.construct (paddingCryptor 256) counterRand 0).1.createTokenAsText []).map
      List.length = some 512 := by
  obtain ⟨c1, h1, l1⟩ := paddingCryptor_encrypt 512 0 (by decide)
  obtain ⟨c2, h2, l2⟩ := paddingCryptor_encrypt 384 0 (by decide)
  obtain ⟨c3, h3, l3⟩ := paddingCryptor_encrypt 256 0 (by decide)
  refine ⟨(createTokenAsTextBounded_long _ [] c1 h1 (by omega)).1,
    (createTokenAsTextBounded_long _ [] c2 h2 (by omega)).1, ?_⟩
  rw [createTokenAsText_eq _ [] c3 h3 (by omega), Option.map_some', List.nil_append,
    toHexLoop_length, l3]

/-- Where the claim on the token text holds: for every `CryptoToken` the key size is 48
bytes, and whenever the RSA public-key encryption of that key succeeds with `c` output
bytes, `5 ≤ c ≤ 299` (so that the ciphertext fits `crypterEncrypted[300]` and its hex text
with the terminator fits `crypterEncryptedHex[600]`), `createTokenAsText` returns `true`
and the text it appends is exactly the `2 c`-character upper-case hex encoding of the
ciphertext (512 characters for `c = 256`), a length within `[10, 600]`. -/
theorem createTokenAsText_spec {σ : Type} (rsaCryptor : RSACryptor) (rand : σ → Nat × σ)
    (s : σ) (tokenText : List Char) (crypterEncrypted : List Byte)
    (henc : (CryptoToken.construct rsaCryptor rand s).1.rsaCryptor.encryptWithPublicKey
      (CryptoToken.construct rsaCryptor rand s).1.key = some crypterEncrypted)
    (hc : 5 ≤ crypterEncrypted.length ∧ crypterEncrypted.length ≤ 299) :
    (CryptoToken.construct rsaCryptor rand s).1.key.length = 48 ∧
    (CryptoToken.construct rsaCryptor rand s).1.getCripterSize = 48 ∧
    ∃ hex, (CryptoToken.construct rsaCryptor rand s).1.createTokenAsText tokenText =
        some (tokenText ++ hex) ∧
      BinHexConverter.toHex crypterEncrypted = some hex ∧
      hex.length = 2 * crypterEncrypted.length ∧
      (crypterEncrypted.length = 256 → hex.length = 512) ∧
      10 ≤ hex.length ∧ hex.length ≤ 600 ∧
      ∀ (i : Nat) (hi : i < crypterEncrypted.length),
        hex[2 * i]? =
          some (upperHexDigits.getD ((crypterEncrypted.get ⟨i, hi⟩).toNat / 16) '0') ∧
        hex[2 * i + 1]? =
          some (upperHexDigits.getD ((crypterEncrypted.get ⟨i, hi⟩).toNat % 16) '0') := by
  refine ⟨initializeRandomBytes_length rand 48 s, rfl,
    BinHexConverter.toHexLoop crypterEncrypted,
    createTokenAsText_eq _ tokenText crypterEncrypted henc ⟨by omega, hc.2⟩, ?_, ?_, ?_, ?_, ?_, ?_⟩
  · unfold BinHexConverter.toHex
    rw [if_neg (by omega)]
  · exact toHexLoop_length _
  · intro h; rw [toHexLoop_length, h]
  · rw [toHexLoop_length]; omega
  · rw [toHexLoop_length]; omega
  · intro i hi
    have hb : (crypterEncrypted.get ⟨i, hi⟩).toNat < 256 := UInt8.toNat_lt_size _
    obtain ⟨h1, h2⟩ := toHexLoop_getElem crypterEncrypted i hi
    have e1 := (hexDigitUpper_spec ⟨(crypterEncrypted.get ⟨i, hi⟩).toNat / 16, by omega⟩).1
    have e2 := (hexDigitUpper_spec ⟨(crypterEncrypted.get ⟨i, hi⟩).toNat % 16, by omega⟩).1
    simp only [] at e1 e2
    rw [h1, h2, e1, e2]
    exact ⟨rfl, rfl⟩

/-! ## Claims on the pool size and on the configuration file -/

/-- C29: for every decimal pool size in bits `b` read from the kernel (the digits of `b`
followed by anything that does not start with a digit, `b` within the range of `int`)
`getEntropyPoolSize` succeeds and sets the pool byte count to `min(b / 8, 65536)`. -/
theorem getEntropyPoolSize_spec (ds : List Nat) (rest : List Char) (hne : ds ≠ [])
    (hds : ∀ d ∈ ds, d < 10) (hrest : ∀ c ∈ rest.head?, isdigit c = false)
    (_hint : Nat.ofDigits 10 ds.reverse < 2 ^ 31) :
    getEntropyPoolSize (some (ds.map digitChar ++ rest)) =
      some ((min (Nat.ofDigits 10 ds.reverse / 8) 65536 : Nat) : Int) := by
  unfold getEntropyPoolSize
  simp only []
  rw [atoi_digits ds rest hne hds hrest _hint]
  generalize Nat.ofDigits 10 ds.reverse = b
  have h8 : Int.tdiv (b : Int) 8 = ((b / 8 : Nat) : Int) := by
    rw [Int.tdiv_eq_ediv (by omega) (by omega)]
    omega
  rw [h8]
  unfold MAX_POOL_SIZE_BYTES
  congr 1
  by_cases h : ((b / 8 : Nat) : Int) > 1024 * 64
  · rw [if_pos h]; omega
  · rw [if_neg h]; omega

theorem getEntropyPoolSize_spec_witness :
    getEntropyPoolSize (some ([4, 0, 9, 6].map digitChar ++ ['\n'])) =
      some ((min (Nat.ofDigits 10 [4, 0, 9, 6].reverse / 8) 65536 : Nat) : Int) ∧
    getEntropyPoolSize (some "4096\n".toList) = some 512 ∧
    getEntropyPoolSize (some "1048576\n".toList) = some 65536 :=
  ⟨getEntropyPoolSize_spec [4, 0, 9, 6] ['\n'] (by decide) (by decide) (by decide) (by decide),
   by decide, by decide⟩

theorem getD_after (lead : List Char) (c : Char) (rest : List Char) (d : Char) :
    (lead ++ c :: rest).getD lead.length d = c := by
  induction lead with
  | nil => rfl
  | cons x xs ih => simpa using ih

theorem find_none (c : Char) (s : List Char) (pos : Nat) (hs : ∀ x ∈ s, x ≠ c) :
    find s c pos = npos := by
  unfold find
  have h := takeWhile_all (fun x => decide (x ≠ c)) (s.drop pos)
    (by intro x hx; simpa using hs x (List.mem_of_mem_drop hx))
  rw [h.2]

theorem parseLine_skips_blank (m : PropertyMap) (s : List Char)
    (hall : ∀ c ∈ s, c ∈ blanksCRLF) : Configuration.parseLine m s = some m := by
  unfold Configuration.parseLine
  simp only []
  by_cases hb : find_first_not_of s blanks 0 = npos
  · rw [if_pos hb]
  · rw [if_neg hb]
    have hsplit : s.takeWhile (fun c => decide (c ∈ blanks)) ++
        s.dropWhile (fun c => decide (c ∈ blanks)) = s := List.takeWhile_append_dropWhile _ _
    cases hd : s.dropWhile (fun c => decide (c ∈ blanks)) with
    | nil =>
      exfalso
      apply hb
      unfold find_first_not_of
      rw [List.drop_zero, hd]
    | cons c cs =>
      have hbegin : find_first_not_of s blanks 0 =
          (s.takeWhile (fun c => decide (c ∈ blanks))).length := by
        unfold find_first_not_of
        rw [List.drop_zero, hd]
        simp
      rw [hd] at hsplit
      have hc : c ∈ blanksCRLF := hall c (by rw [← hsplit]; simp)
      have hget : s.getD (s.takeWhile (fun c => decide (c ∈ blanks))).length (Char.ofNat 0) = c := by
        have h1 := getD_after (s.takeWhile (fun c => decide (c ∈ blanks))) c cs (Char.ofNat 0)
        rw [hsplit] at h1
        exact h1
      have hmark : find "#;".toList c 0 = npos := by
        apply find_absent
        intro x hx hxc
        rw [← hxc] at hc
        revert hc
        rcases (by simpa using hx : x = '#' ∨ x = ';') with h' | h' <;> rw [h'] <;> decide
      have hend : find s '=' (s.takeWhile (fun c => decide (c ∈ blanks))).length = npos := by
        apply find_none
        intro x hx hxe
        have := hall x hx
        rw [hxe] at this
        revert this
        decide
      have hle : ¬ (s.takeWhile (fun c => decide (c ∈ blanks))).length > s.length := by
        have := congrArg List.length hsplit
        simp only [List.length_append] at this
        omega
      rw [hbegin, hget, hmark, if_neg (by simp), hend]
      unfold substr
      rw [if_neg hle]
      simp only []
      have hlast : find_last_not_of
          ((s.drop (s.takeWhile (fun c => decide (c ∈ blanks))).length).take
            (sizeSub npos (s.takeWhile (fun c => decide (c ∈ blanks))).length)) blanksCRLF = npos := by
        apply find_last_not_of_all
        intro x hx
        exact hall x (List.mem_of_mem_drop (List.mem_of_mem_take hx))
      have hsa : sizeAdd npos 1 = 0 := by decide
      rw [hlast, hsa]
      unfold erase
      rw [if_neg (by omega), List.take_zero]
      rfl

theorem parseLine_skips_comment (m : PropertyMap) (lead : List Char) (mark : Char)
    (rest : List Char) (hlead : ∀ c ∈ lead, c ∈ blanks) (hmark : mark = '#' ∨ mark = ';') :
    Configuration.parseLine m (lead ++ mark :: rest) = some m := by
  unfold Configuration.parseLine
  simp only []
  by_cases hb : find_first_not_of (lead ++ mark :: rest) blanks 0 = npos
  · rw [if_pos hb]
  · rw [if_neg hb]
    have hout : mark ∉ blanks := by
      rcases hmark with h' | h' <;> rw [h'] <;> decide
    have hbegin : find_first_not_of (lead ++ mark :: rest) blanks 0 = lead.length := by
      have := find_first_not_of_run blanks [] lead mark rest hlead hout
      simpa using this
    have hfound : find "#;".toList mark 0 ≠ npos := by
      rcases hmark with h' | h' <;> rw [h'] <;> decide
    rw [hbegin, getD_after, if_pos hfound]

/-- The facts packed in `HeaderLine.isProperty`. -/
theorem isProperty_facts (l : HeaderLine) (hw : l.isProperty = true) :
    (∀ x ∈ l.lead, x ∈ blanks) ∧ (∀ x ∈ l.gap1, x ∈ blanksCRLF) ∧
    (∀ x ∈ l.gap2, x ∈ blanksCRLF) ∧ (∀ x ∈ l.trail, x ∈ blanksCRLF) ∧
    startsOutside (blanks ++ ['#', ';']) l.name = true ∧ endsOutside blanksCRLF l.name = true ∧
    (∀ x ∈ l.name, x ≠ '=') ∧
    startsOutside blanksCRLF l.value = true ∧ endsOutside blanksCRLF l.value = true ∧
    l.propertyText.length < 2 ^ 63 := by
  simp only [HeaderLine.isProperty, Bool.and_eq_true, List.all_eq_true, decide_eq_true_eq] at hw
  obtain ⟨⟨⟨⟨⟨⟨⟨⟨⟨h1, h2⟩, h3⟩, h4⟩, h5⟩, h6⟩, h7⟩, h8⟩, h9⟩, h10⟩ := hw
  exact ⟨h1, h2, h3, h4, h5, h6, h7, h8, h9, h10⟩

theorem parseLine_stores_property (m : PropertyMap) (l : HeaderLine)
    (hw : l.isProperty = true) :
    Configuration.parseLine m l.propertyText = some (PropertyMap.assign m l.name l.value) := by
  obtain ⟨hlead, hgap1, hgap2, htrail, hns, hne, hnd, hvs, hve, hlen⟩ := isProperty_facts l hw
  obtain ⟨n0, nrest, hn0, hn0out⟩ := startsOutside_cons _ _ hns
  obtain ⟨ninit, nl, hnl, hnlout⟩ := endsOutside_concat _ _ hne
  obtain ⟨v0, vrest, hv0, hv0out⟩ := startsOutside_cons _ _ hvs
  obtain ⟨vinit, vl, hvl, hvlout⟩ := endsOutside_concat _ _ hve
  have hn0blank : n0 ∉ blanks := fun h' => hn0out (List.mem_append_left _ h')
  have hn0mark : ∀ x ∈ "#;".toList, x ≠ n0 := by
    intro x hx hxn
    apply hn0out
    rw [← hxn]
    exact List.mem_append_right _ (by simpa using hx)
  have hlen' : l.lead.length + l.name.length + l.gap1.length + 1 + l.gap2.length +
      l.value.length + l.trail.length < 2 ^ 63 := by
    simp only [HeaderLine.propertyText, List.length_append, List.length_singleton] at hlen
    omega
  have htlen : l.propertyText.length = l.lead.length + l.name.length + l.gap1.length + 1 +
      l.gap2.length + l.value.length + l.trail.length := by
    simp only [HeaderLine.propertyText, List.length_append, List.length_singleton]
  have e0 : l.propertyText = l.lead ++
      n0 :: (nrest ++ l.gap1 ++ ['='] ++ l.gap2 ++ l.value ++ l.trail) := by
    simp [HeaderLine.propertyText, hn0]
  have hbegin : find_first_not_of l.propertyText blanks 0 = l.lead.length := by
    have := find_first_not_of_run blanks [] l.lead n0
      (nrest ++ l.gap1 ++ ['='] ++ l.gap2 ++ l.value ++ l.trail) hlead hn0blank
    rw [e0]
    simpa using this
  have hget : l.propertyText.getD l.lead.length (Char.ofNat 0) = n0 := by
    rw [e0]
    exact getD_after _ _ _ _
  have hmark : find "#;".toList n0 0 = npos := find_absent n0 _ hn0mark
  have hend : find l.propertyText '=' l.lead.length =
      l.lead.length + (l.name ++ l.gap1).length := by
    have e : l.propertyText = l.lead ++ (l.name ++ l.gap1) ++
        '=' :: (l.gap2 ++ l.value ++ l.trail) := by
      simp [HeaderLine.propertyText]
    rw [e]
    apply find_run
    intro x hx
    rcases List.mem_append.mp hx with hx | hx
    · exact hnd x hx
    · intro hxd
      rw [hxd] at hx
      exact absurd (hgap1 '=' hx) (by decide)
  have hkey0 : substr l.propertyText l.lead.length (l.name ++ l.gap1).length =
      some (l.name ++ l.gap1) := by
    have e : l.propertyText = l.lead ++ (l.name ++ l.gap1) ++
        (['='] ++ l.gap2 ++ l.value ++ l.trail) := by
      simp [HeaderLine.propertyText]
    rw [e]
    exact substr_mid _ _ _
  have hlast : find_last_not_of (l.name ++ l.gap1) blanksCRLF = ninit.length := by
    have e : l.name ++ l.gap1 = ninit ++ nl :: l.gap1 := by simp [hnl]
    rw [e]
    exact find_last_not_of_run blanksCRLF ninit nl l.gap1 hgap1 hnlout
  have hnlen : l.name.length = ninit.length + 1 := by rw [hnl]; simp
  have herase : erase (l.name ++ l.gap1) (ninit.length + 1) = some l.name := by
    rw [← hnlen]
    exact erase_left _ _
  have hbegin2 : find_first_not_of l.propertyText blanksCRLF
      (l.lead.length + (l.name ++ l.gap1).length + 1) =
      l.lead.length + (l.name ++ l.gap1).length + 1 + l.gap2.length := by
    have e : l.propertyText = (l.lead ++ l.name ++ l.gap1 ++ ['=']) ++ l.gap2 ++
        v0 :: (vrest ++ l.trail) := by
      simp [HeaderLine.propertyText, hv0]
    have hl : l.lead.length + (l.name ++ l.gap1).length + 1 =
        (l.lead ++ l.name ++ l.gap1 ++ ['=']).length := by
      simp only [List.length_append, List.length_singleton]; omega
    rw [e, hl]
    exact find_first_not_of_run blanksCRLF _ l.gap2 v0 _ hgap2 hv0out
  have hlast2 : find_last_not_of l.propertyText blanksCRLF =
      l.lead.length + (l.name ++ l.gap1).length + 1 + l.gap2.length + vinit.length := by
    have e : l.propertyText = (l.lead ++ l.name ++ l.gap1 ++ ['='] ++ l.gap2 ++ vinit) ++
        vl :: l.trail := by
      simp [HeaderLine.propertyText, hvl]
    rw [e, find_last_not_of_run blanksCRLF _ vl l.trail htrail hvlout]
    simp only [List.length_append, List.length_singleton]; omega
  have hvlen : l.value.length = vinit.length + 1 := by rw [hvl]; simp
  have hval : substr l.propertyText
      (l.lead.length + (l.name ++ l.gap1).length + 1 + l.gap2.length)
      l.value.length = some l.value := by
    have e : l.propertyText = (l.lead ++ l.name ++ l.gap1 ++ ['='] ++ l.gap2) ++ l.value ++
        l.trail := by
      simp [HeaderLine.propertyText]
    have hl : l.lead.length + (l.name ++ l.gap1).length + 1 + l.gap2.length =
        (l.lead ++ l.name ++ l.gap1 ++ ['='] ++ l.gap2).length := by
      simp only [List.length_append, List.length_singleton]; omega
    rw [e, hl]
    exact substr_mid _ _ _
  have hng : (l.name ++ l.gap1).length = l.name.length + l.gap1.length := List.length_append _ _
  have hnpos : ¬ (l.lead.length = npos) := by
    unfold npos; omega
  have hnonempty : l.name.isEmpty = false := by rw [hn0]; rfl
  have hguard : l.lead.length + (l.name ++ l.gap1).length < sizeSub l.propertyText.length 1 := by
    rw [sizeSub_small _ _ (by omega) (by omega)]
    omega
  unfold Configuration.parseLine
  simp only [hbegin, if_neg hnpos, hget, hmark, ne_eq, not_true_eq_false, if_false, hend]
  rw [sizeSub_small _ _ (by omega) (by omega), Nat.add_sub_cancel_left, hkey0]
  simp only [hlast]
  rw [sizeAdd_small _ _ (by omega), herase]
  simp only [hnonempty, Bool.false_eq_true, if_false, if_pos hguard]
  rw [sizeAdd_small _ 1 (by omega), hbegin2, hlast2, sizeAdd_small _ 1 (by omega),
    sizeSub_small _ _ (by omega) (by omega)]
  have hsub : l.lead.length + (l.name ++ l.gap1).length + 1 + l.gap2.length + vinit.length + 1 -
      (l.lead.length + (l.name ++ l.gap1).length + 1 + l.gap2.length) = l.value.length := by
    omega
  rw [hsub, hval]

theorem parseLine_valid (m : PropertyMap) (c : ConfigLine) (hv : c.valid = true) :
    Configuration.parseLine m c.text = some (ConfigLine.store m c) := by
  cases c with
  | blank s =>
    simp only [ConfigLine.valid, List.all_eq_true, decide_eq_true_eq] at hv
    exact parseLine_skips_blank m s hv
  | comment lead mark rest =>
    simp only [ConfigLine.valid, Bool.and_eq_true, Bool.or_eq_true, List.all_eq_true,
      decide_eq_true_eq] at hv
    exact parseLine_skips_comment m lead mark rest hv.1 hv.2
  | property l => exact parseLine_stores_property m l hv

theorem assign_value (m : PropertyMap) (key value : List Char) :
    PropertyMap.value (PropertyMap.assign m key value) key = some value := by
  induction m with
  | nil => simp [PropertyMap.assign, PropertyMap.value, List.lookup]
  | cons e m ih =>
    obtain ⟨k, v⟩ := e
    unfold PropertyMap.assign
    by_cases hk : k = key
    · rw [if_pos hk]
      simp [PropertyMap.value, List.lookup]
    · rw [if_neg hk]
      have hk' : (key == k) = false := by
        simpa using fun h => hk h.symm
      unfold PropertyMap.value at ih ⊢
      rw [List.lookup, hk']
      exact ih

/-- C30 (counterexample): a carriage return is white space, but `parseLines` looks for the
first character outside SP, FF, HT, VT only.  The line `<CR>key = v` stores `v` under
the key `<CR>key`, with the carriage return kept, and nothing under `key`; the line
`<CR># c=1`, whose first character after white space is `#`, is not skipped but stores
`1` under `<CR># c`. -/
theorem parseLines_keeps_leading_CR :
    Configuration.parseLines [] ["\rkey = v".toList] =
      some [("\rkey".toList, "v".toList)] ∧
    (Configuration.parseLines [] ["\rkey = v".toList]).map
      (fun m => PropertyMap.value m "key".toList) = some none ∧
    Configuration.parseLines [] ["\r# c=1".toList] =
      some [("\r# c".toList, "1".toList)] := by
  decide

/-- C30 (amended): `Configuration::parseLines` skips lines made of white space only and
lines whose first character after leading SP, FF, HT, VT is `#` or `;`, and for every
other line of the form `key = value` stores the value under the key, where leading SP, FF,
HT, VT and trailing SP, FF, HT, VT, CR, LF are trimmed from the key, SP, FF, HT, VT, CR, LF
are trimmed on both sides of the value, and embedded white space is kept; the lines
`# comment`, an empty line, `   ; semicolon comment` and `entropy.port = 8080  ` give
exactly one property, `entropy.port`, with the value `8080`. -/
theorem parseLines_spec (lines : List ConfigLine) (hv : ∀ c ∈ lines, c.valid = true) :
    (∀ m : PropertyMap, Configuration.parseLines m (lines.map ConfigLine.text) =
      some (lines.foldl ConfigLine.store m)) ∧
    (∀ (m : PropertyMap) (key value : List Char),
      PropertyMap.value (PropertyMap.assign m key value) key = some value) ∧
    Configuration.parseLines []
      (getlines "# comment\n\n   ; semicolon comment\nentropy.port = 8080  \n".toList []) =
      some [("entropy.port".toList, "8080".toList)] := by
  refine ⟨?_, assign_value, by decide⟩
  induction lines with
  | nil => intro m; rfl
  | cons c cs ih =>
    intro m
    rw [List.map_cons, Configuration.parseLines,
      parseLine_valid m c (hv c (List.mem_cons_self _ _))]
    exact ih (fun x hx => hv x (List.mem_cons_of_mem _ hx)) _

theorem parseLines_spec_witness :
    Configuration.parseLines []
      ([ConfigLine.comment [] '#' " comment".toList, .blank [],
        .comment "   ".toList ';' " semicolon comment".toList,
        .property ⟨[], "entropy.port".toList, " ".toList, " ".toList, "8080".toList,
          "  ".toList⟩,
        .property ⟨"\t".toList, "log file".toList, [], [], "a b  c".toList, "\r".toList⟩].map
        ConfigLine.text) =
      some [("entropy.port".toList, "8080".toList), ("log file".toList, "a b  c".toList)] :=
  (parseLines_spec
    [ConfigLine.comment [] '#' " comment".toList, .blank [],
      .comment "   ".toList ';' " semicolon comment".toList,
      .property ⟨[], "entropy.port".toList, " ".toList, " ".toList, "8080".toList,
        "  ".toList⟩,
      .property ⟨"\t".toList, "log file".toList, [], [], "a b  c".toList, "\r".toList⟩]
    (by decide)).1 []

/-! ## Claims on integer properties, on the exceptions of the two line parsers and on the
line buffer -/

theorem isInteger_of_chars (p : Property) (hne : p.propValue ≠ [])
    (hall : ∀ c ∈ p.propValue, c ∈ "-0123456789".toList) : p.isInteger = true := by
  unfold Property.isInteger
  have h1 : p.propValue.isEmpty = false := by
    cases hv : p.propValue with
    | nil => exact absurd hv hne
    | cons c cs => rfl
  have h2 : find_first_not_of p.propValue "-0123456789".toList 0 = npos := by
    unfold find_first_not_of
    rw [List.drop_zero,
      (takeWhile_all (fun c => decide (c ∈ "-0123456789".toList)) p.propValue
        (by simpa using hall)).2]
  rw [h1, h2]
  rfl

/-- C31 (divergence): `Property::isInteger` only checks that the value is not empty and
made of the characters `-0123456789`, so it returns `true` for `1-2`, `--`, `-` and `5-`,
none of which is a decimal integer with an optional leading sign (`getIntValue` then
yields 1, 0, 0 and 5), and it returns `false` for `+5`. -/
theorem isInteger_accepts_misplaced_signs :
    (Property.isInteger ⟨"entropy.port".toList, "1-2".toList⟩ = true ∧
      isSignedDecimal "1-2".toList = false ∧
      Property.getIntValue ⟨"entropy.port".toList, "1-2".toList⟩ = 1) ∧
    (Property.isInteger ⟨"entropy.port".toList, "--".toList⟩ = true ∧
      isSignedDecimal "--".toList = false ∧
      Property.getIntValue ⟨"entropy.port".toList, "--".toList⟩ = 0) ∧
    (Property.isInteger ⟨"entropy.port".toList, "-".toList⟩ = true ∧
      isSignedDecimal "-".toList = false) ∧
    (Property.isInteger ⟨"entropy.port".toList, "5-".toList⟩ = true ∧
      isSignedDecimal "5-".toList = false) ∧
    (Property.isInteger ⟨"entropy.port".toList, "+5".toList⟩ = false ∧
      isSignedDecimal "+5".toList = true) ∧
    (Property.isInteger ⟨"entropy.port".toList, "-8080".toList⟩ = true ∧
      isSignedDecimal "-8080".toList = true) := by
  decide

/-- C32 (divergence): for the line `X-Empty:` with delimiter `:` and for the line `HTTP/`
with delimiter `/` the second `substr` call of `HttpResponse::parseLine` is made at
position `npos` and throws `std::out_of_range`; a response with such a line ends the
constructor of `HttpResponse` by that exception. -/
theorem parseLine_throws_on_empty_value :
    (HttpResponse.parseLine Headers.empty "X-Empty:\r\n".toList ':').isNone = true ∧
    (HttpResponse.parseLine Headers.empty "HTTP/\r\n".toList '/').isNone = true ∧
    (HttpResponse.parseLine Headers.empty "X-Empty:   \r\n".toList ':').isNone = true ∧
    HttpResponse.parseResponse [.data "HTTP/1.0 200 OK\r\nX-Empty:\r\n\r\n".toList] = .threw ∧
    (HttpResponse.construct [.data "HTTP/1.0 200 OK\r\nX-Empty:\r\n\r\n".toList]
      false []).isNone = true := by
  refine ⟨by decide, by decide, by decide, by rfl, by decide⟩

theorem parseLoop_overflow (fuel : Nat) (sock : Sock Char) (nlc : Nat) (fl : Bool)
    (h : Headers) (seg rest : List Char) (hb : sock.bytes = seg ++ '\n' :: rest)
    (hnl : ∀ c ∈ seg, c ≠ '\n') (hlen : seg.length = 255) (hfuel : sock.size < fuel) :
    HttpResponse.parseLoop fuel sock [] nlc fl h = .overflow := by
  obtain ⟨sock1, fuel1, hb1, hf1, e1⟩ := parseLoop_stores seg fuel sock [] nlc fl h
    ('\n' :: rest) hb hnl (by simp only [List.length_nil]; omega) hfuel
  obtain ⟨sock2, hread, -, -⟩ := read_one sock1 '\n' rest hb1
  cases fuel1 with
  | zero => omega
  | succ fuel1 =>
    rw [e1, List.nil_append, HttpResponse.parseLoop, hread]
    simp only []
    rw [if_neg (by omega), if_pos trivial,
      if_pos (by simp only [List.length_append, List.length_singleton]; omega)]

/-- C33 (divergence): when the first line of a response has exactly 256 bytes, the last
one being the line feed, `parseResponse` stores the line feed at `line[255]` and then
writes the terminating NUL at `line[256]`, one past the end of `char line[256]`. -/
theorem parseResponse_writes_past_line :
    HttpResponse.parseResponse
      [.data ('H' :: List.replicate 254 'a'), .data ('\n' :: "\r\n".toList)] = .overflow := by
  unfold HttpResponse.parseResponse
  apply parseLoop_overflow
    (Sock.size [ReadEvent.data ('H' :: List.replicate 254 'a'), .data ('\n' :: "\r\n".toList)] + 1)
    [.data ('H' :: List.replicate 254 'a'), .data ('\n' :: "\r\n".toList)]
    0 true Headers.empty ('H' :: List.replicate 254 'a') "\r\n".toList
  · simp only [Sock.bytes, List.append_nil]
  · intro c hc
    rcases List.mem_cons.mp hc with hc | hc
    · rw [hc]; decide
    · rw [(List.mem_replicate.mp hc).2]; decide
  · rw [List.length_cons, List.length_replicate]
  · exact Nat.lt_add_one _

/-- C34 (divergence): for the line `key =   `, whose value after `=` is white space only,
the guard `end < s.size() - 1` of `Configuration::parseLines` holds, `find_first_not_of`
returns `npos`, and `substr` throws `std::out_of_range`; the same happens for `key = `. -/
theorem parseLines_throws_on_blank_value :
    Configuration.parseLines [] (getlines "key =   ".toList []) = none ∧
    Configuration.parseLines [] (getlines "entropy.port = 8080\nkey = \n".toList []) = none ∧
    Configuration.parseLines [] (getlines "key =\n".toList []) = some [] := by
  decide

/-! ## Claims on the session key and on the hex codec round trip -/

theorem range_succ_map {α : Type} (f : Nat → α) (n : Nat) :
    (List.range (n + 1)).map f = f 0 :: (List.range n).map (fun i => f (i + 1)) := by
  rw [List.range_succ_eq_map, List.map_cons, List.map_map]
  rfl

theorem initializeRandomBytes_eq {σ : Type} (rand : σ → Nat × σ) (n : Nat) :
    ∀ s : σ, CryptoToken.initializeRandomBytes rand n s =
      ((List.range n).map (fun i => UInt8.ofNat (randOutput rand s i % 256)),
        randState rand s n) := by
  induction n with
  | zero => intro s; rfl
  | succ n ih =>
    intro s
    rw [CryptoToken.initializeRandomBytes, ih, range_succ_map]
    rfl

/-- C35: the 48-byte session key built by the constructor of `CryptoToken` is
`key[i] = (i-th next output of rand()) mod 256` for `i = 0 .. 47`; it is a function of the
state of the generator alone (the cryptor handed to the constructor plays no part, and
nothing in the program seeds the generator), so two runs that start from the same state
build the same key; the constructor leaves the generator 48 calls further. -/
theorem session_key_from_rand {σ : Type} (rsaCryptor : RSACryptor) (rand : σ → Nat × σ)
    (s : σ) :
    (CryptoToken.construct rsaCryptor rand s).1.key =
      (List.range 48).map (fun i => UInt8.ofNat (randOutput rand s i % 256)) ∧
    (CryptoToken.construct rsaCryptor rand s).1.key.length = 48 ∧
    (CryptoToken.construct rsaCryptor rand s).2 = randState rand s 48 ∧
    ∀ rsaCryptor' : RSACryptor,
      (CryptoToken.construct rsaCryptor' rand s).1.key =
        (CryptoToken.construct rsaCryptor rand s).1.key := by
  have h := initializeRandomBytes_eq rand 48 s
  refine ⟨?_, ?_, ?_, fun _ => rfl⟩
  · show (CryptoToken.initializeRandomBytes rand 48 s).1 = _
    rw [h]
  · exact initializeRandomBytes_length rand 48 s
  · show (CryptoToken.initializeRandomBytes rand 48 s).2 = _
    rw [h]

/-- C38: for every non-empty byte sequence `b`, `BinHexConverter::toHex` returns `true`
with `2 |b|` characters and `BinHexConverter::toBin` applied to them returns `true` with
output exactly `b`; for the empty sequence both `toHex` and `toBin` return `false`. -/
theorem toHex_toBin_inverse (b : List Byte) (hb : 1 ≤ b.length) :
    (∃ hex, BinHexConverter.toHex b = some hex ∧ hex.length = 2 * b.length ∧
      BinHexConverter.toBin hex = some b) ∧
    BinHexConverter.toHex [] = none ∧ BinHexConverter.toBin [] = none := by
  refine ⟨⟨BinHexConverter.toHexLoop b, ?_, toHexLoop_length b, ?_⟩, rfl, rfl⟩
  · unfold BinHexConverter.toHex
    rw [if_neg (by omega)]
  · exact toBin_toHexLoop b (by intro h; rw [h] at hb; simp at hb)

theorem toHex_toBin_inverse_witness :
    (∃ hex, BinHexConverter.toHex [0xDE, 0xAD, 0x0B] = some hex ∧
      hex.length = 2 * [(0xDE : Byte), 0xAD, 0x0B].length ∧
      BinHexConverter.toBin hex = some [0xDE, 0xAD, 0x0B]) ∧
    BinHexConverter.toHex [] = none ∧ BinHexConverter.toBin [] = none :=
  toHex_toBin_inverse [0xDE, 0xAD, 0x0B] (by decide)

/-! ## Claims on the bounds of the feeder and on the token round trip -/

theorem fillLoopChecked_eq (n : Nat) :
    ∀ (i : Nat) (deq2 : List Byte), n ≤ deq2.length → i + n ≤ 65536 →
      fillLoopChecked i n deq2 = some (deq2.take n, deq2.drop n) := by
  induction n with
  | zero => intro i deq2 _ _; rfl
  | succ n ih =>
    intro i deq2 hlen hi
    cases deq2 with
    | nil => simp at hlen
    | cons x deq2 =>
      simp only [List.length_cons] at hlen
      have hlt : ¬ ((i : Int) ≥ MAX_POOL_SIZE_BYTES) := by
        unfold MAX_POOL_SIZE_BYTES
        omega
      rw [fillLoopChecked, if_neg hlt, ih (i + 1) deq2 (by omega) (by omega)]
      rfl

/-- C36: for every entropy count `e ≥ 0`, pool byte count `0 ≤ p ≤ 65536` and egress
queue, whenever the guard of the feeder holds (`e < p * 8 / 2` and the queue not empty),
the feeder submits a record whose byte count satisfies
`1 ≤ addMoreBytes ≤ min(p, |egress|)`, and the fill loop runs without writing
`entropy.data` at an index of 65536 or more and without taking a byte from an empty
queue. -/
theorem feed_fill_within_bounds (p e : Int) (deq2 : List Byte) (he : 0 ≤ e)
    (hp : 0 ≤ p ∧ p ≤ 65536)
    (hguard : e < Int.tdiv (p * 8) 2 ∧ deq2.length > 0) :
    ∃ r deq2', feedStep p e deq2 = (some r, deq2') ∧
      1 ≤ r.buf_size ∧ r.buf_size ≤ min p (deq2.length : Int) ∧
      (r.data.length : Int) = r.buf_size ∧
      fillLoopChecked 0 r.buf_size.toNat deq2 = some (r.data, deq2') := by
  rw [pool_watermark] at hguard
  have hne : deq2 ≠ [] := by
    intro h
    rw [h] at hguard
    simp at hguard
  have hlen : 1 ≤ (deq2.length : Int) := by omega
  refine ⟨_, _, feedStep_inject p e deq2 ⟨hguard.1, hne⟩, ?_, ?_, ?_, ?_⟩
  · show 1 ≤ min (p - e / 8) (deq2.length : Int)
    omega
  · show min (p - e / 8) (deq2.length : Int) ≤ min p (deq2.length : Int)
    omega
  · show ((deq2.take (min (p - e / 8) (deq2.length : Int)).toNat).length : Int) =
      min (p - e / 8) (deq2.length : Int)
    rw [List.length_take]
    omega
  · show fillLoopChecked 0 (min (p - e / 8) (deq2.length : Int)).toNat deq2 = _
    exact fillLoopChecked_eq _ 0 deq2 (by omega) (by omega)

theorem feed_fill_within_bounds_witness :
    ∃ r deq2', feedStep 512 100 [1, 2, 3] = (some r, deq2') ∧
      1 ≤ r.buf_size ∧ r.buf_size ≤ min 512 (([1, 2, 3] : List Byte).length : Int) ∧
      (r.data.length : Int) = r.buf_size ∧
      fillLoopChecked 0 r.buf_size.toNat [1, 2, 3] = some (r.data, deq2') :=
  feed_fill_within_bounds 512 100 [1, 2, 3] (by decide) (by decide) (by decide)

theorem createTokenAsTextBounded_overflow (t : CryptoToken) (tokenText : List Char)
    (crypterEncrypted : List Byte)
    (henc : t.rsaCryptor.encryptWithPublicKey t.key = some crypterEncrypted)
    (hc : crypterEncrypted.length = 300) :
    t.createTokenAsTextBounded tokenText = .overflow := by
  unfold CryptoToken.createTokenAsTextBounded
  rw [henc]
  simp only [BinHexConverter.toHex]
  rw [if_neg (by omega), if_neg (by omega)]
  simp only []
  rw [if_pos (by rw [toHexLoop_length]; omega)]

theorem createTokenAsTextBounded_returns (t : CryptoToken) (tokenText : List Char)
    (crypterEncrypted : List Byte)
    (henc : t.rsaCryptor.encryptWithPublicKey t.key = some crypterEncrypted)
    (hc : 1 ≤ crypterEncrypted.length ∧ crypterEncrypted.length ≤ 299) :
    t.createTokenAsTextBounded tokenText =
      .returned (some (tokenText ++ BinHexConverter.toHexLoop crypterEncrypted)) ∧
    t.createTokenAsText tokenText =
      some (tokenText ++ BinHexConverter.toHexLoop crypterEncrypted) := by
  refine ⟨?_, createTokenAsText_eq t tokenText crypterEncrypted henc hc⟩
  unfold CryptoToken.createTokenAsTextBounded
  rw [henc]
  simp only [BinHexConverter.toHex]
  rw [if_neg (by omega), if_neg (by omega)]
  simp only []
  rw [if_neg (by rw [toHexLoop_length]; omega)]

/-- The round trip of the crypto token where it holds: when the decryption of the loading
token inverts the encryption of the key `K` of 48 bytes, and the ciphertext has 5 to 299
bytes, `createTokenAsText` started from the empty string stays within its arrays and
returns a text which `loadTokenFomText` accepts, setting the key of the loading token to
`K`. -/
theorem token_roundtrip (creator loader : CryptoToken) (crypterEncrypted : List Byte)
    (henc : creator.rsaCryptor.encryptWithPublicKey creator.key = some crypterEncrypted)
    (hdec : loader.rsaCryptor.decryptWithPrivateKey crypterEncrypted = some creator.key)
    (hc : 5 ≤ crypterEncrypted.length ∧ crypterEncrypted.length ≤ 299)
    (hK : creator.key.length = 48) (hL : loader.key.length = 48) :
    ∃ text, creator.createTokenAsTextBounded [] = .returned (some text) ∧
      text.length = 2 * crypterEncrypted.length ∧
      loader.loadTokenFomText text = some (true, { loader with key := creator.key }) := by
  refine ⟨BinHexConverter.toHexLoop crypterEncrypted, ?_, toHexLoop_length _, ?_⟩
  · have := (createTokenAsTextBounded_returns creator [] crypterEncrypted henc
      ⟨by omega, hc.2⟩).1
    rw [this, List.nil_append]
  · unfold CryptoToken.loadTokenFomText
    have hlen := toHexLoop_length crypterEncrypted
    rw [if_neg (by omega)]
    have hbin : BinHexConverter.toBin (BinHexConverter.toHexLoop crypterEncrypted) =
        some crypterEncrypted :=
      toBin_toHexLoop crypterEncrypted (by intro h; rw [h] at hc; simp at hc)
    rw [hbin]
    simp only []
    rw [hdec]
    simp only []
    rw [if_pos (by omega), hK, ← hL, List.drop_length, List.append_nil]

/-- C37 (divergence): with a cryptor whose decryption inverts its encryption and whose
ciphertexts have 300 bytes, `createTokenAsText` writes the 600 hex characters to
`crypterEncryptedHex[0..599]` and the terminating NUL to `crypterEncryptedHex[600]`, past
the end of the array of 600 characters; with 299 bytes the text is created within the
arrays and loads back to the key of the creating token. -/
theorem createTokenAsText_writes_past_hex_buffer :
    (CryptoToken.construct (paddingCryptor 300) counterRand 0).1.createTokenAsTextBounded [] =
      .overflow ∧
    ∃ text,
      (CryptoToken.construct (paddingCryptor 299) counterRand 0).1.createTokenAsTextBounded [] =
        .returned (some text) ∧
      text.length = 598 ∧
      (CryptoToken.construct (paddingCryptor 299) counterRand 48).1.loadTokenFomText text =
        some (true, { (CryptoToken.construct (paddingCryptor 299) counterRand 48).1 with
          key := (CryptoToken.construct (paddingCryptor 299) counterRand 0).1.key }) := by
  have hK : ∀ c s, (CryptoToken.construct (paddingCryptor c) counterRand s).1.key.length = 48 :=
    fun c s => initializeRandomBytes_length counterRand 48 s
  have hct : ∀ c, 48 ≤ c →
      ((CryptoToken.construct (paddingCryptor c) counterRand 0).1.key ++
        List.replicate (c - (CryptoToken.construct (paddingCryptor c) counterRand 0).1.key.length)
          (0 : Byte)).length = c := by
    intro c hc
    rw [List.length_append, List.length_replicate, hK]
    omega
  have henc : ∀ c, (CryptoToken.construct (paddingCryptor c) counterRand 0).1.rsaCryptor.encryptWithPublicKey
      (CryptoToken.construct (paddingCryptor c) counterRand 0).1.key =
      some ((CryptoToken.construct (paddingCryptor c) counterRand 0).1.key ++
        List.replicate (c - (CryptoToken.construct (paddingCryptor c) counterRand 0).1.key.length)
          (0 : Byte)) := fun _ => rfl
  have hdec : (CryptoToken.construct (paddingCryptor 299) counterRand 48).1.rsaCryptor.decryptWithPrivateKey
      ((CryptoToken.construct (paddingCryptor 299) counterRand 0).1.key ++
        List.replicate (299 - (CryptoToken.construct (paddingCryptor 299) counterRand 0).1.key.length)
          (0 : Byte)) = some (CryptoToken.construct (paddingCryptor 299) counterRand 0).1.key := by
    show some (((CryptoToken.construct (paddingCryptor 299) counterRand 0).1.key ++
      List.replicate _ (0 : Byte)).take 48) = _
    rw [List.take_left' (hK 299 0)]
  have hlen : (5 : Nat) ≤ 299 ∧ (299 : Nat) ≤ 299 := by decide
  refine ⟨?_, ?_⟩
  · exact createTokenAsTextBounded_overflow _ [] _ (henc 300) (hct 300 (by decide))
  · obtain ⟨text, h1, h2, h3⟩ := token_roundtrip
      (CryptoToken.construct (paddingCryptor 299) counterRand 0).1
      (CryptoToken.construct (paddingCryptor 299) counterRand 48).1 _ (henc 299) hdec
      (by rw [hct 299 (by decide)]; exact hlen) (hK 299 0) (hK 299 48)
    rw [hct 299 (by decide)] at h2
    exact ⟨text, h1, h2, h3⟩

/-! ## Claim on `split` -/

theorem findStr_some (t : List Char) (ht : t ≠ []) :
    ∀ (s : List Char) (i : Nat), findStr t s = some i →
      ∃ pre post, s = pre ++ t ++ post ∧ pre.length = i ∧ ¬ t <:+: pre := by
  intro s
  induction s with
  | nil =>
    intro i h
    simp [findStr, ht] at h
  | cons c cs ih =>
    intro i h
    rw [findStr] at h
    by_cases hp : t <+: c :: cs
    · rw [if_pos hp] at h
      obtain ⟨post, hpost⟩ := hp
      refine ⟨[], post, by simpa using hpost.symm, by simpa using h, ?_⟩
      intro hin
      exact ht (List.eq_nil_of_infix_nil hin)
    · rw [if_neg hp] at h
      cases hf : findStr t cs with
      | none => rw [hf] at h; simp at h
      | some j =>
        rw [hf] at h
        simp only [Option.some.injEq] at h
        obtain ⟨pre, post, hs, hlen, hno⟩ := ih j hf
        refine ⟨c :: pre, post, by rw [hs]; simp, by simp [hlen, h], ?_⟩
        intro hin
        rcases List.infix_cons_iff.mp hin with h1 | h1
        · apply hp
          rw [hs]
          exact h1.trans ⟨t ++ post, by simp⟩
        · exact hno h1

theorem findStr_none (t : List Char) :
    ∀ s : List Char, findStr t s = none → ¬ t <:+: s := by
  intro s
  induction s with
  | nil =>
    intro h hin
    have := List.eq_nil_of_infix_nil hin
    simp [findStr, this] at h
  | cons c cs ih =>
    intro h hin
    rw [findStr] at h
    by_cases hp : t <+: c :: cs
    · rw [if_pos hp] at h; simp at h
    · rw [if_neg hp] at h
      cases hf : findStr t cs with
      | none =>
        rcases List.infix_cons_iff.mp hin with h1 | h1
        · exact hp h1
        · exact ih hf h1
      | some j => rw [hf] at h; simp at h

theorem intercalate_cons_cons (t a b : List Char) (l : List (List Char)) :
    List.intercalate t (a :: b :: l) = a ++ t ++ List.intercalate t (b :: l) := by
  simp [List.intercalate]

theorem splitLoop_tokens (t : List Char) (ht : t ≠ []) (fuel : Nat) :
    ∀ (str : List Char) (acc : List (List Char)), str.length < fuel → str ≠ [] →
      ∃ toks, HttpResponse.splitLoop t fuel str acc = some (acc ++ toks) ∧ toks ≠ [] ∧
        (∀ tok ∈ toks, ¬ t <:+: tok) ∧ List.intercalate t toks = str := by
  induction fuel with
  | zero => intro str acc h; omega
  | succ fuel ih =>
    intro str acc hfuel hne
    have hlen : str.length ≠ 0 := by
      intro h; exact hne (List.length_eq_zero.mp h)
    obtain ⟨f, hf⟩ : ∃ f, fuel = f + 1 := ⟨fuel - 1, by omega⟩
    have htl : 0 < t.length := List.length_pos.mpr ht
    rw [HttpResponse.splitLoop, if_neg hlen]
    cases hfind : findStr t str with
    | none =>
      refine ⟨[str], ?_, by simp, ?_, by simp [List.intercalate]⟩
      · simp only []
        rw [hf, HttpResponse.splitLoop]
        simp only [List.length_nil, ↓reduceIte]
      · intro tok htok
        rw [List.mem_singleton.mp htok]
        exact findStr_none t str hfind
    | some i =>
      obtain ⟨pre, post, hs, hpl, hno⟩ := findStr_some t ht str i hfind
      have htake : str.take i = pre := by
        rw [hs, List.append_assoc, ← hpl]
        exact List.take_left' rfl
      have hdrop : str.drop (i + t.length) = post := by
        rw [hs, ← hpl]
        exact List.drop_left' (by simp)
      simp only []
      rw [htake, hdrop]
      by_cases hpost : post = []
      · refine ⟨[pre, []], ?_, by simp, ?_, ?_⟩
        · rw [hpost, hf, HttpResponse.splitLoop]
          simp
        · intro tok htok
          simp only [List.mem_cons, List.mem_singleton, List.not_mem_nil, or_false] at htok
          rcases htok with h1 | h1
          · rw [h1]; exact hno
          · rw [h1]
            intro hin
            exact ht (List.eq_nil_of_infix_nil hin)
        · rw [hs, hpost]
          simp [List.intercalate]
      · have hpl2 : post.length ≠ 0 := by
          intro h; exact hpost (List.length_eq_zero.mp h)
        rw [if_neg hpl2]
        obtain ⟨toks, h1, h2, h3, h4⟩ := ih post (acc ++ [pre])
          (by
            have := congrArg List.length hs
            simp only [List.length_append] at this
            omega) hpost
        refine ⟨pre :: toks, ?_, by simp, ?_, ?_⟩
        · rw [h1]; simp
        · intro tok htok
          rcases List.mem_cons.mp htok with h5 | h5
          · rw [h5]; exact hno
          · exact h3 tok h5
        · cases toks with
          | nil => exact absurd rfl h2
          | cons b l => rw [intercalate_cons_cons, h4, hs]

/-- C39: for every string `s` (shorter than `2 ^ 31` characters, so that the `int` index
holds every position) and every non-empty delimiter `t`, `HttpResponse::split(s, t)`
terminates; it returns the empty list when `s` is empty, and for a non-empty `s` it
returns tokens none of which contains `t` and whose concatenation with `t` put between
consecutive tokens is `s`. -/
theorem split_tokens (s t : List Char) (ht : t ≠ []) (_hs : s.length < 2 ^ 31) :
    ∃ tokens, HttpResponse.split s t = some tokens ∧
      (s = [] → tokens = []) ∧
      (s ≠ [] → (∀ tok ∈ tokens, ¬ t <:+: tok) ∧ List.intercalate t tokens = s) := by
  by_cases hne : s = []
  · refine ⟨[], ?_, fun _ => rfl, fun h => absurd hne h⟩
    rw [hne]
    rfl
  · obtain ⟨toks, h1, -, h3, h4⟩ := splitLoop_tokens t ht (s.length + 1) s [] (by omega) hne
    refine ⟨toks, ?_, fun h => absurd h hne, fun _ => ⟨h3, h4⟩⟩
    unfold HttpResponse.split
    rw [h1, List.nil_append]

theorem split_tokens_witness :
    ∃ tokens, HttpResponse.split "1.0, 200, OK".toList ", ".toList = some tokens ∧
      ("1.0, 200, OK".toList = [] → tokens = []) ∧
      ("1.0, 200, OK".toList ≠ [] → (∀ tok ∈ tokens, ¬ ", ".toList <:+: tok) ∧
        List.intercalate ", ".toList tokens = "1.0, 200, OK".toList) :=
  split_tokens "1.0, 200, OK".toList ", ".toList (by decide) (by decide)

end Epf
